import Mathlib

/-
Verification development for the promptyui prompt-pipeline engine.

The Python sources under src/ are shallowly embedded as Lean definitions:

* Python floats are modelled as exact rationals (ℚ).  All float arithmetic
  appearing in the embedded code paths (range generation, rounding to three
  decimals, comparisons) is exact decimal arithmetic on the concrete inputs
  used here, so the rational model agrees with the float computation on them.
* Python dicts are modelled as association lists (first binding wins on
  lookup, `update` replaces or appends bindings).
* `random.seed`-dependent code paths are not needed by the properties proved
  here; functions are embedded for the deterministic paths they take on the
  inputs considered.
* Fallible code is modelled with `Option`; fatal `sys.exit` paths are
  modelled as error results where a claim needs them.

Each claim of the specification is settled by one theorem near the end of
the file; definitions come first.
-/

/-! # Python primitives -/

/-- Python `round()` on an exact rational: round half to even (banker's
rounding), as Python's `round` does on floats. -/
def pyRound (q : ℚ) : ℤ :=
  let f := q.num / (q.den : ℤ)
  let r := q - f
  if r < 1/2 then f else if r > 1/2 then f + 1 else if f % 2 = 0 then f else f + 1

/-- `q.num / q.den` (integer division) is the floor of a rational. -/
theorem pyRound_floor_eq (q : ℚ) : q.num / (q.den : ℤ) = ⌊q⌋ :=
  Rat.floor_def.symm

/-- Python `round(v, 3)`: scale by 1000, round half to even, scale back. -/
def round3 (q : ℚ) : ℚ := mkRat (pyRound (q * 1000)) 1000

/-- Python `abs` on a rational. -/
def pyAbs (q : ℚ) : ℚ := if q < 0 then -q else q

/-- Python `max` of two rationals (`max(a, b)` returns `b` iff `a < b`). -/
def pyMax (a b : ℚ) : ℚ := if a < b then b else a

/-- Digit characters to the natural number they denote (base 10). -/
def digitsToNat (cs : List Char) : ℕ :=
  cs.foldl (fun a c => a * 10 + (c.toNat - 48)) 0

/-- Python whitespace characters recognised by `str.strip()`. -/
def isPySpace (c : Char) : Bool :=
  c = ' ' ∨ c = '\t' ∨ c = '\n' ∨ c = '\r' ∨ c = '\x0b' ∨ c = '\x0c'

/-- Python `s.strip()`. -/
def pyStrip (s : String) : String :=
  ⟨((s.toList.dropWhile isPySpace).reverse.dropWhile isPySpace).reverse⟩

/-- Python `s.lower()` (ASCII range, which covers the embedded inputs). -/
def pyLower (s : String) : String :=
  ⟨s.toList.map (fun c =>
    if 65 ≤ c.toNat ∧ c.toNat ≤ 90 then Char.ofNat (c.toNat + 32) else c)⟩

/-- ASCII digit test. -/
def isDigitChar (c : Char) : Bool := 48 ≤ c.toNat ∧ c.toNat ≤ 57

/-- Split a character list on every occurrence of the (non-empty) separator
`sep`; the fuel is the input length plus one, which always suffices. -/
def splitChars (sep : List Char) : ℕ → List Char → List Char → List (List Char)
  | 0, acc, _ => [acc.reverse]
  | _ + 1, acc, [] => [acc.reverse]
  | fuel + 1, acc, c :: rest =>
      if sep.isPrefixOf (c :: rest) then
        acc.reverse :: splitChars sep fuel [] ((c :: rest).drop sep.length)
      else splitChars sep fuel (c :: acc) rest

/-- Python `s.split(sep)` for a non-empty separator. -/
def strSplitOn (s sep : String) : List String :=
  if sep = "" then [s]
  else (splitChars sep.toList (s.toList.length + 1) [] s.toList).map String.mk

/-- Python `float(s)` on decimal literals: optional surrounding whitespace,
optional sign, digits with an optional fractional part.  (Exponents and the
special values `inf`/`nan` do not occur in the embedded call sites and are
not modelled; such strings yield `none`, which the callers treat like a
`ValueError`.) -/
def pyFloatOfString (s : String) : Option ℚ :=
  let cs := (pyStrip s).toList
  let signed : ℤ × List Char :=
    match cs with
    | '-' :: t => (-1, t)
    | '+' :: t => (1, t)
    | _ => (1, cs)
  let sign := signed.1
  let body := signed.2
  let intPart := body.takeWhile isDigitChar
  let rest := body.dropWhile isDigitChar
  match rest with
  | [] =>
      if intPart.isEmpty then none
      else some (mkRat (sign * digitsToNat intPart) 1)
  | '.' :: frac =>
      if frac.all isDigitChar ∧ (intPart ≠ [] ∨ frac ≠ []) then
        some (mkRat (sign * (digitsToNat intPart * 10 ^ frac.length + digitsToNat frac))
          (10 ^ frac.length))
      else none
  | _ => none

/-- Decimal digits of a natural number, most significant first (fuel-driven
division by 10; `fuel = n` always suffices). -/
def natDigitsAux : ℕ → ℕ → List Char
  | _, 0 => []
  | 0, _ => []
  | fuel + 1, n =>
      natDigitsAux fuel (n / 10) ++ [Char.ofNat (n % 10 + 48)]

/-- Decimal string of a natural number. -/
def natToStr (n : ℕ) : String := if n = 0 then "0" else ⟨natDigitsAux n n⟩

/-- Decimal string of an integer. -/
def intToStr (i : ℤ) : String :=
  if i < 0 then "-" ++ natToStr i.natAbs else natToStr i.natAbs

/-- Fractional decimal digits of `num/den` by long division (fuel-driven;
terminates early when the remainder hits zero). -/
def fracDigitsAux : ℕ → ℕ → ℕ → List Char
  | 0, _, _ => []
  | _ + 1, 0, _ => []
  | fuel + 1, r, den =>
      Char.ofNat (r * 10 / den + 48) :: fracDigitsAux fuel (r * 10 % den) den

/-- Python `str()` of a float-valued rational: integer part, `'.'`, and the
fractional digits (`"1.0"` when the value is integral).  Faithful for values
with a terminating decimal expansion of at most 30 digits, which covers every
`str(float)` output. -/
def pyStrOfRat (q : ℚ) : String :=
  let signStr := if q < 0 then "-" else ""
  let n := q.num.natAbs
  let d := q.den
  let ip := n / d
  let r := n % d
  let frac := if r = 0 then "0" else String.mk (fracDigitsAux 30 r d)
  signStr ++ natToStr ip ++ "." ++ frac

/-- Python `s.rstrip('0')` on a string. -/
def rstripZeros (s : String) : String :=
  ⟨(s.toList.reverse.dropWhile (· = '0')).reverse⟩

/-- Left-pad a digit string with zeros to length `p`. -/
def padZeros (s : String) (p : ℕ) : String :=
  ⟨List.replicate (p - s.length) '0'⟩ ++ s

/-- Python fixed-point formatting `f"{v:.pf}"` on an exact rational: round
half to even at `p` decimal places and print exactly `p` fractional digits. -/
def formatFixed (v : ℚ) (p : ℕ) : String :=
  let scaled := pyRound (v * (10 : ℚ) ^ p)
  let signStr := if v < 0 then "-" else ""
  let mag := scaled.natAbs
  if p = 0 then signStr ++ natToStr mag
  else signStr ++ natToStr (mag / 10 ^ p) ++ "." ++ padZeros (natToStr (mag % 10 ^ p)) p

/-- Python `s.split(sep, 1)`: the part before the first occurrence of `sep`,
and the remainder (if `sep` occurs). -/
def pySplitOnce (s sep : String) : String × Option String :=
  match strSplitOn s sep with
  | [] => (s, none)
  | [x] => (x, none)
  | x :: rest => (x, some (String.intercalate sep rest))

/-- Python `sep in s` (substring containment via split). -/
def pyContains (s sep : String) : Bool :=
  (strSplitOn s sep).length > 1

/-! # src/loras.py -/

namespace Loras

/-- `loras.generate_range_values(start_str, end_str, increment)`
(src/src/loras.py:84-140): parse both endpoints as floats, clamp the
increment to at least `0.001`, pick `2` steps when the gap is below the
increment and `round(|end-start|/increment) + 1` steps otherwise, produce the
evenly spaced values formed exactly as in the source, and round each to three
decimals.  Parse failures (`ValueError`) yield `[]`. -/
def generate_range_values (start_str : String) (end_str : Option String)
    (increment : ℚ) : List ℚ :=
  match pyFloatOfString start_str with
  | none => []
  | some start =>
    match end_str with
    | none => [start]
    | some es =>
      match pyFloatOfString es with
      | none => []
      | some endv =>
        if start = endv then [start]
        else
          let inc := pyMax (mkRat 1 1000) increment
          let diff := endv - start
          let num_steps : ℤ :=
            if pyAbs diff < inc then 2 else pyRound (pyAbs diff / inc) + 1
          let values : List ℚ :=
            if num_steps = 1 then [start]
            else (List.range num_steps.toNat).map
              (fun i : ℕ => start + (i : ℚ) * (endv - start) / ((num_steps : ℚ) - 1))
          values.map round3

/-- `loras.get_precision_from_increment(increment)`
(src/src/loras.py:143-165): number of decimal places of `str(increment)`
after stripping trailing zeros; `1` when there is no fractional part. -/
def get_precision_from_increment (increment : ℚ) : ℕ :=
  match strSplitOn (pyStrOfRat increment) "." with
  | _ :: fracPart :: _ => (rstripZeros fracPart).length
  | _ => 1

/-- An entry of the LoRA library built by `build_jobs` (alias → path,
default strength, trigger list). -/
structure LibEntry where
  path : String
  strength : Option ℚ
  triggers : List String
deriving Repr, DecidableEq

/-- One LoRA configuration dict produced by
`parse_lora_combination_string`. -/
structure LoraConfig where
  path : String
  strength : ℚ
  aliasName : String
  triggers : List String
  suffix_part : String
  remove_trigger : Bool
  trigger_idx : ℕ
deriving Repr, DecidableEq

/-- Association-list lookup (Python dict access). -/
def lookup {α : Type} (l : List (String × α)) (k : String) : Option α :=
  (l.find? (fun p => p.1 = k)).map Prod.snd

/-- The strength values for one `alias[:spec]` part
(src/src/loras.py:225-246): a `~~` range via `generate_range_values`, `off`
and `"0"`/`"0.0"` give `[0.0]`, a parseable float gives a singleton, an
unparseable spec and a missing spec give the library default. -/
def strengthValues (spec : Option String) (lib : LibEntry) (range_increment : ℚ) :
    List ℚ :=
  match spec with
  | some srs =>
      if pyContains srs "~~" then
        let ab := pySplitOnce srs "~~"
        generate_range_values (pyStrip ab.1) (pyStrip (ab.2.getD "")) range_increment
      else if srs = "off" then [0]
      else if srs = "0" ∨ srs = "0.0" then [0]
      else match pyFloatOfString srs with
        | some v => [v]
        | none => [lib.strength.getD 1]
  | none => [lib.strength.getD 1]

/-- The config dicts for one LoRA part at one strength value
(src/src/loras.py:254-291): `off` yields a single trigger-removing config;
otherwise one config per library trigger, with the 1-based trigger index
appended to the suffix. -/
def configsForStrength (aliasName : String) (lib : LibEntry) (spec : Option String)
    (format_precision : ℕ) (sv : ℚ) : List LoraConfig :=
  let base_suffix :=
    if spec = some "off" then "lora_" ++ aliasName ++ "[off]"
    else if sv = 0 then "lora_" ++ aliasName ++ "[" ++ formatFixed 0 format_precision ++ "]"
    else "lora_" ++ aliasName ++ "[" ++ formatFixed sv format_precision ++ "]"
  if spec = some "off" then
    [{ path := lib.path, strength := sv, aliasName := aliasName, triggers := [],
       suffix_part := base_suffix, remove_trigger := true, trigger_idx := 0 }]
  else
    let base_triggers := if lib.triggers = [] then [""] else lib.triggers
    base_triggers.enum.map (fun p =>
      { path := lib.path, strength := sv, aliasName := aliasName, triggers := [p.2],
        suffix_part := base_suffix ++ "[" ++ natToStr (p.1 + 1) ++ "]",
        remove_trigger := false, trigger_idx := p.1 + 1 })

/-- `loras.parse_lora_combination_string(lora_str, library, range_increment)`
(src/src/loras.py:168-296): split on `+`, skip empty parts and aliases that
are not in the library (the source only prints a warning for those), and
collect, per surviving part, the config array over all strength values and
triggers. -/
def parse_lora_combination_string (combo : String)
    (library : List (String × LibEntry)) (range_increment : ℚ) :
    List (List LoraConfig) :=
  let precision := get_precision_from_increment range_increment
  (strSplitOn combo "+").foldl (fun acc rawPart =>
    let part := pyStrip rawPart
    if part = "" then acc
    else
      let aliasName := (pySplitOnce part ":").1
      match lookup library aliasName with
      | none => acc
      | some lib =>
        let spec : Option String :=
          if pyContains part ":" then
            some (pyStrip (pyLower ((pySplitOnce part ":").2.getD "")))
          else none
        let svs := strengthValues spec lib range_increment
        let configs := svs.foldl
          (fun cfgs sv => cfgs ++ configsForStrength aliasName lib spec precision sv) []
        if configs = [] then acc else acc ++ [configs]) []

/-- `itertools.product(*lists)`: all selections, rightmost factor fastest. -/
def listProduct {α : Type} : List (List α) → List (List α)
  | [] => [[]]
  | xs :: rest => xs.flatMap (fun x => (listProduct rest).map (x :: ·))

end Loras

/-! # src/jobs.py — permutation and finalisation phases

`build_jobs` (src/src/jobs.py:267-986) runs an expansion phase over the raw
prompt entries (extends/wildcard processing, driven by YAML input and a
seeded RNG) and then deterministic permutation phases over the resulting
`expanded_prompts` list.  The embedding below is parametric in the output of
the expansion phase: a `Jobs.Prompt` carries exactly the fields of an
expanded prompt entry that the later phases read. -/

namespace Jobs

/-- A scalar value occurring in sampler configuration dicts. -/
inductive Scalar where
  | s (v : String)
  | i (v : ℤ)
  | q (v : ℚ)
  | b (v : Bool)
deriving Repr, DecidableEq

/-- Python `str()` of a sampler-config scalar. -/
def Scalar.toStr : Scalar → String
  | .s v => v
  | .i v => intToStr v
  | .q v => pyStrOfRat v
  | .b v => if v then "True" else "False"

/-- Python `int()` of a sampler-config scalar (string case restricted to
decimal literals, as in the job files). -/
def Scalar.toInt : Scalar → ℤ
  | .s v => match pyFloatOfString v with
    | some x => Int.tdiv x.num x.den
    | none => 0
  | .i v => v
  | .q v => Int.tdiv v.num v.den
  | .b v => if v then 1 else 0

/-- Python `float()` of a sampler-config scalar. -/
def Scalar.toRat : Scalar → ℚ
  | .s v => (pyFloatOfString v).getD 0
  | .i v => (v : ℚ)
  | .q v => v
  | .b v => if v then 1 else 0

/-- An expanded prompt entry (output of the expansion phase of
`build_jobs`), restricted to the fields the permutation phases read. -/
structure Prompt where
  id : Option String := none
  text : String := ""
  loras : List String := []
  resolutions : List (List String) := []
  inputs : Option (List String) := none
deriving Repr, DecidableEq

/-- Generation parameters dict `{width, height, steps, cfg}`. -/
structure Params where
  width : ℤ
  height : ℤ
  steps : ℤ
  cfg : ℚ
deriving Repr, DecidableEq

/-- A job record as produced by `build_jobs`.  Keys the source adds only in
later phases are modelled as fields with inert defaults. -/
structure Job where
  prompt : Prompt
  loras : List Loras.LoraConfig
  filename_suffix : String
  inputs : Option (List String) := none
  sampler : Option String := none
  scheduler : Option String := none
  params : Params := ⟨1024, 1024, 9, 1⟩
  sampler_params : List (String × Scalar) := []
  original_index : ℕ := 0
  resolution_expressions : Option (List String) := none
deriving Repr, DecidableEq

/-- `loras.generate_job_permutations(prompt_entry, list_of_strength_arrays)`
(src/src/loras.py:383-435): Cartesian product of the per-LoRA config arrays;
each combination yields one job whose suffix joins the per-part suffixes
with `_`; an `inputs` field is copied through when present. -/
def generate_job_permutations (p : Prompt) (arrays : List (List Loras.LoraConfig)) :
    List Job :=
  (Loras.listProduct arrays).map (fun combo =>
    { prompt := p, loras := combo,
      filename_suffix := String.intercalate "_" (combo.map (·.suffix_part)),
      inputs := p.inputs })

/-- The LoRA permutation loop of `build_jobs` (src/src/jobs.py:790-814): a
prompt with its own combination strings expands each of them; otherwise the
library's default aliases are used; with neither, a single `base` job is
emitted. -/
def loraPhase (expanded : List Prompt) (library : List (String × Loras.LibEntry))
    (range_increment : ℚ) (default_loras : List String) : List Job :=
  expanded.flatMap (fun p =>
    if p.loras ≠ [] then
      p.loras.flatMap (fun s =>
        generate_job_permutations p
          (Loras.parse_lora_combination_string s library range_increment))
    else if default_loras ≠ [] then
      default_loras.flatMap (fun a =>
        generate_job_permutations p
          (Loras.parse_lora_combination_string a library range_increment))
    else
      [{ prompt := p, loras := [], filename_suffix := "base", inputs := p.inputs }])

/-- One entry of the `suffixes` configuration consumed by
`build_suffix_string` (`show` is a Lean keyword, hence `showIt`). -/
structure SuffixConf where
  name : Option String := none
  aliasName : Option String := none
  showIt : Bool := true
deriving Repr, DecidableEq

/-- `loras.build_suffix_string(params, sampler_params, suffix_config)`
(src/src/loras.py:299-380). -/
def build_suffix_string (params : Params) (sampler_params : List (String × Scalar))
    (suffix_config : List SuffixConf) : String :=
  if suffix_config = [] then
    let base := "_cfg[" ++ pyStrOfRat params.cfg ++ "]_steps[" ++ intToStr params.steps ++
      "]_width[" ++ intToStr params.width ++ "]_height[" ++ intToStr params.height ++ "]"
    match Loras.lookup sampler_params "shift" with
    | some v => base ++ "_shift[" ++ v.toStr ++ "]"
    | none => base
  else
    let suffix_lookup : List (String × (String × Bool)) :=
      suffix_config.foldl (fun acc c =>
        match c.name with
        | none => acc  -- a None key would be unusable downstream
        | some n =>
            let entry := (n, (c.aliasName.getD n, c.showIt))
            if (Loras.lookup acc n).isSome
            then acc.map (fun p => if p.1 = n then entry else p)
            else acc ++ [entry]) []
    let stdPart : List String :=
      (["cfg", "steps", "width", "height"]).foldl (fun acc pname =>
        let value : String :=
          if pname = "cfg" then pyStrOfRat params.cfg
          else if pname = "steps" then intToStr params.steps
          else if pname = "width" then intToStr params.width
          else intToStr params.height
        match Loras.lookup suffix_lookup pname with
        | some conf => if conf.2 then acc ++ [conf.1 ++ "[" ++ value ++ "]"] else acc
        | none => acc ++ [pname ++ "[" ++ value ++ "]"]) []
    let allParts := sampler_params.foldl (fun acc pv =>
      match Loras.lookup suffix_lookup pv.1 with
      | some conf => if conf.2 then acc ++ [conf.1 ++ "[" ++ pv.2.toStr ++ "]"] else acc
      | none => acc ++ [pv.1 ++ "[" ++ pv.2.toStr ++ "]"]) stdPart
    if allParts = [] then "" else "_" ++ String.intercalate "_" allParts

/-- A value in a sampler configuration dict: scalar or list (list-valued
keys are permuted). -/
inductive SVal where
  | scalar (v : Scalar)
  | list (vs : List Scalar)
deriving Repr, DecidableEq

/-- A sampler configuration dict; `sampler` is kept apart from the other
items exactly as the source's loop treats it. -/
structure SamplerDict where
  sampler : Option String := none
  entries : List (String × SVal) := []
deriving Repr, DecidableEq

/-- One entry of the `active_samplers` list. -/
inductive ActiveSampler where
  | noneA
  | strA (s : String)
  | dictA (d : SamplerDict)
deriving Repr, DecidableEq

/-- The `samplers_config` argument of `build_jobs`. -/
inductive SamplersConfig where
  | noneC
  | strC (s : String)
  | listC (l : List ActiveSampler)
deriving Repr, DecidableEq

/-- `active_samplers` normalisation (src/src/jobs.py:822-829); `not
samplers_config` is Python truthiness (None, empty string, empty list). -/
def activeSamplers : SamplersConfig → List ActiveSampler
  | .noneC => [.noneA]
  | .strC s => if s = "" then [.noneA] else [.strA s]
  | .listC l => if l = [] then [.noneA] else l

/-- The `skip` guard on a dict sampler entry (src/src/jobs.py:838). -/
def SamplerDict.isSkip (d : SamplerDict) : Bool :=
  match Loras.lookup d.entries "skip" with
  | some (.scalar (.b v)) => v
  | _ => false

/-- Standard keys excluded from `sampler_params` (src/src/jobs.py:868). -/
def standardKeys : List String := ["sampler", "scheduler", "width", "height", "steps", "cfg"]

/-- Apply a combined sampler config to the default params
(src/src/jobs.py:893-900 and 925-932). -/
def applyParams (combined : List (String × Scalar)) (defaults : Params) : Params :=
  let p1 := match Loras.lookup combined "width" with
    | some v => { defaults with width := v.toInt } | none => defaults
  let p2 := match Loras.lookup combined "height" with
    | some v => { p1 with height := v.toInt } | none => p1
  let p3 := match Loras.lookup combined "steps" with
    | some v => { p2 with steps := v.toInt } | none => p2
  match Loras.lookup combined "cfg" with
  | some v => { p3 with cfg := v.toRat } | none => p3

/-- The scheduler value of a combined config (string-valued in the job
files modelled here). -/
def schedulerOf (combined : List (String × Scalar)) : Option String :=
  match Loras.lookup combined "scheduler" with
  | some (.s v) => some v
  | _ => none

/-- `_{sampler}_{scheduler}{suffix}` appended when a sampler name is set
(src/src/jobs.py:849-853 and 907-911 and 939-943). -/
def samplerSuffix (sampler_name : Option String) (scheduler : Option String)
    (params : Params) (s_params : List (String × Scalar))
    (suffix_config : List SuffixConf) : String :=
  match sampler_name with
  | none => ""
  | some n =>
      let sched := match scheduler with
        | some s => if s = "" then "simple" else s
        | none => "simple"
      "_" ++ n ++ "_" ++ sched ++ build_suffix_string params s_params suffix_config

/-- Finish one sampler variant: set the sampler fields and extend the
filename suffix. -/
def finishSamplerJob (job : Job) (sampler_name : Option String)
    (scheduler : Option String) (params : Params)
    (s_params : List (String × Scalar)) (suffix_config : List SuffixConf) : Job :=
  { job with
    filename_suffix :=
      job.filename_suffix ++ samplerSuffix sampler_name scheduler params s_params suffix_config,
    sampler := sampler_name, scheduler := scheduler,
    params := params, sampler_params := s_params }

/-- The sampler permutation phase of `build_jobs` (src/src/jobs.py:836-949):
`None`/string samplers keep the default params; dict samplers split their
items into list-valued (permuted Cartesian-wise, in dict order) and fixed
parameters, override the standard params, and route the remaining keys into
`sampler_params`. -/
def samplerPhase (temp_jobs : List Job) (samplers : SamplersConfig)
    (suffix_config : List SuffixConf) (default_params : Params) : List Job :=
  temp_jobs.flatMap (fun job =>
    (activeSamplers samplers).flatMap (fun s_entry =>
      match s_entry with
      | .noneA => [finishSamplerJob job none none default_params [] suffix_config]
      | .strA n => [finishSamplerJob job (some n) none default_params [] suffix_config]
      | .dictA d =>
          if d.isSkip then []
          else
            let permutable := d.entries.filterMap (fun kv =>
              match kv.2 with | .list vs => some (kv.1, vs) | .scalar _ => none)
            let fixed := d.entries.filterMap (fun kv =>
              match kv.2 with | .scalar v => some (kv.1, v) | .list _ => none)
            if permutable ≠ [] then
              (Loras.listProduct (permutable.map Prod.snd)).map (fun combo =>
                let assigned := (permutable.map Prod.fst).zip combo
                let combined := fixed ++ assigned
                let params := applyParams combined default_params
                let s_params := combined.filter (fun kv => kv.1 ∉ standardKeys)
                finishSamplerJob job d.sampler (schedulerOf combined) params s_params
                  suffix_config)
            else
              let params := applyParams fixed default_params
              let s_params := fixed.filter (fun kv => kv.1 ∉ standardKeys)
              [finishSamplerJob job d.sampler (schedulerOf fixed) params s_params
                suffix_config]))

/-- Index assignment of the finalisation phase (src/src/jobs.py:956-957):
`original_index = i + 1` in emission order. -/
def assignOriginalIndex (jobs : List Job) : List Job :=
  jobs.enum.map (fun p => { p.2 with original_index := p.1 + 1 })

/-- `f"{strength:.3g}"`: three significant digits, trailing zeros stripped
(modelled without exponent notation, which `%.3g` only uses outside the
magnitude range of LoRA strengths). -/
def format3g (v : ℚ) : String :=
  if v = 0 then "0"
  else
    let a := pyAbs v
    let e : ℤ := ((List.range 61).map (fun k => (k : ℤ) - 30)).foldl
      (fun acc c => if (10 : ℚ) ^ c ≤ a then c else acc) (-30)
    let r : ℚ := (pyRound (a / (10 : ℚ) ^ (e - 2)) : ℚ) * (10 : ℚ) ^ (e - 2)
    let s := pyStrOfRat r
    let stripped := rstripZeros s
    let core :=
      if stripped.toList.getLast? = some (Char.ofNat 46) then ⟨stripped.toList.dropLast⟩
      else stripped
    (if v < 0 then "-" else "") ++ core

/-- The sort key of the finalisation phase (src/src/jobs.py:960-963):
`"{lora_sig}_{sampler_sig}"` with
`lora_sig = "_".join(f"{alias}{strength:.3g}")`. -/
def sort_key (job : Job) : String :=
  let lora_sig := String.intercalate "_"
    (job.loras.map (fun l => l.aliasName ++ format3g l.strength))
  let sampler_sig := job.sampler.getD ""
  lora_sig ++ "_" ++ sampler_sig

/-- The resolution permutation phase (src/src/jobs.py:971-985): a prompt
with a non-empty `resolutions` list emits one copy of the job per
two-element resolution pair; otherwise the job passes through unchanged. -/
def resolutionPhase (jobs : List Job) : List Job :=
  jobs.flatMap (fun job =>
    if job.prompt.resolutions ≠ [] then
      job.prompt.resolutions.filterMap (fun r =>
        if r.length = 2 then some { job with resolution_expressions := some r }
        else none)
    else [job])

/-- `build_jobs` from the expansion-phase output onward
(src/src/jobs.py:790-986): LoRA permutation, sampler permutation, index
assignment, the stable sort by `sort_key`, and resolution expansion — in
exactly this order (indices are assigned *before* resolution expansion). -/
def build_jobs_phase2 (expanded : List Prompt) (library : List (String × Loras.LibEntry))
    (range_increment : ℚ) (default_loras : List String) (samplers : SamplersConfig)
    (suffix_config : List SuffixConf) (default_params : Params) : List Job :=
  let temp_jobs := loraPhase expanded library range_increment default_loras
  let withSamplers := samplerPhase temp_jobs samplers suffix_config default_params
  let indexed := assignOriginalIndex withSamplers
  let sorted := indexed.mergeSort (fun a b => sort_key a ≤ sort_key b)
  resolutionPhase sorted

end Jobs

/-! # Rounding lemmas -/

theorem pyRound_def (q : ℚ) :
    pyRound q = if q - ⌊q⌋ < 1/2 then ⌊q⌋
      else if q - ⌊q⌋ > 1/2 then ⌊q⌋ + 1
      else if ⌊q⌋ % 2 = 0 then ⌊q⌋ else ⌊q⌋ + 1 := by
  simp only [pyRound, pyRound_floor_eq]

theorem le_pyRound (q : ℚ) : ⌊q⌋ ≤ pyRound q := by
  rw [pyRound_def]; split_ifs <;> omega

theorem pyRound_le (q : ℚ) : pyRound q ≤ ⌊q⌋ + 1 := by
  rw [pyRound_def]; split_ifs <;> omega

theorem one_le_pyRound (q : ℚ) (h : 1 ≤ q) : 1 ≤ pyRound q := by
  have h1 : (1 : ℤ) ≤ ⌊q⌋ := by exact_mod_cast Int.le_floor.2 (by exact_mod_cast h)
  exact le_trans h1 (le_pyRound q)

theorem pyRound_ge_floor_half (q : ℚ) (h : pyRound q = ⌊q⌋ + 1) : 1/2 ≤ q - ⌊q⌋ := by
  rw [pyRound_def] at h
  split_ifs at h with h1 h2 h3 <;> first | omega | linarith

theorem pyRound_eq_floor_half (q : ℚ) (h : pyRound q = ⌊q⌋) : q - ⌊q⌋ ≤ 1/2 := by
  rw [pyRound_def] at h
  split_ifs at h with h1 h2 h3 <;> first | omega | linarith

theorem pyRound_eq_floor_or (q : ℚ) : pyRound q = ⌊q⌋ ∨ pyRound q = ⌊q⌋ + 1 := by
  rw [pyRound_def]; split_ifs <;> simp

theorem pyRound_mono {q r : ℚ} (h : q ≤ r) : pyRound q ≤ pyRound r := by
  have hf : ⌊q⌋ ≤ ⌊r⌋ := Int.floor_le_floor h
  rcases lt_or_eq_of_le hf with hlt | heq
  · calc pyRound q ≤ ⌊q⌋ + 1 := pyRound_le q
      _ ≤ ⌊r⌋ := by omega
      _ ≤ pyRound r := le_pyRound r
  · rcases pyRound_eq_floor_or q with hq | hq
    · rw [hq, heq]; exact le_pyRound r
    · rcases pyRound_eq_floor_or r with hr | hr
      · exfalso
        have h1 : 1/2 ≤ q - ⌊q⌋ := pyRound_ge_floor_half q hq
        have h2 : r - ⌊r⌋ ≤ 1/2 := pyRound_eq_floor_half r hr
        have hqh : q - ⌊q⌋ = 1/2 := by rw [heq] at h1 ⊢; linarith
        have hrh : r - ⌊r⌋ = 1/2 := by rw [← heq] at h2 ⊢; linarith
        -- both sit exactly at the half point with the same floor: the
        -- half-even branch decides both the same way
        rw [pyRound_def] at hq hr
        rw [hqh] at hq
        rw [hrh] at hr
        norm_num at hq hr
        rw [heq] at hq
        omega
      · rw [hq, hr, heq]

theorem pyRound_close (q : ℚ) : |(pyRound q : ℚ) - q| ≤ 1/2 := by
  have h0 : (0 : ℚ) ≤ q - ⌊q⌋ := by
    have := Int.floor_le q; linarith
  have h1 : q - ⌊q⌋ < 1 := by
    have := Int.lt_floor_add_one q; push_cast at this ⊢; linarith
  rw [pyRound_def]
  split_ifs with ha hb hc <;> push_cast <;> rw [abs_le] <;> constructor <;> linarith

theorem round3_eq (q : ℚ) : round3 q = (pyRound (q * 1000) : ℚ) / 1000 := by
  rw [round3, Rat.mkRat_eq_div]; norm_num

theorem round3_close (q : ℚ) : |round3 q - q| ≤ 1/1000 := by
  have h := pyRound_close (q * 1000)
  rw [round3_eq]
  have : (pyRound (q * 1000) : ℚ) / 1000 - q = ((pyRound (q * 1000) : ℚ) - q * 1000) / 1000 := by
    ring
  rw [this, abs_div]
  rw [abs_of_pos (by norm_num : (0:ℚ) < 1000)]
  have h2 := (div_le_div_iff_of_pos_right (by norm_num : (0:ℚ) < 1000)).2 h
  calc |(pyRound (q * 1000) : ℚ) - q * 1000| / 1000 ≤ (1/2) / 1000 := h2
    _ ≤ 1/1000 := by norm_num

theorem round3_mono {q r : ℚ} (h : q ≤ r) : round3 q ≤ round3 r := by
  rw [round3_eq, round3_eq]
  have := pyRound_mono (mul_le_mul_of_nonneg_right h (by norm_num : (0:ℚ) ≤ 1000))
  have hcast : (pyRound (q * 1000) : ℚ) ≤ (pyRound (r * 1000) : ℚ) := by exact_mod_cast this
  exact (div_le_div_iff_of_pos_right (by norm_num : (0:ℚ) < 1000)).2 hcast

namespace Loras

theorem pyAbs_eq (q : ℚ) : pyAbs q = |q| := by
  unfold pyAbs; split_ifs with h
  · exact (abs_of_neg h).symm
  · exact (abs_of_nonneg (not_lt.1 h)).symm

theorem pyMax_ge_small (x : ℚ) : mkRat 1 1000 ≤ pyMax (mkRat 1 1000) x := by
  unfold pyMax; split_ifs with h
  · exact le_of_lt h
  · exact le_refl _

theorem pyMax_small_pos (x : ℚ) : 0 < pyMax (mkRat 1 1000) x := by
  have h1 : (0 : ℚ) < mkRat 1 1000 := by rw [Rat.mkRat_eq_div]; norm_num
  exact lt_of_lt_of_le h1 (pyMax_ge_small x)

/-- C9 (amended): for parseable endpoints `a ≠ b`, `generate_range_values`
clamps the increment to `inc' = max(0.001, inc)` and returns `2` values when
`|b - a| < inc'` and `round(|b - a| / inc') + 1` values otherwise (`round`
half-to-even); the first and last values are `a` and `b` rounded to three
decimals (so within `10⁻³` of `a` and `b`), and for `a ≤ b` the list is
monotonically non-decreasing. -/
theorem generate_range_values_spec (sa sb : String) (inc a b : ℚ)
    (ha : pyFloatOfString sa = some a) (hb : pyFloatOfString sb = some b)
    (hne : a ≠ b) :
    (generate_range_values sa (some sb) inc).length =
      (if pyAbs (b - a) < pyMax (mkRat 1 1000) inc then 2
       else (pyRound (pyAbs (b - a) / pyMax (mkRat 1 1000) inc) + 1).toNat)
    ∧ (generate_range_values sa (some sb) inc).head? = some (round3 a)
    ∧ (generate_range_values sa (some sb) inc).getLast? = some (round3 b)
    ∧ |round3 a - a| ≤ 1/1000 ∧ |round3 b - b| ≤ 1/1000
    ∧ (a ≤ b → (generate_range_values sa (some sb) inc).Chain' (· ≤ ·)) := by
  have hincpos : 0 < pyMax (mkRat 1 1000) inc := pyMax_small_pos inc
  have habs : 0 < pyAbs (b - a) := by
    rw [pyAbs_eq]; exact abs_pos.2 (sub_ne_zero.2 (Ne.symm hne))
  set inc2 := pyMax (mkRat 1 1000) inc with hinc2
  set n : ℤ := if pyAbs (b - a) < inc2 then 2 else pyRound (pyAbs (b - a) / inc2) + 1
    with hn
  have hn2 : 2 ≤ n := by
    rw [hn]; split_ifs with h
    · exact le_refl _
    · have hd : inc2 ≤ pyAbs (b - a) := not_lt.1 h
      have hr : 1 ≤ pyAbs (b - a) / inc2 := (one_le_div hincpos).2 hd
      have := one_le_pyRound _ hr
      omega
  have hbody : generate_range_values sa (some sb) inc =
      ((List.range n.toNat).map
        (fun i : ℕ => a + (i : ℚ) * (b - a) / ((n : ℚ) - 1))).map round3 := by
    unfold generate_range_values
    rw [ha]
    dsimp only
    rw [hb]
    dsimp only
    rw [if_neg hne, ← hinc2, ← hn, if_neg (by omega : ¬ n = 1)]
  have hcastn : ((n.toNat : ℤ) : ℚ) = (n : ℚ) := by
    rw [Int.toNat_of_nonneg (by omega)]
  have hnsub : ((n : ℚ) - 1) ≠ 0 := by
    have h2 : (2 : ℚ) ≤ (n : ℚ) := by exact_mod_cast hn2
    intro hcon
    have h1 : ((n : ℚ)) = 1 := by linarith
    linarith
  obtain ⟨m, hm⟩ : ∃ m, n.toNat = m + 1 := by
    refine ⟨n.toNat - 1, ?_⟩; omega
  refine ⟨?_, ?_, ?_, round3_close a, round3_close b, ?_⟩
  · rw [hbody]
    simp only [List.length_map, List.length_range]
    rw [hn]; split_ifs <;> rfl
  · rw [hbody, hm]
    rw [List.range_succ_eq_map]
    simp only [List.map_cons, List.head?_cons, Option.some.injEq]
    norm_num
  · rw [hbody, hm, List.range_succ, List.map_append, List.map_append]
    simp only [List.map_cons, List.map_nil, List.getLast?_concat, Option.some.injEq]
    have hmc : ((m : ℚ)) = (n : ℚ) - 1 := by
      have h1 : ((m + 1 : ℕ) : ℚ) = (n : ℚ) := by
        rw [← hm]; exact_mod_cast hcastn
      push_cast at h1; linarith
    rw [hmc]
    congr 1
    field_simp
  · intro hab
    rw [hbody, List.chain'_map, List.chain'_map, hm,
      (by rfl : m + 1 = Nat.succ m), List.chain'_range_succ]
    intro i _
    apply round3_mono
    have hpos : (0 : ℚ) < (n : ℚ) - 1 := by
      have : (2 : ℚ) ≤ (n : ℚ) := by exact_mod_cast hn2
      linarith
    have hnum : (i : ℚ) * (b - a) ≤ ((i + 1 : ℕ) : ℚ) * (b - a) := by
      apply mul_le_mul_of_nonneg_right _ (by linarith)
      push_cast; linarith
    have hdivle := (div_le_div_iff_of_pos_right hpos).2 hnum
    linarith

end Loras

unseal Rat.sub Rat.add Rat.mul Rat.inv in
/-- C9 (witness): the amended range theorem applied at
`generate_range_values("0.5", "1.0", 0.1)`, which yields the six values
`0.5 … 1.0`. -/
theorem generate_range_values_spec_witness :
    (Loras.generate_range_values "0.5" (some "1.0") (mkRat 1 10)).length = 6 ∧
    (Loras.generate_range_values "0.5" (some "1.0") (mkRat 1 10)).head? =
      some (round3 (mkRat 1 2)) := by
  have h := Loras.generate_range_values_spec "0.5" "1.0" (mkRat 1 10) (mkRat 1 2) 1
    (by decide) (by decide) (by decide)
  refine ⟨?_, h.2.1⟩
  rw [h.1]
  decide

unseal Rat.sub Rat.add Rat.mul Rat.inv in
/-- C9 (counterexample): at `generate_range_values("0", "0.04", 0.1)` the
source returns two values, while the claimed count
`round(|b - a| / increment) + 1` is `round(0.4) + 1 = 1` — the claim's count
formula is violated whenever `|b - a| < increment` forces the two-step
minimum. -/
theorem generate_range_values_claimed_count_false :
    pyFloatOfString "0" = some 0 ∧
    pyFloatOfString "0.04" = some (mkRat 1 25) ∧
    (Loras.generate_range_values "0" (some "0.04") (mkRat 1 10)).length = 2 ∧
    (pyRound (pyAbs (mkRat 1 25 - 0) / mkRat 1 10) + 1).toNat = 1 := by
  decide

namespace Jobs

theorem prompt_of_generate_job_permutations {p : Prompt} {arrays} {j : Job}
    (h : j ∈ generate_job_permutations p arrays) : j.prompt = p := by
  simp only [generate_job_permutations, List.mem_map] at h
  obtain ⟨combo, -, rfl⟩ := h
  rfl

theorem prompt_of_loraPhase {expanded library rinc dl} {j : Job}
    (h : j ∈ loraPhase expanded library rinc dl) : ∃ p ∈ expanded, j.prompt = p := by
  simp only [loraPhase, List.mem_flatMap] at h
  obtain ⟨p, hp, hj⟩ := h
  refine ⟨p, hp, ?_⟩
  split_ifs at hj with h1 h2
  · simp only [List.mem_flatMap] at hj
    obtain ⟨s, -, hj⟩ := hj
    exact prompt_of_generate_job_permutations hj
  · simp only [List.mem_flatMap] at hj
    obtain ⟨s, -, hj⟩ := hj
    exact prompt_of_generate_job_permutations hj
  · simp only [List.mem_singleton] at hj
    subst hj; rfl

theorem prompt_of_finishSamplerJob (job : Job) (sn sch prm sp sc) :
    (finishSamplerJob job sn sch prm sp sc).prompt = job.prompt := rfl

theorem prompt_of_samplerPhase {temp samplers sc dp} {j : Job}
    (h : j ∈ samplerPhase temp samplers sc dp) : ∃ j0 ∈ temp, j.prompt = j0.prompt := by
  simp only [samplerPhase, List.mem_flatMap] at h
  obtain ⟨j0, hj0, se, hse, hj⟩ := h
  refine ⟨j0, hj0, ?_⟩
  cases se with
  | noneA => simp only [List.mem_singleton] at hj; subst hj; rfl
  | strA n => simp only [List.mem_singleton] at hj; subst hj; rfl
  | dictA d =>
      dsimp only at hj
      split_ifs at hj with h1 h2
      · simp at hj
      · simp only [List.mem_map] at hj
        obtain ⟨combo, -, rfl⟩ := hj
        rfl
      · simp only [List.mem_singleton] at hj; subst hj; rfl

theorem assignOriginalIndex_indices (l : List Job) :
    (assignOriginalIndex l).map (·.original_index) = List.range' 1 l.length := by
  unfold assignOriginalIndex
  rw [List.map_map]
  have h1 : ((fun x : Job => x.original_index) ∘
      fun p : ℕ × Job => { p.2 with original_index := p.1 + 1 }) =
      (fun p : ℕ × Job => p.1 + 1) := by
    funext p; rfl
  rw [h1]
  have h2 : (fun p : ℕ × Job => p.1 + 1) =
      ((fun i : ℕ => i + 1) ∘ Prod.fst) := rfl
  rw [h2, ← List.map_map, List.enum_map_fst, List.range'_eq_map_range]
  exact List.map_congr_left (fun i _ => Nat.add_comm i 1)

theorem assignOriginalIndex_prompt (l : List Job) {j : Job}
    (h : j ∈ assignOriginalIndex l) : ∃ j0 ∈ l, j.prompt = j0.prompt := by
  unfold assignOriginalIndex at h
  simp only [List.mem_map] at h
  obtain ⟨p, hp, rfl⟩ := h
  have hg : l[p.1]? = some p.2 := List.mem_enum_iff_getElem?.1 hp
  exact ⟨p.2, List.getElem?_mem hg, rfl⟩

theorem resolutionPhase_of_empty {l : List Job}
    (h : ∀ j ∈ l, j.prompt.resolutions = []) : resolutionPhase l = l := by
  induction l with
  | nil => rfl
  | cons x xs ih =>
      have hx := h x (List.mem_cons_self x xs)
      unfold resolutionPhase
      simp only [List.flatMap_cons]
      rw [if_neg (by simp [hx])]
      have := ih (fun j hj => h j (List.mem_cons_of_mem x hj))
      unfold resolutionPhase at this
      rw [this]
      rfl

/-- C2 (amended): on any expansion-phase output in which *no* prompt
declares a `resolutions` list, the `original_index` values of the list
returned by `build_jobs` are exactly `{1, …, len}` (each unique, sequential,
1-based, up to the final LoRA-locality sort).  When a prompt does declare
resolutions, the indices are assigned *before* resolution expansion and are
duplicated across the per-resolution copies (see the counterexample). -/
theorem build_jobs_original_index_dense (expanded : List Prompt)
    (library : List (String × Loras.LibEntry)) (rinc : ℚ) (dl : List String)
    (samplers : SamplersConfig) (sc : List SuffixConf) (dp : Params)
    (hres : ∀ p ∈ expanded, p.resolutions = []) :
    ((build_jobs_phase2 expanded library rinc dl samplers sc dp).map
        (·.original_index)).Perm
      (List.range' 1 (build_jobs_phase2 expanded library rinc dl samplers sc dp).length) := by
  unfold build_jobs_phase2
  set temp := loraPhase expanded library rinc dl with htemp
  set withS := samplerPhase temp samplers sc dp with hwithS
  set indexed := assignOriginalIndex withS with hindexed
  set sorted := indexed.mergeSort (fun a b => sort_key a ≤ sort_key b) with hsorted
  have hallres : ∀ j ∈ sorted, j.prompt.resolutions = [] := by
    intro j hj
    have hj2 : j ∈ indexed := (List.mergeSort_perm indexed _).mem_iff.1 hj
    obtain ⟨j0, hj0, hpr⟩ := assignOriginalIndex_prompt withS hj2
    obtain ⟨j1, hj1, hpr1⟩ := prompt_of_samplerPhase hj0
    obtain ⟨p, hp, hpr2⟩ := prompt_of_loraPhase hj1
    rw [hpr, hpr1, hpr2]
    exact hres p hp
  rw [resolutionPhase_of_empty hallres]
  have hperm : sorted.Perm indexed := List.mergeSort_perm indexed _
  calc (sorted.map (·.original_index)).Perm (indexed.map (·.original_index)) :=
        hperm.map _
    _ = List.range' 1 withS.length := assignOriginalIndex_indices withS
    _ = List.range' 1 sorted.length := by
        rw [hperm.length_eq, hindexed]
        rw [assignOriginalIndex, List.length_map, List.enum_length]

end Jobs

unseal List.merge List.mergeSort in
/-- C2 (counterexample): for a job document with one prompt that declares
`resolutions: [[1024,1024],[512,512]]` (no LoRAs, no samplers), `build_jobs`
returns two records that both carry `original_index = 1`: indices are
assigned before the resolution-expansion phase, so the set of
`original_index` values is `{1}`, not `{1, 2}`. -/
theorem build_jobs_resolutions_duplicate_index :
    (Jobs.build_jobs_phase2
        [{ id := some "a", text := "t",
           resolutions := [["1024", "1024"], ["512", "512"]] }]
        [] (mkRat 1 10) [] .noneC [] ⟨1024, 1024, 9, 1⟩).length = 2 ∧
    (Jobs.build_jobs_phase2
        [{ id := some "a", text := "t",
           resolutions := [["1024", "1024"], ["512", "512"]] }]
        [] (mkRat 1 10) [] .noneC [] ⟨1024, 1024, 9, 1⟩).map (·.original_index) = [1, 1] ∧
    ¬ ((Jobs.build_jobs_phase2
        [{ id := some "a", text := "t",
           resolutions := [["1024", "1024"], ["512", "512"]] }]
        [] (mkRat 1 10) [] .noneC [] ⟨1024, 1024, 9, 1⟩).map (·.original_index)).Perm
      (List.range' 1 2) := by
  decide

unseal List.merge List.mergeSort in
/-- C2 (witness): the amended density theorem applied to a concrete
expansion with two prompts and no resolutions. -/
theorem build_jobs_original_index_dense_witness :
    (∀ p ∈ [({ id := some "a", text := "t" } : Jobs.Prompt),
            { id := some "b", text := "u" }], p.resolutions = []) ∧
    ((Jobs.build_jobs_phase2
        [{ id := some "a", text := "t" }, { id := some "b", text := "u" }]
        [] (mkRat 1 10) [] .noneC [] ⟨1024, 1024, 9, 1⟩).map (·.original_index)).Perm
      (List.range' 1 (Jobs.build_jobs_phase2
        [{ id := some "a", text := "t" }, { id := some "b", text := "u" }]
        [] (mkRat 1 10) [] .noneC [] ⟨1024, 1024, 9, 1⟩).length) :=
  ⟨by decide,
   Jobs.build_jobs_original_index_dense
     [{ id := some "a", text := "t" }, { id := some "b", text := "u" }]
     [] (mkRat 1 10) [] .noneC [] ⟨1024, 1024, 9, 1⟩ (by decide)⟩

/-! # src/wildcards.py -/

namespace Wildcards

/-- The character class `[a-zA-Z0-9_-]` of the wildcard regex. -/
def wcNameChar (c : Char) : Bool :=
  isDigitChar c ∨ (97 ≤ c.toNat ∧ c.toNat ≤ 122) ∨ (65 ≤ c.toNat ∧ c.toNat ≤ 90) ∨
    c = '_' ∨ c = '-'

/-- Does the closing `__` of the wildcard pattern sit `k` characters into
`rest`? -/
def closeAt (rest : List Char) (k : ℕ) : Bool :=
  match rest.drop k with
  | '_' :: '_' :: _ => true
  | _ => false

/-- The group length chosen by the greedy-with-backtracking match of
`([a-zA-Z0-9_-]+)__` against `rest`: the largest `k ≥ 1` not exceeding the
maximal class run such that `__` follows. -/
def bestK (rest : List Char) (run : ℕ) : Option ℕ :=
  ((List.range run).reverse.find? (fun k0 => closeAt rest (k0 + 1))).map (· + 1)

/-- `re.findall(r"__([a-zA-Z0-9_-]+)__", s)`: left-to-right non-overlapping
scan; on a failed match the scan position advances by one character, exactly
as the regex engine does. -/
def findWildcardsAux : ℕ → List Char → List String
  | 0, _ => []
  | _ + 1, [] => []
  | fuel + 1, '_' :: '_' :: rest =>
      let run := (rest.takeWhile wcNameChar).length
      (match bestK rest run with
       | some k => String.mk (rest.take k) :: findWildcardsAux fuel (rest.drop (k + 2))
       | none => findWildcardsAux fuel ('_' :: rest))
  | fuel + 1, _ :: rest => findWildcardsAux fuel rest

/-- All wildcard names occurring in a template. -/
def findWildcardNames (s : String) : List String :=
  findWildcardsAux (s.toList.length + 1) s.toList

/-- A wildcard definition dict `{name, text}`. -/
structure WildcardDef where
  name : Option String := none
  text : List String := []
deriving Repr, DecidableEq

/-- Python dict update: replace in place or append. -/
def dictUpdate {α : Type} (l : List (String × α)) (k : String) (v : α) :
    List (String × α) :=
  if (Loras.lookup l k).isSome then l.map (fun p => if p.1 = k then (k, v) else p)
  else l ++ [(k, v)]

/-- `{wc.get('name'): wc.get('text', []) for wc in wildcard_map if
wc.get('name')}` (src/src/wildcards.py:120). -/
def wildcardLookup (l : List WildcardDef) : List (String × List String) :=
  l.foldl (fun acc wc =>
    match wc.name with
    | some nm => if nm ≠ "" then dictUpdate acc nm wc.text else acc
    | none => acc) []

/-- `sorted(list(set(placeholders)))` (src/src/wildcards.py:143). -/
def sortedUnique (names : List String) : List String :=
  (names.dedup).mergeSort (fun a b => a ≤ b)

/-- Python `s.replace(old, new)` for a non-empty `old`. -/
def replaceAll (s tgt repl : String) : String :=
  String.intercalate repl (strSplitOn s tgt)

/-- A tracked wildcard usage `{value, index}` (1-based index). -/
structure WcUsage where
  value : String
  index : ℕ
deriving Repr, DecidableEq

/-- The substitution loop over the sorted unique placeholders of one
template (src/src/wildcards.py:143-164).  `rng n k` models the value of the
`n`-th `random.randint(0, k)` call; it is reduced mod the list length so
that every oracle is a valid randomness source. -/
def substNames (lookup : List (String × List String)) (rng : ℕ → ℕ → ℕ) :
    List String → String → List (String × WcUsage) → ℕ →
    Except String (String × List (String × WcUsage) × ℕ)
  | [], resolved, used, ctr => .ok (resolved, used, ctr)
  | nm :: rest, resolved, used, ctr =>
      match Loras.lookup lookup nm with
      | none => .error ("Wildcard '___" ++ nm ++
          "___' referenced in prompt but not defined in the 'wildcards' section.")
      | some choices =>
          if choices = [] then
            .error ("Wildcard '___" ++ nm ++ "___' found but has an empty text list.")
          else
            let idx := rng ctr (choices.length - 1) % choices.length
            let choice := choices.getD idx ""
            substNames lookup rng rest (replaceAll resolved ("__" ++ nm ++ "__") choice)
              (used ++ [(nm, ⟨choice, idx + 1⟩)]) (ctr + 1)

/-- The per-template loop of `resolve_wildcards`
(src/src/wildcards.py:128-169): templates without placeholders pass through
with empty usage; otherwise every placeholder is substituted (errors
propagate). -/
def resolveTexts (lookup : List (String × List String)) (rng : ℕ → ℕ → ℕ) :
    List String → ℕ → Except String (List String × List (List (String × WcUsage)))
  | [], _ => .ok ([], [])
  | t :: rest, ctr =>
      let names := findWildcardNames t
      if names = [] then
        (resolveTexts lookup rng rest ctr).map (fun p => (t :: p.1, [] :: p.2))
      else
        match substNames lookup rng (sortedUnique names) t [] ctr with
        | .error e => .error e
        | .ok (res, used, ctr2) =>
            (resolveTexts lookup rng rest ctr2).map (fun p => (res :: p.1, used :: p.2))

/-- `wildcards.resolve_wildcards(text_list, wildcard_map, track_usage=True)`
(src/src/wildcards.py:89-172), with the random stream supplied as an
oracle. -/
def resolve_wildcards (texts : List String) (wcs : List WildcardDef)
    (rng : ℕ → ℕ → ℕ) : Except String (List String × List (List (String × WcUsage))) :=
  resolveTexts (wildcardLookup wcs) rng texts 0

end Wildcards

/-! # src/extensions.py -/

namespace Extensions

/-- `extensions.is_dynamic_text_key(key)` (src/src/extensions.py:80-100):
`text` or `textN`. -/
def is_dynamic_text_key (key : String) : Bool :=
  key = "text" ∨
    (key.toList.take 4 = ['t', 'e', 'x', 't'] ∧ key.toList.drop 4 ≠ [] ∧
      (key.toList.drop 4).all isDigitChar)

/-- A value stored under an extension key: a string, a list of strings, or
structured data (wildcard/LoRA definitions). -/
inductive ExtData where
  | strD (s : String)
  | listD (l : List String)
  | structuredD
deriving Repr, DecidableEq

/-- An extension entry; `entries` are the items other than `id`. -/
structure Extension where
  id : Option String := none
  entries : List (String × ExtData) := []
deriving Repr, DecidableEq

/-- Collect the string values of one key's data
(src/src/extensions.py:424-430). -/
def dataStrings : Option ExtData → List String
  | some (.strD s) => [s]
  | some (.listD l) => l
  | _ => []

/-- The text gathered from all dynamic text keys of an entry
(src/src/extensions.py:437-446). -/
def allTextData (e : Extension) : List String :=
  e.entries.foldl (fun acc kv =>
    if kv.1 = "wildcards" ∨ kv.1 = "loras" then acc
    else if is_dynamic_text_key kv.1 then acc ++ dataStrings (some kv.2)
    else acc) []

/-- `extensions.resolve_extension(path_str, global_conf)`
(src/src/extensions.py:366-462): parse the `id[.key][.one]` path, reject
structured-data keys, scan the `ext` list for the first entry with the id,
collect its text, and fail (`ExtensionError`) on an invalid path, an empty
result, or an unknown id. -/
def resolve_extension (path_str : String) (extList : List Extension)
    (rng : ℕ → ℕ → ℕ) : Except String (List String) :=
  let parts := strSplitOn path_str "."
  let is_random := parts.getLast? = some "one"
  let parts2 := if is_random then parts.dropLast else parts
  match parts2 with
  | [extId] => resolveCore extId none is_random
  | [extId, extKey] =>
      if extKey = "wildcards" ∨ extKey = "loras" then
        .error ("Extension path '" ++ path_str ++ "' targets structured data ('" ++
          extKey ++ "') and cannot be merged into the text list.")
      else resolveCore extId (some extKey) is_random
  | _ => .error ("Invalid extension path format: '" ++ path_str ++
      "'. Expected ID or ID.KEY, optionally suffixed by '.one'.")
where
  resolveCore (extId : String) (extKey : Option String) (is_random : Bool) :
      Except String (List String) :=
    match extList.find? (fun e => e.id = some extId) with
    | none => .error ("Extension ID '" ++ extId ++
        "' not found in global config 'ext' section.")
    | some entry =>
        let resolved :=
          match extKey with
          | some k => dataStrings (Loras.lookup entry.entries k)
          | none => allTextData entry
        if resolved = [] then
          .error ("Extension '" ++ path_str ++ "' resolved no text data.")
        else if is_random then
          .ok [resolved.getD (rng 0 (resolved.length - 1) % resolved.length) ""]
        else .ok resolved

end Extensions

/-! # C5 support lemmas -/

theorem except_map_isOk {α β γ : Type} (f : α → β) (x : Except γ α) :
    (x.map f).isOk = x.isOk := by
  cases x <;> rfl

theorem substNames_missing (lookup : List (String × List String)) (rng : ℕ → ℕ → ℕ) :
    ∀ (names : List String) (t : String) (used : List (String × Wildcards.WcUsage))
      (ctr : ℕ) (nm : String), nm ∈ names →
      Loras.lookup lookup nm = none →
      (Wildcards.substNames lookup rng names t used ctr).isOk = false := by
  intro names
  induction names with
  | nil => intro t used ctr nm hmem; exact absurd hmem (List.not_mem_nil nm)
  | cons hd tl ih =>
      intro t used ctr nm hmem hnone
      rcases List.mem_cons.1 hmem with rfl | hm
      · unfold Wildcards.substNames
        rw [hnone]
        rfl
      · unfold Wildcards.substNames
        cases hcase : Loras.lookup lookup hd with
        | none => rfl
        | some choices =>
            dsimp only
            split_ifs with hch
            · rfl
            · exact ih _ _ _ nm hm hnone

theorem resolveTexts_missing (lookup : List (String × List String)) (rng : ℕ → ℕ → ℕ) :
    ∀ (texts : List String) (ctr : ℕ) (t nm : String), t ∈ texts →
      nm ∈ Wildcards.findWildcardNames t →
      Loras.lookup lookup nm = none →
      (Wildcards.resolveTexts lookup rng texts ctr).isOk = false := by
  intro texts
  induction texts with
  | nil => intro ctr t nm hmem; exact absurd hmem (List.not_mem_nil t)
  | cons hd tl ih =>
      intro ctr t nm hmem hfound hnone
      unfold Wildcards.resolveTexts
      rcases List.mem_cons.1 hmem with rfl | hm
      · rw [if_neg (by intro hc; rw [hc] at hfound; exact List.not_mem_nil nm hfound)]
        have hsorted : nm ∈ Wildcards.sortedUnique (Wildcards.findWildcardNames t) := by
          unfold Wildcards.sortedUnique
          rw [(List.mergeSort_perm _ _).mem_iff, List.mem_dedup]
          exact hfound
        cases hsub : Wildcards.substNames lookup rng
            (Wildcards.sortedUnique (Wildcards.findWildcardNames t)) t [] ctr with
        | error e => rfl
        | ok v =>
            have := substNames_missing lookup rng _ t [] ctr nm hsorted hnone
            rw [hsub] at this
            exact absurd this (by simp [Except.isOk, Except.toBool])
      · by_cases hnames : Wildcards.findWildcardNames hd = []
        · rw [if_pos hnames, except_map_isOk]
          exact ih ctr t nm hm hfound hnone
        · rw [if_neg hnames]
          cases hsub : Wildcards.substNames lookup rng
              (Wildcards.sortedUnique (Wildcards.findWildcardNames hd)) hd [] ctr with
          | error e => rfl
          | ok v =>
              dsimp only
              rw [except_map_isOk]
              exact ih v.2.2 t nm hm hfound hnone

theorem parse_all_missing (combo : String) (library : List (String × Loras.LibEntry))
    (rinc : ℚ)
    (h : ∀ part ∈ strSplitOn combo "+",
      Loras.lookup library ((pySplitOnce (pyStrip part) ":").1) = none) :
    Loras.parse_lora_combination_string combo library rinc = [] := by
  unfold Loras.parse_lora_combination_string
  generalize hgen : strSplitOn combo "+" = parts at h ⊢
  clear hgen
  suffices hgoal : ∀ acc : List (List Loras.LoraConfig),
      List.foldl (fun acc rawPart =>
        if pyStrip rawPart = "" then acc
        else
          match Loras.lookup library ((pySplitOnce (pyStrip rawPart) ":").1) with
          | none => acc
          | some lib =>
            let spec : Option String :=
              if pyContains (pyStrip rawPart) ":" then
                some (pyStrip (pyLower ((pySplitOnce (pyStrip rawPart) ":").2.getD "")))
              else none
            let svs := Loras.strengthValues spec lib rinc
            let configs := svs.foldl
              (fun cfgs sv => cfgs ++ Loras.configsForStrength
                ((pySplitOnce (pyStrip rawPart) ":").1) lib spec
                (Loras.get_precision_from_increment rinc) sv) []
            if configs = [] then acc else acc ++ [configs]) acc parts = acc by
    exact hgoal []
  induction parts with
  | nil => intro acc; rfl
  | cons hd tl ih =>
      intro acc
      rw [List.foldl_cons]
      have hhd := h hd (List.mem_cons_self hd tl)
      by_cases hempty : pyStrip hd = ""
      · rw [if_pos hempty]
        exact ih (fun part hp => h part (List.mem_cons_of_mem hd hp)) acc
      · rw [if_neg hempty, hhd]
        exact ih (fun part hp => h part (List.mem_cons_of_mem hd hp)) acc

/-- C5 (amended): a missing extension id and a missing (or empty) wildcard
are fatal — `resolve_extension` and `resolve_wildcards` return errors that
job expansion turns into a fatal exit with no records — but a malformed
LoRA combination string is *not* fatal: every `+`-part whose alias is not in
the library is skipped with a printed warning, and with all parts skipped
`parse_lora_combination_string` returns `[]`, from which
`generate_job_permutations` still emits exactly one job record (empty LoRA
list, empty suffix). -/
theorem unresolved_reference_fatality :
    (∀ (path extId : String) (extList : List Extensions.Extension)
      (rng : ℕ → ℕ → ℕ),
      strSplitOn path "." = [extId] → (∀ e ∈ extList, e.id ≠ some extId) →
      (Extensions.resolve_extension path extList rng).isOk = false) ∧
    (∀ (texts : List String) (wcs : List Wildcards.WildcardDef)
      (rng : ℕ → ℕ → ℕ) (t nm : String), t ∈ texts →
      nm ∈ Wildcards.findWildcardNames t →
      Loras.lookup (Wildcards.wildcardLookup wcs) nm = none →
      (Wildcards.resolve_wildcards texts wcs rng).isOk = false) ∧
    (∀ (combo : String) (library : List (String × Loras.LibEntry)) (rinc : ℚ),
      (∀ part ∈ strSplitOn combo "+",
        Loras.lookup library ((pySplitOnce (pyStrip part) ":").1) = none) →
      Loras.parse_lora_combination_string combo library rinc = [] ∧
      ∀ p : Jobs.Prompt,
        Jobs.generate_job_permutations p
          (Loras.parse_lora_combination_string combo library rinc) =
        [{ prompt := p, loras := [], filename_suffix := "", inputs := p.inputs }]) := by
  refine ⟨?_, ?_, ?_⟩
  · intro path extId extList rng hparts hmiss
    unfold Extensions.resolve_extension
    rw [hparts]
    by_cases hone : extId = "one"
    · subst hone
      rfl
    · dsimp only
      rw [if_neg (by simp [hone])]
      unfold Extensions.resolve_extension.resolveCore
      dsimp only
      rw [List.find?_eq_none.2 (by
        intro e he
        simp only [decide_eq_true_eq]
        exact hmiss e he)]
      rfl
  · intro texts wcs rng t nm hmem hfound hnone
    exact resolveTexts_missing (Wildcards.wildcardLookup wcs) rng texts 0 t nm hmem
      hfound hnone
  · intro combo library rinc h
    have hparse := parse_all_missing combo library rinc h
    refine ⟨hparse, ?_⟩
    intro p
    rw [hparse]
    rfl

/-- C5 (witness): the amended theorem applied to the concrete missing
extension id `"missing"`, the template `"a __pose__"` with no wildcard
definitions, and the combination string `"missing:0.5"` against a library
containing only `"real"`. -/
theorem unresolved_reference_fatality_witness :
    (Extensions.resolve_extension "missing" [] (fun _ _ => 0)).isOk = false ∧
    (Wildcards.resolve_wildcards ["a __pose__"] [] (fun _ _ => 0)).isOk = false ∧
    Loras.parse_lora_combination_string "missing:0.5"
      [("real", { path := "/p", strength := some 1, triggers := ["t"] })]
      (mkRat 1 10) = [] :=
  ⟨unresolved_reference_fatality.1 "missing" "missing" [] (fun _ _ => 0)
      (by decide) (by intro e he; exact absurd he (List.not_mem_nil e)),
   unresolved_reference_fatality.2.1 ["a __pose__"] [] (fun _ _ => 0) "a __pose__"
      "pose" (by decide) (by decide) (by decide),
   (unresolved_reference_fatality.2.2 "missing:0.5"
      [("real", { path := "/p", strength := some 1, triggers := ["t"] })]
      (mkRat 1 10) (by decide)).1⟩

unseal List.merge List.mergeSort in
/-- C5 (counterexample): with the LoRA library empty, the job document
prompt `{id: "a", text: "t", loras: ["missing:0.5"]}` — a malformed
combination string whose alias resolves nowhere — does *not* abort job
expansion: `build_jobs` emits one job record (with no LoRAs), contradicting
"the expander returns an error and no records". -/
theorem malformed_lora_still_produces_records :
    (Jobs.build_jobs_phase2
        [{ id := some "a", text := "t", loras := ["missing:0.5"] }]
        [] (mkRat 1 10) [] .noneC [] ⟨1024, 1024, 9, 1⟩).length = 1 ∧
    (Jobs.build_jobs_phase2
        [{ id := some "a", text := "t", loras := ["missing:0.5"] }]
        [] (mkRat 1 10) [] .noneC [] ⟨1024, 1024, 9, 1⟩) ≠ [] := by
  decide

/-! # src/hooks.py -/

namespace Hooks

/-- Status codes (src/src/hooks.py:76-79). -/
def STATUS_SUCCESS : String := "success"

def STATUS_ERROR : String := "error"

def STATUS_SKIP : String := "skip"

def STATUS_STREAMING : String := "streaming"

/-- A value stored in a hook context dict (the shapes the engine itself
reads: strings, ints, bools, string lists, `None`). -/
inductive PyVal where
  | s (v : String)
  | i (v : ℤ)
  | b (v : Bool)
  | list (vs : List String)
  | noneV
deriving Repr, DecidableEq

/-- A context dict, modelled as an association list. -/
abbrev Ctx := List (String × PyVal)

/-- `ctx.get(k)`. -/
def ctxGet (c : Ctx) (k : String) : Option PyVal := Loras.lookup c k

/-- `ctx[k] = v`. -/
def ctxSet (c : Ctx) (k : String) (v : PyVal) : Ctx := Wildcards.dictUpdate c k v

/-- `ctx.update(patch)`: set every binding of `patch` in order. -/
def ctxUpdate (c : Ctx) (patch : Ctx) : Ctx :=
  patch.foldl (fun acc kv => ctxSet acc kv.1 kv.2) c

/-- Python truthiness of a context value (`ctx.get(k, default)` guards). -/
def pyTruthy : Option PyVal → Bool
  | some (.s v) => v ≠ ""
  | some (.i v) => v ≠ 0
  | some (.b v) => v
  | some (.list vs) => vs ≠ []
  | some .noneV => false
  | none => false

/-- `hooks.HookResult` (src/src/hooks.py:82-104): the constructor turns a
missing `data`/`modify_context` into `{}`, which the model's defaults
capture. -/
structure HookResult where
  status : String
  data : Ctx := []
  error : Option (String × String) := none
  modify_context : Ctx := []
  message : Option String := none
deriving Repr, DecidableEq

/-- `HookResult.success` (src/src/hooks.py:93-95): status is `success` or
`skip`. -/
def HookResult.success (r : HookResult) : Bool :=
  r.status == STATUS_SUCCESS || r.status == STATUS_SKIP

/-- The value a script's `execute(context, params)` call returns, together
with whether it was a dict and whether the call raised. -/
structure ScriptRet where
  isDict : Bool := true
  status : String := STATUS_SUCCESS
  data : Ctx := []
  error : Option (String × String) := none
  modify_context : Ctx := []
  message : Option String := none
  raisesMsg : Option String := none
deriving Repr, DecidableEq

/-- One loadable hook script.  `run context params` yields the context dict
as mutated in place by the call (Python passes the engine's dict by
reference) together with the returned value; `hasExecute` models the
presence of an `execute` function. -/
structure Script where
  run : Ctx → Ctx → Ctx × ScriptRet
  hasExecute : Bool := true

/-- One entry of `hooks_config[name]`: `{script, params}`. -/
structure HookConf where
  script : Option String := none
  params : Ctx := []
deriving Repr, DecidableEq

/-- `HookPipeline._execute_single_hook` + `_run_script`
(src/src/hooks.py:298-358): no script path → success; unresolvable path →
`SCRIPT_NOT_FOUND`; module without `execute` → `NO_EXECUTE_FUNC`; a raising
call → `SCRIPT_EXCEPTION` (mutations made before the raise persist); a
dict result is normalised field-by-field, any other value becomes a plain
success.  The first component is the context dict after the call (the same
object the engine keeps using). -/
def execute_single_hook (scripts : String → Option Script) (conf : HookConf)
    (ctx : Ctx) : Ctx × HookResult :=
  match conf.script with
  | none => (ctx, { status := STATUS_SUCCESS })
  | some path =>
      match scripts path with
      | none =>
          (ctx, { status := STATUS_ERROR,
                  error := some ("SCRIPT_NOT_FOUND", "Hook script not found: " ++ path) })
      | some script =>
          if script.hasExecute then
            let out := script.run ctx conf.params
            match out.2.raisesMsg with
            | some m =>
                (out.1, { status := STATUS_ERROR,
                          error := some ("SCRIPT_EXCEPTION", m) })
            | none =>
                if out.2.isDict then
                  (out.1, { status := out.2.status, data := out.2.data,
                            error := out.2.error, modify_context := out.2.modify_context,
                            message := out.2.message })
                else (out.1, { status := STATUS_SUCCESS })
          else
            (ctx, { status := STATUS_ERROR,
                    error := some ("NO_EXECUTE_FUNC",
                      "Script has no execute() function: " ++ path) })

/-- A mod configuration from `mods.yaml` (`stage` may be a string or a
list). -/
inductive StageGuard where
  | strG (s : String)
  | listG (l : List String)
deriving Repr, DecidableEq

/-- One mod entry. -/
structure ModConf where
  script : Option String := none
  params : Ctx := []
  stage : StageGuard := .strG "both"
  execution_scope : String := "checkpoint"
  filters_config_index : Option (List ℤ) := none
  filters_address_index : Option (List ℤ) := none
deriving Repr, DecidableEq

/-- The stage guard of `_execute_mods` (src/src/hooks.py:216-220). -/
def stageMatch : StageGuard → String → Bool
  | .listG l, hook_name => hook_name ∈ l ∨ "both" ∈ l
  | .strG s, hook_name => s = "both" ∨ s = hook_name

/-- `HookPipeline._check_filters` (src/src/hooks.py:278-296): a filter only
rejects when the context carries a (non-`None`) integer index outside the
allowed list. -/
def check_filters (conf : ModConf) (ctx : Ctx) : Bool :=
  let checkOne : Option (List ℤ) → String → Bool := fun filt key =>
    match filt with
    | none => true
    | some allowed =>
        match ctxGet ctx key with
        | some (.i v) => v ∈ allowed
        | _ => true
  checkOne conf.filters_config_index "config_index" &&
    checkOne conf.filters_address_index "address_index"

/-- `HookPipeline._execute_mods` (src/src/hooks.py:198-276): run each named
mod whose guards pass; an `error` result is returned as-is, a `skip` result
is passed over without merging its `modify_context`; otherwise
`modify_context` is merged and the (possibly script-mutated) dict flows to
the next mod.  On completion the accumulated dict is surfaced as
`modify_context` of a success result. -/
def execute_mods (scripts : String → Option Script)
    (mods_config : List (String × ModConf)) (hook_name : String) :
    List String → Ctx → Ctx × HookResult
  | [], ctx => (ctx, { status := STATUS_SUCCESS, modify_context := ctx })
  | name :: rest, ctx =>
      match Loras.lookup mods_config name with
      | none => execute_mods scripts mods_config hook_name rest ctx
      | some conf =>
          if ¬ stageMatch conf.stage hook_name then
            execute_mods scripts mods_config hook_name rest ctx
          else if conf.execution_scope = "checkpoint" ∧
              ¬ pyTruthy (ctxGet ctx "is_checkpoint_execution") then
            execute_mods scripts mods_config hook_name rest ctx
          else if conf.execution_scope = "image" ∧
              pyTruthy (ctxGet ctx "is_checkpoint_execution") then
            execute_mods scripts mods_config hook_name rest ctx
          else if ¬ check_filters conf ctx then
            execute_mods scripts mods_config hook_name rest ctx
          else
            let out := execute_single_hook scripts ⟨conf.script, conf.params⟩ ctx
            if out.2.status = STATUS_ERROR then (out.1, out.2)
            else if out.2.status = STATUS_SKIP then
              execute_mods scripts mods_config hook_name rest out.1
            else
              execute_mods scripts mods_config hook_name rest
                (if out.2.modify_context ≠ [] then ctxUpdate out.1 out.2.modify_context
                 else out.1)

/-- The system-hook loop of `HookPipeline.execute_hook`
(src/src/hooks.py:154-196), instrumented with the list of context dicts as
passed to each configured entry (pure observation; the returned result is
the source's).  On a script error the failing result is returned after the
`error` hook chain runs — that chain works on a *copy* of the context and
cannot change the returned result, so it is a no-op in the model.  After
the system hooks, enabled mods run and the combined success result carries
the last seen `data` and the final dict as `modify_context`. -/
def executeHookLoop (scripts : String → Option Script)
    (mods_config : List (String × ModConf)) (hook_name : String) :
    List HookConf → Ctx → Ctx → HookResult × List Ctx
  | [], ctx, last_data =>
      let enabled := match ctxGet ctx "enabled_mods" with
        | some (.list l) => l
        | _ => []
      if enabled ≠ [] then
        let out := execute_mods scripts mods_config hook_name enabled ctx
        if out.2.status = STATUS_ERROR then (out.2, [])
        else
          ({ status := STATUS_SUCCESS, data := last_data,
             modify_context := ctxUpdate ctx out.2.modify_context }, [])
      else
        ({ status := STATUS_SUCCESS, data := last_data, modify_context := ctx }, [])
  | conf :: rest, ctx, last_data =>
      let out := execute_single_hook scripts conf ctx
      if out.2.status = STATUS_ERROR then (out.2, [ctx])
      else
        let ctx2 := if out.2.modify_context ≠ [] then ctxUpdate out.1 out.2.modify_context
          else out.1
        let last2 := if out.2.data ≠ [] then out.2.data else last_data
        let tail := executeHookLoop scripts mods_config hook_name rest ctx2 last2
        (tail.1, ctx :: tail.2)

/-- `HookPipeline.execute_hook(hook_name, context)` (src/src/hooks.py:124-196)
with its per-script context trace. -/
def execute_hook_traced (scripts : String → Option Script)
    (hooks_config : List (String × List HookConf))
    (mods_config : List (String × ModConf)) (hook_name : String)
    (context : Ctx) : HookResult × List Ctx :=
  let ctx0 := ctxSet context "hook" (.s hook_name)
  executeHookLoop scripts mods_config hook_name
    ((Loras.lookup hooks_config hook_name).getD []) ctx0 []

/-- `HookPipeline.execute_hook` — the returned combined result. -/
def execute_hook (scripts : String → Option Script)
    (hooks_config : List (String × List HookConf))
    (mods_config : List (String × ModConf)) (hook_name : String)
    (context : Ctx) : HookResult :=
  (execute_hook_traced scripts hooks_config mods_config hook_name context).1

/-- The system-hook loop as the specification describes it: each script
still receives the engine's dict, but its in-place mutations are discarded
— "only `modify_context` from the return value is merged forward". -/
def specHookLoop (scripts : String → Option Script)
    (mods_config : List (String × ModConf)) (hook_name : String) :
    List HookConf → Ctx → Ctx → HookResult × List Ctx
  | [], ctx, last_data =>
      ({ status := STATUS_SUCCESS, data := last_data, modify_context := ctx }, [])
  | conf :: rest, ctx, last_data =>
      let out := execute_single_hook scripts conf ctx
      if out.2.status = STATUS_ERROR then (out.2, [ctx])
      else
        let ctx2 := if out.2.modify_context ≠ [] then ctxUpdate ctx out.2.modify_context
          else ctx
        let last2 := if out.2.data ≠ [] then out.2.data else last_data
        let tail := specHookLoop scripts mods_config hook_name rest ctx2 last2
        (tail.1, ctx :: tail.2)

/-- The spec's reading of `execute_hook`, sharing everything with the code
model except that direct mutations never propagate between scripts. -/
def spec_execute_hook_traced (scripts : String → Option Script)
    (hooks_config : List (String × List HookConf))
    (mods_config : List (String × ModConf)) (hook_name : String)
    (context : Ctx) : HookResult × List Ctx :=
  let ctx0 := ctxSet context "hook" (.s hook_name)
  specHookLoop scripts mods_config hook_name
    ((Loras.lookup hooks_config hook_name).getD []) ctx0 []

end Hooks

namespace Hooks

theorem execute_mods_status (scripts : String → Option Script)
    (mc : List (String × ModConf)) (hn : String) :
    ∀ (names : List String) (ctx : Ctx),
      (execute_mods scripts mc hn names ctx).2.status = STATUS_SUCCESS ∨
      ((execute_mods scripts mc hn names ctx).2.status = STATUS_ERROR ∧
        ∃ conf c, (execute_mods scripts mc hn names ctx).2 =
          (execute_single_hook scripts conf c).2) := by
  intro names
  induction names with
  | nil => intro ctx; left; rfl
  | cons name rest ih =>
      intro ctx
      unfold execute_mods
      cases hlk : Loras.lookup mc name with
      | none => exact ih ctx
      | some conf =>
          dsimp only
          split_ifs <;>
            first
              | exact ih _
              | exact Or.inr ⟨by assumption, ⟨conf.script, conf.params⟩, ctx, rfl⟩

theorem executeHookLoop_status (scripts : String → Option Script)
    (mc : List (String × ModConf)) (hn : String) :
    ∀ (confs : List HookConf) (ctx last_data : Ctx),
      (executeHookLoop scripts mc hn confs ctx last_data).1.status = STATUS_SUCCESS ∨
      ((executeHookLoop scripts mc hn confs ctx last_data).1.status = STATUS_ERROR ∧
        ∃ conf c, (executeHookLoop scripts mc hn confs ctx last_data).1 =
          (execute_single_hook scripts conf c).2) := by
  intro confs
  induction confs with
  | nil =>
      intro ctx last_data
      unfold executeHookLoop
      dsimp only
      split_ifs with h1 h2
      · rcases execute_mods_status scripts mc hn _ ctx with hs | ⟨he, conf, c, heq⟩
        · rw [hs] at h2; exact absurd h2 (by decide)
        · exact Or.inr ⟨h2, conf, c, heq⟩
      · left; rfl
      · left; rfl
  | cons conf rest ih =>
      intro ctx last_data
      unfold executeHookLoop
      dsimp only
      split_ifs <;>
        first
          | exact ih _ _
          | exact Or.inr ⟨by assumption, conf, ctx, rfl⟩

end Hooks

/-- C10: the combined result of `execute_hook` always has status `success`
or `error`: an `error` result is the (returned-as-is) result of some
executed script, every other per-script status is absorbed, and
`HookResult.success` is true exactly for the statuses `success` and `skip`
— so `skip` and `streaming` never surface to the tree executor. -/
theorem execute_hook_status_law (scripts : String → Option Hooks.Script)
    (hc : List (String × List Hooks.HookConf)) (mc : List (String × Hooks.ModConf))
    (name : String) (context : Hooks.Ctx) :
    ((Hooks.execute_hook scripts hc mc name context).status = Hooks.STATUS_SUCCESS ∨
      ((Hooks.execute_hook scripts hc mc name context).status = Hooks.STATUS_ERROR ∧
        ∃ conf c, Hooks.execute_hook scripts hc mc name context =
          (Hooks.execute_single_hook scripts conf c).2)) ∧
    (∀ r : Hooks.HookResult, r.success = true ↔
      (r.status = Hooks.STATUS_SUCCESS ∨ r.status = Hooks.STATUS_SKIP)) := by
  constructor
  · exact Hooks.executeHookLoop_status scripts mc name _ _ []
  · intro r
    simp [Hooks.HookResult.success]

namespace Hooks

/-- A script that mutates the context dict it is handed (setting `x`) and
returns plain success with no `modify_context`. -/
def mutatingScript : Script :=
  { run := fun c _ => (ctxSet c "x" (.i 42), {}) }

/-- A script that only reads its context. -/
def passiveScript : Script :=
  { run := fun c _ => (c, {}) }

/-- Script table for the mutation-visibility counterexample. -/
def mutationTable : String → Option Script := fun p =>
  if p = "s1" then some mutatingScript
  else if p = "s2" then some passiveScript
  else none

/-- Hook configuration for the mutation-visibility counterexample. -/
def mutationHooksConfig : List (String × List HookConf) :=
  [("pre", [{ script := some "s1" }, { script := some "s2" }])]

/-- C8 (counterexample): with two scripts under one hook name, the first of
which sets `context["x"] = 42` in place while returning an empty
`modify_context`, the second script *does* see `x = 42` — the engine passes
the same dict object to every script — whereas under the spec's reading
(`spec_execute_hook_traced`, mutations discarded, only `modify_context`
merged) it would not. -/
theorem context_mutation_visible_counterexample :
    ctxGet (((execute_hook_traced mutationTable mutationHooksConfig [] "pre" []).2).getD 1 [])
      "x" = some (.i 42) ∧
    ctxGet (((spec_execute_hook_traced mutationTable mutationHooksConfig [] "pre" []).2).getD 1 [])
      "x" = none ∧
    (execute_hook_traced mutationTable mutationHooksConfig [] "pre" []).2 ≠
      (spec_execute_hook_traced mutationTable mutationHooksConfig [] "pre" []).2 := by
  decide

/-- C8 (amended): within one `execute_hook` invocation the engine passes
the *same* context dict to every script under the hook name, so a script's
in-place mutations (together with its `modify_context`) are exactly what
the next script receives; only the initial `{**context, hook: name}` copy
isolates the caller's dict.  Concretely: when the first configured script
does not fail, the second script's context is the first call's mutated dict,
updated with the first result's `modify_context`. -/
theorem execute_hook_mutation_forwarded (scripts : String → Option Script)
    (hc : List (String × List HookConf)) (mc : List (String × ModConf))
    (name : String) (context : Ctx) (conf1 conf2 : HookConf) (rest : List HookConf)
    (hcfg : Loras.lookup hc name = some (conf1 :: conf2 :: rest))
    (hne : (execute_single_hook scripts conf1 (ctxSet context "hook" (.s name))).2.status ≠
      STATUS_ERROR) :
    (execute_hook_traced scripts hc mc name context).2.get? 1 =
      some
        (if (execute_single_hook scripts conf1 (ctxSet context "hook" (.s name))).2.modify_context ≠ [] then
          ctxUpdate (execute_single_hook scripts conf1 (ctxSet context "hook" (.s name))).1
            (execute_single_hook scripts conf1 (ctxSet context "hook" (.s name))).2.modify_context
        else (execute_single_hook scripts conf1 (ctxSet context "hook" (.s name))).1) := by
  unfold execute_hook_traced
  rw [hcfg]
  dsimp only [Option.getD]
  unfold executeHookLoop
  dsimp only
  rw [if_neg hne]
  unfold executeHookLoop
  dsimp only
  split_ifs <;> rfl

end Hooks

/-- C8 (witness): the mutation-forwarding theorem applied to the concrete
two-script configuration. -/
theorem execute_hook_mutation_forwarded_witness :
    (Hooks.execute_hook_traced Hooks.mutationTable Hooks.mutationHooksConfig []
        "pre" []).2.get? 1 =
      some [("hook", Hooks.PyVal.s "pre"), ("x", Hooks.PyVal.i 42)] := by
  have h := Hooks.execute_hook_mutation_forwarded Hooks.mutationTable
    Hooks.mutationHooksConfig [] "pre" [] { script := some "s1" }
    { script := some "s2" } [] (by decide) (by decide)
  rw [h]
  decide

/-! ### `src/tree_executor.py` — `TreeExecutor`

Shallow embedding of the depth-first single-cursor execution engine.

Modelling choices:
* The hook pipeline is an oracle `hooks : String → CtxE → HookOut` (a pure
  function of the hook name and the context dict, like the `Hooks` model
  above); `HookOut.success` replicates `HookResult.success`.
* Python sets (`visited_blocks`, `failed_blocks`, `blocked_blocks`) are
  lists used only through membership; the guards in the source add each
  path at most once.
* `parent_key` is the string `f"{block_path}:{idx}"`; block paths never
  contain `':'`, so the source's `parent_key.split(':')[0]` is exactly the
  first component.  The model stores the pair `(block_path, idx)`.
* `_emit` events (plus one instrumentation event per `execute_hook` call,
  recording the returned status) are accumulated in `EState.log`.
* Disk writes (`open(path, 'w')`, `write_bytes`, manifest) become pure
  maps `files` / `binFiles` / `manifest` in the state; paths are relative
  to `output_path`, and `outputPath : Bool` models whether
  `self.output_path` is set.
* `stop()` can make `stop_requested` become true between any two reads of
  the flag.  A schedule `Sched.fromTime entry site` means the flag reads
  true from read site `site` of queue entry `entry` on (sites: 0 = loop
  condition, 1 = after `node_start`, 2 = after `resolve`, 3/4/5 = after
  `pre`/`generate`/`post`, 6 = the check after the stage loop, 7 = the
  finalization read); `Sched.never` is a run with no `stop()` call.
  `resume()` clears the flag and calls `execute()`, i.e. `execute` under
  `Sched.never`.
* `self._state` is only written by `execute` (transient `running`, then
  the final value), so the model returns the final state string alongside
  the state instead of storing it.
* The queue is a pure function of the block table (`build_queue`), and the
  source never mutates `self.queue` after building it, so `execute`
  recomputes it instead of caching it in the state.
-/

namespace Exec

/-- Generic association-list lookup (Python `dict.get`). -/
def assocGet {κ α : Type} [DecidableEq κ] (l : List (κ × α)) (k : κ) : Option α :=
  (l.find? (fun p => p.1 = k)).map Prod.snd

/-- Generic association-list update (Python `d[k] = v`): replaces in place,
else appends (insertion order preserved, like a Python dict). -/
def assocSet {κ α : Type} [DecidableEq κ] (l : List (κ × α)) (k : κ) (v : α) :
    List (κ × α) :=
  if (l.find? (fun p => p.1 = k)).isSome then
    l.map (fun p => if p.1 = k then (k, v) else p)
  else l ++ [(k, v)]

/-- An artifact dict.  The engine reads/writes exactly these keys;
`content_bytes` (modelled as a string of bytes) marks binary artifacts. -/
structure Artifact where
  name : Option String := none
  mod_id : Option String := none
  composition_idx : Option ℕ := none
  block_path : Option String := none
  preview : Option String := none
  content : Option String := none
  content_bytes : Option String := none
  disk_path : Option String := none
  disk_line : Option ℕ := none
deriving Repr, DecidableEq

/-- A hook-result `data` dict, split into the `artifacts` key (which the
executor pops) and the remaining items (string-valued in the model). -/
structure DataM where
  artifacts : Option (List Artifact) := none
  rest : List (String × String) := []
deriving Repr, DecidableEq

/-- Python `d.update(e)` on a `data` dict. -/
def DataM.update (d e : DataM) : DataM :=
  { artifacts := match e.artifacts with
      | some a => some a
      | none => d.artifacts,
    rest := e.rest.foldl (fun acc p => Wildcards.dictUpdate acc p.1 p.2) d.rest }

/-- Python truthiness of a `data` dict (`if result.data:`): nonempty. -/
def DataM.isEmpty (d : DataM) : Bool := d.artifacts.isNone && d.rest.isEmpty

/-- The prompt dict fields the executor reads.  `depends_on` and the
annotation `_depends_on` are stored as lists (the source wraps a lone
string into a one-element list); `annDependsOn` models
`_annotations['_depends_on']` and `annotations` the remaining annotation
items. -/
structure PromptE where
  blockPath : Option String := none
  parentPath : Option String := none
  dependsOn : List String := []
  annDependsOn : List String := []
  annotations : List (String × String) := []
  id : Option String := none
  text : Option String := none
deriving Repr, DecidableEq

/-- A job record as consumed by the executor (`job['prompt']`). -/
structure JobE where
  prompt : PromptE := {}
deriving Repr, DecidableEq

/-- A block definition built by `_build_block_tree`. -/
structure Block where
  path : String
  parentPath : Option String := none
  dependsOn : List String := []
  compositions : ℕ := 0
  jobs : List JobE := []
deriving Repr, DecidableEq

/-- `TreeExecutor._build_block_tree`: group the flat job list by
`_block_path` (insertion order), counting compositions. -/
def build_block_tree (jobs : List JobE) : List Block :=
  jobs.foldl (fun blocks job =>
    let path := (job.prompt.blockPath).getD "0"
    if (blocks.find? (fun b => b.path = path)).isSome then
      blocks.map (fun b =>
        if b.path = path then
          { b with compositions := b.compositions + 1, jobs := b.jobs ++ [job] }
        else b)
    else
      let dep := job.prompt.dependsOn
      let allDeps := dep ++ job.prompt.annDependsOn.filter (fun d => d ∉ dep)
      blocks ++ [{ path := path, parentPath := job.prompt.parentPath,
                   dependsOn := allDeps, compositions := 1, jobs := [job] }]) []

/-- `self.blocks[p]` / `self.blocks.get(p)`. -/
def findBlock (blocks : List Block) (p : String) : Option Block :=
  blocks.find? (fun b => b.path = p)

/-- A queue entry; `parentKey` models `"path:idx"` as the pair. -/
structure QueueEntry where
  blockPath : String
  compositionIdx : ℕ
  parentKey : Option (String × ℕ) := none
deriving Repr, DecidableEq

/-- The children of a block, sorted by path (`sorted(children, key=path)`). -/
def childrenOf (blocks : List Block) (p : String) : List Block :=
  (blocks.filter (fun b => b.parentPath = some p)).mergeSort
    (fun a b => a.path ≤ b.path)

/-- `enqueue_subtree`: depth-first enqueue of a block and its children.
The source recursion terminates because parent chains are finite; the
fuel (`blocks.length + 1` at the root) dominates the chain length. -/
def enqueueSubtree (blocks : List Block) :
    ℕ → String → ℕ → Option (String × ℕ) → List QueueEntry
  | 0, _, _, _ => []
  | fuel+1, path, idx, pk =>
      ⟨path, idx, pk⟩ ::
      (childrenOf blocks path).flatMap (fun child =>
        let parentComps := ((findBlock blocks path).map
          (fun b => b.compositions)).getD 0
        let perParent := if parentComps > 0 then
            child.compositions / parentComps else 0
        (List.range perParent).flatMap (fun c =>
          let childIdx := idx * perParent + c
          if childIdx < child.compositions then
            enqueueSubtree blocks fuel child.path childIdx (some (path, idx))
          else []))

/-- Roots: blocks with no parent, or whose parent path is absent from the
block table. -/
def rootsOf (blocks : List Block) : List Block :=
  blocks.filter (fun b =>
    match b.parentPath with
    | none => true
    | some pp => (findBlock blocks pp).isNone)

/-- `rp.startswith(s)`. -/
def strStartsWith (s pre : String) : Bool := pre.toList.isPrefixOf s.toList

/-- `'.'.join(parts)`. -/
def joinDot : List String → String
  | [] => ""
  | [x] => x
  | x :: rest => x ++ "." ++ joinDot rest

/-- The `while parts:` loop of `find_root_for`: try `'.'.join(parts)` as a
direct member or prefix of a root path, else pop the last component.  The
source iterates the Python *set* `root_paths`; the model fixes that
iteration order to the root-list order. -/
def findRootForAux (rootPaths : List String) : ℕ → List String → Option String
  | 0, _ => none
  | fuel+1, parts =>
      if parts.isEmpty then none
      else
        let candidate := joinDot parts
        if candidate ∈ rootPaths then some candidate
        else
          match rootPaths.find? (fun rp =>
              strStartsWith rp (candidate ++ ".") || rp = candidate) with
          | some rp => some rp
          | none => findRootForAux rootPaths fuel parts.dropLast

/-- `find_root_for(dep_path)`: which root subtree contains `dep_path`. -/
def find_root_for (rootPaths : List String) (depPath : String) : Option String :=
  if depPath ∈ rootPaths then some depPath
  else
    let parts := strSplitOn depPath "."
    match findRootForAux rootPaths parts.length parts with
    | some rp => some rp
    | none =>
        rootPaths.find? (fun rp =>
          strStartsWith rp (depPath ++ ".") || rp = depPath)

/-- The root-level dependency sets of `_topo_sort_roots`
(`deps[root] = {find_root_for(d) | d ∈ root.depends_on} \ {root}`), as an
association list in root order with set-insertion-order values. -/
def rootDeps (roots : List Block) : List (String × List String) :=
  let rootPaths := roots.map (fun r => r.path)
  roots.map (fun r => (r.path,
    r.dependsOn.foldl (fun acc dep =>
      match find_root_for rootPaths dep with
      | some t => if t ≠ r.path ∧ t ∉ acc then acc ++ [t] else acc
      | none => acc) []))

/-- `bisect.insort` on a sorted list of distinct root paths. -/
def insertSorted : List String → String → List String
  | [], x => [x]
  | y :: ys, x => if x < y then x :: y :: ys else y :: insertSorted ys x

/-- One pass of Kahn's inner loop: discard `node` from every remaining
dependency set and report the keys whose set just became empty. -/
def kahnStep (deps : List (String × List String)) (node : String) :
    List (String × List String) × List String :=
  (deps.map (fun p => (p.1, p.2.erase node)),
   (deps.filter (fun p => node ∈ p.2 ∧ p.2.erase node = [])).map (fun p => p.1))

/-- Kahn's algorithm main loop (`while ready:`); each iteration pops the
least ready node, so at most one iteration per root — the fuel
`roots.length + 1` never runs out. -/
def kahnLoop : ℕ → List (String × List String) → List String → List String →
    List String
  | 0, _, _, result => result
  | fuel+1, deps, ready, result =>
      match ready with
      | [] => result
      | node :: rest =>
          let step := kahnStep deps node
          kahnLoop fuel step.1 (step.2.foldl insertSorted rest) (result ++ [node])

/-- `TreeExecutor._topo_sort_roots`. -/
def topo_sort_roots (roots : List Block) : List Block :=
  let deps := rootDeps roots
  let ready0 := ((deps.filter (fun p => p.2.isEmpty)).map (fun p => p.1)).mergeSort
    (fun a b => a ≤ b)
  let resultPaths := kahnLoop (roots.length + 1) deps ready0 []
  if resultPaths.length < roots.length then
    roots.mergeSort (fun a b => a.path ≤ b.path)
  else
    resultPaths.filterMap (fun p => roots.find? (fun r => r.path = p))

/-- `TreeExecutor.build_queue`. -/
def build_queue (blocks : List Block) : List QueueEntry :=
  let roots := topo_sort_roots (rootsOf blocks)
  roots.flatMap (fun root =>
    (List.range root.compositions).flatMap (fun i =>
      enqueueSubtree blocks (blocks.length + 1) root.path i none))

/-- A context value for the executor's hook context dict. -/
inductive CtxVal where
  | s (v : String)
  | n (v : ℕ)
  | optS (v : Option String)
  | strMap (m : List (String × String))
  | natMap (m : List (String × ℕ))
  | artMap (m : List (String × List Artifact))
  | dataV (d : DataM)
  | resV (status : String) (data : DataM) (error : Option (String × String))
      (message : Option String)
  | jobV (j : JobE)
  | noneV
deriving Repr, DecidableEq

/-- The executor-side hook context dict. -/
abbrev CtxE := List (String × CtxVal)

/-- `ctx.update(patch)`. -/
def ctxUpdateE (c patch : CtxE) : CtxE :=
  patch.foldl (fun acc p => Wildcards.dictUpdate acc p.1 p.2) c

/-- What the executor observes of a `HookResult`.  The `error` dict is the
pair `(code, message)`. -/
structure HookOut where
  status : String := "success"
  data : DataM := {}
  modifyContext : CtxE := []
  error : Option (String × String) := none
  message : Option String := none
deriving Repr, DecidableEq

/-- `HookResult.success`: status is `success` or `skip` (hooks.py:93-95). -/
def HookOut.success (r : HookOut) : Bool :=
  r.status == "success" || r.status == "skip"

/-- Events: the `_emit` progress stream, plus one `hookExec` entry per
`pipeline.execute_hook` call (hook name, block, composition index, and the
returned status — pure instrumentation). -/
inductive Ev where
  | hookExec (hook : String) (blockPath : String) (idx : ℕ) (status : String)
  | blockStart (p : String)
  | blockFailed (p : String) (msg : Option String)
  | blockBlocked (p : String)
  | artifactEv (p : String) (idx : ℕ) (a : Artifact)
  | compositionComplete (p : String) (idx : ℕ)
  | artifactConsumed (dependent : String) (source : String) (count : ℕ)
  | blockComplete (p : String)
deriving Repr, DecidableEq

/-- One JSONL line of a flushed text-artifact file. -/
structure JsonlLine where
  composition_idx : ℕ
  name : String
  content : String
deriving Repr, DecidableEq

/-- One entry of the manifest's `blocks` mapping. -/
structure ManifestBlock where
  artifacts : List Artifact
  count : ℕ
  dependsOn : List String
  compositionTotal : ℕ
deriving Repr, DecidableEq

/-- `_artifacts/manifest.json` (the wall-clock `timestamp` is omitted). -/
structure Manifest where
  version : ℕ := 3
  format : String := "jsonl"
  blocksComplete : ℕ
  blocksTotal : ℕ
  blocks : List (String × ManifestBlock)
deriving Repr, DecidableEq

/-- The executor's mutable state (minus `self.queue` and `self._state`,
see the section comment). -/
structure EState where
  queuePos : ℕ := 0
  visited : List String := []
  failed : List String := []
  blocked : List String := []
  blockStates : List (String × String) := []
  blockCompleted : List (String × ℕ) := []
  resolveCache : List (String × HookOut) := []
  variationResults : List ((String × ℕ) × HookOut) := []
  completedCompositions : ℕ := 0
  blockArtifacts : List (String × List Artifact) := []
  log : List Ev := []
  files : List (String × List JsonlLine) := []
  binFiles : List (String × String) := []
  manifest : Option Manifest := none
deriving Repr, DecidableEq

/-- The executor's immutable configuration: block table, hook pipeline
oracle, and whether `output_path` is set. -/
structure ExecCfg where
  blocks : List Block
  hooks : String → CtxE → HookOut
  outputPath : Bool := true

/-- A stop schedule (see section comment). -/
inductive Sched where
  | never
  | fromTime (entry : ℕ) (site : ℕ)
deriving Repr, DecidableEq

/-- Reading `self.stop_requested` at read site `site` of queue entry
`pos`.  Sites within an entry are visited in increasing order, so this is
monotone along the run, as a one-shot flag is. -/
def stopRead : Sched → ℕ → ℕ → Bool
  | .never, _, _ => false
  | .fromTime e st, p, s => e < p || (e = p && st ≤ s)

/-- `sum(1 for s in block_states.values() if s == COMPLETE)`. -/
def countComplete (m : List (String × String)) : ℕ :=
  (m.filter (fun p => p.2 = "complete")).length

/-- `TreeExecutor._write_manifest` (early return when `block_artifacts`
is empty or `output_path` unset). -/
def writeManifest (cfg : ExecCfg) (st : EState) : EState :=
  if st.blockArtifacts.isEmpty || !cfg.outputPath then st
  else
    let m : Manifest :=
      { blocksComplete := countComplete st.blockStates,
        blocksTotal := cfg.blocks.length,
        blocks := st.blockArtifacts.map (fun p =>
          let blk := findBlock cfg.blocks p.1
          (p.1,
           { artifacts := p.2, count := p.2.length,
             dependsOn := (blk.map (fun b => b.dependsOn)).getD [],
             compositionTotal := (blk.map (fun b => b.compositions)).getD 0 })) }
    { st with manifest := some m }

/-- `artifact.get('content') or artifact.get('preview', '')` (Python `or`:
`None` *and* the empty string fall through to the preview). -/
def pyOrStr (c p : Option String) : String :=
  match c with
  | some s => if s ≠ "" then s else p.getD ""
  | none => p.getD ""

/-- Per-mod grouping of `(position, artifact)` pairs, preserving first-seen
mod order and in-group order (`by_mod.setdefault(mod_id, []).append`). -/
def groupByMod (l : List (ℕ × Artifact)) : List (String × List (ℕ × Artifact)) :=
  l.foldl (fun acc p =>
    let m := (p.2.mod_id).getD "_unknown"
    match assocGet acc m with
    | some g => assocSet acc m (g ++ [p])
    | none => acc ++ [(m, [p])]) []

/-- Output of flushing one mod group: binary files, the optional JSONL
file, and the stamped artifacts (keyed by their position in the block's
artifact list, since the source mutates the dicts in place). -/
structure GroupOut where
  bins : List (ℕ × Artifact × String × String)
  file : Option (String × List JsonlLine)
  stamps : List (ℕ × Artifact)

/-- Flush one mod group (the body of the `for mod_id, mod_artifacts in
by_mod.items():` loop of `_flush_block_artifacts`). -/
def flushGroup (bp : String) (g : String × List (ℕ × Artifact)) : GroupOut :=
  let m := g.1
  let bins := g.2.filter (fun ia => ia.2.content_bytes.isSome)
  let texts := g.2.filter (fun ia => ia.2.content_bytes.isNone)
  let binOuts := bins.filterMap (fun ia =>
    let nm := (ia.2.name).getD ""
    if nm = "" then none
    else
      let p := "_artifacts/" ++ m ++ "/" ++ bp ++ "/" ++ nm
      some (ia.1, { ia.2 with disk_path := some p }, p,
            (ia.2.content_bytes).getD ""))
  let jsonlPath := "_artifacts/" ++ m ++ "/" ++ bp ++ ".jsonl"
  let lines := texts.enum.map (fun p =>
    { composition_idx := (p.2.2.composition_idx).getD p.1,
      name := (p.2.2.name).getD "",
      content := pyOrStr p.2.2.content p.2.2.preview : JsonlLine })
  let stamps := texts.enum.map (fun p =>
    (p.2.1, { p.2.2 with disk_path := some jsonlPath, disk_line := some p.1 }))
  { bins := binOuts,
    file := if texts.isEmpty then none else some (jsonlPath, lines),
    stamps := stamps }

/-- `TreeExecutor._flush_block_artifacts`: write this block's artifacts
(JSONL per mod for text, one file per binary), stamp `disk_path` /
`disk_line` into the artifact dicts, then rewrite the manifest. -/
def flushBlock (cfg : ExecCfg) (st : EState) (bp : String) : EState :=
  if !cfg.outputPath then st
  else
    let arts := (assocGet st.blockArtifacts bp).getD []
    if arts.isEmpty then st
    else
      let outs := (groupByMod arts.enum).map (flushGroup bp)
      let files2 := outs.foldl (fun acc o =>
        match o.file with
        | some fl => assocSet acc fl.1 fl.2
        | none => acc) st.files
      let bins2 := outs.foldl (fun acc o =>
        o.bins.foldl (fun a b => assocSet a b.2.2.1 b.2.2.2) acc) st.binFiles
      let updates := outs.flatMap (fun o =>
        o.bins.map (fun b => (b.1, b.2.1)) ++ o.stamps)
      let newArts := arts.enum.map (fun p => (assocGet updates p.1).getD p.2)
      writeManifest cfg
        { st with files := files2, binFiles := bins2,
                  blockArtifacts := assocSet st.blockArtifacts bp newArts }

/-- Children plus dependents of a failed path — the blocks the failure
cascade visits, in source order. -/
def cascadeTargets (cfg : ExecCfg) (p : String) : List Block :=
  cfg.blocks.filter (fun b => b.parentPath = some p) ++
  cfg.blocks.filter (fun b => p ∈ b.dependsOn)

/-- One element of the cascade's `for block in children + dependents:`
loop: skip if already blocked, else mark blocked, emit `block_blocked`,
and recurse (`recurse` is the cascade at one less depth). -/
def cascadeStep (cfg : ExecCfg) (recurse : String → EState → EState)
    (st : EState) (b : Block) : EState :=
  if b.path ∈ st.blocked then st
  else recurse b.path
    { st with blocked := st.blocked ++ [b.path],
              blockStates := assocSet st.blockStates b.path "blocked",
              log := st.log ++ [.blockBlocked b.path] }

/-- The recursive `cascade` closure of `_handle_failure`.  The source
recursion terminates because every recursive call is guarded by a fresh
`blocked_blocks.add`; the fuel (`blocks.length + 1` at the top) dominates
that depth. -/
def cascadeGo (cfg : ExecCfg) : ℕ → String → EState → EState
  | 0, _, st => st
  | fuel+1, p, st =>
      (cascadeTargets cfg p).foldl
        (cascadeStep cfg (fun p2 s2 => cascadeGo cfg fuel p2 s2)) st

/-- `TreeExecutor._handle_failure`. -/
def handle_failure (cfg : ExecCfg) (st : EState) (bp : String) (idx : ℕ)
    (r : HookOut) : EState :=
  let msg := match r.message with
    | some m => some m
    | none => r.error.map (fun e => e.2)
  let st1 := { st with failed := st.failed ++ [bp],
                       blockStates := assocSet st.blockStates bp "failed",
                       variationResults := assocSet st.variationResults (bp, idx) r,
                       log := st.log ++ [.blockFailed bp msg] }
  cascadeGo cfg (cfg.blocks.length + 1) bp st1

/-- The enriched hook context dict (tree_executor.py:321-334), in the
source's key-insertion order. -/
def buildCtx (st : EState) (block : Block) (e : QueueEntry) (job : JobE) : CtxE :=
  [("block_path", .s e.blockPath),
   ("composition_index", .n e.compositionIdx),
   ("composition_total", .n block.compositions),
   ("parent_result",
     match e.parentKey with
     | some pk =>
         match assocGet st.variationResults pk with
         | some r => .resV r.status r.data r.error r.message
         | none => .noneV
     | none => .noneV),
   ("resolved_text", .optS job.prompt.text),
   ("prompt_id", .optS job.prompt.id),
   ("annotations", .strMap job.prompt.annotations),
   ("job", .jobV job),
   ("upstream_artifacts", .artMap st.blockArtifacts),
   ("block_states", .strMap st.blockStates),
   ("block_completed", .natMap st.blockCompleted)]

/-- Result of processing one queue entry: `stopped` = the loop `break`s
with the cursor unchanged; `next` = fall through to `queue_position += 1`. -/
inductive BodyRes where
  | stopped (st : EState)
  | next (st : EState)

/-- Outcome of the per-composition stage loop. -/
inductive StageRes where
  | stopped (st : EState)
  | failedR (st : EState)
  | okR (st : EState) (ctx : CtxE) (dat : DataM)

/-- The per-composition stages with their stop-read sites. -/
def stageSites : List (String × ℕ) := [("pre", 3), ("generate", 4), ("post", 5)]

/-- The `for stage in ('pre', 'generate', 'post'):` loop: run the hook,
check the stop flag, on failure run `_handle_failure` and break, else
accumulate `result.data` into `composition_data` and apply
`result.modify_context` to the context. -/
def stagesLoop (cfg : ExecCfg) (stopAt : ℕ → Bool) (bp : String) (idx : ℕ) :
    List (String × ℕ) → EState → CtxE → DataM → StageRes
  | [], st, ctx, dat => .okR st ctx dat
  | sg :: rest, st, ctx, dat =>
      let r := cfg.hooks sg.1 ctx
      let st1 := { st with log := st.log ++ [.hookExec sg.1 bp idx r.status] }
      if stopAt sg.2 then .stopped st1
      else if r.success then
        let dat1 := if !r.data.isEmpty then dat.update r.data else dat
        let ctx1 := if !r.modifyContext.isEmpty then ctxUpdateE ctx r.modifyContext
          else ctx
        stagesLoop cfg stopAt bp idx rest st1 ctx1 dat1
      else .failedR (handle_failure cfg st1 bp idx r)

/-- Lines 385-423: pop `artifacts` from the accumulated data, stamp and
store them, record the combined result, and when the block's last
composition finished run `node_end`, mark `complete`, flush, and emit
`artifact_consumed` / `block_complete`. -/
def completionPhase (cfg : ExecCfg) (e : QueueEntry) (block : Block)
    (st : EState) (ctx : CtxE) (dat : DataM) : EState :=
  let bp := e.blockPath
  let idx := e.compositionIdx
  let arts := dat.artifacts.getD []
  let datRest : DataM := { artifacts := none, rest := dat.rest }
  let stamped := arts.map (fun a =>
    { a with composition_idx := some (a.composition_idx.getD idx),
             block_path := some (a.block_path.getD bp) })
  let st1 := if !stamped.isEmpty then
      { st with blockArtifacts := assocSet st.blockArtifacts bp
                  ((assocGet st.blockArtifacts bp).getD [] ++ stamped),
                log := st.log ++ stamped.map (fun a => Ev.artifactEv bp idx a) }
    else st
  let newCount := (assocGet st1.blockCompleted bp).getD 0 + 1
  let st2 := { st1 with
    blockCompleted := assocSet st1.blockCompleted bp newCount,
    completedCompositions := st1.completedCompositions + 1,
    variationResults := assocSet st1.variationResults (bp, idx)
      { status := "success", data := datRest },
    log := st1.log ++ [.compositionComplete bp idx] }
  if newCount = block.compositions then
    let rEnd := cfg.hooks "node_end" ctx
    let st3 := { st2 with
      log := st2.log ++ [.hookExec "node_end" bp idx rEnd.status],
      blockStates := assocSet st2.blockStates bp "complete" }
    let st4 := if !((assocGet st3.blockArtifacts bp).getD []).isEmpty
        && cfg.outputPath then
        flushBlock cfg st3 bp
      else st3
    let st5 := if !((assocGet st4.blockArtifacts bp).getD []).isEmpty then
        let dependents := cfg.blocks.filter (fun b => bp ∈ b.dependsOn)
        { st4 with log := st4.log ++ dependents.map (fun d =>
            Ev.artifactConsumed d.path bp
              ((assocGet st4.blockArtifacts bp).getD []).length) }
      else st4
    { st5 with log := st5.log ++ [.blockComplete bp] }
  else st2

/-- The part of the loop body after the skip guards, once the block
definition has been looked up: first-visit block-level hooks
(`node_start`, `resolve` with caching), then `afterVisit`. -/
def afterVisit (cfg : ExecCfg) (stopAt : ℕ → Bool) (e : QueueEntry)
    (block : Block) (st : EState) (ctx : CtxE) : BodyRes :=
  let bp := e.blockPath
  let idx := e.compositionIdx
  let ctx2 := match assocGet st.resolveCache bp with
    | some c => Wildcards.dictUpdate ctx "resolve_data" (.dataV c.data)
    | none => ctx
  match stagesLoop cfg stopAt bp idx stageSites st ctx2 {} with
  | .stopped s => .stopped s
  | .failedR s => if stopAt 6 then .stopped s else .next s
  | .okR s ctx3 dat =>
      if stopAt 6 then .stopped s
      else .next (completionPhase cfg e block s ctx3 dat)

/-- Block-level first-visit processing (lines 336-362), then the
per-composition stages. -/
def processEntry (cfg : ExecCfg) (stopAt : ℕ → Bool) (e : QueueEntry)
    (block : Block) (st : EState) : BodyRes :=
  let bp := e.blockPath
  let idx := e.compositionIdx
  let job := match block.jobs.get? idx with
    | some j => j
    | none => (block.jobs.get? 0).getD {}
  let ctx0 := buildCtx st block e job
  if bp ∈ st.visited then afterVisit cfg stopAt e block st ctx0
  else
    let st1 := { st with visited := st.visited ++ [bp],
                         blockStates := assocSet st.blockStates bp "running",
                         log := st.log ++ [Ev.blockStart bp] }
    let r1 := cfg.hooks "node_start" ctx0
    let st2 := { st1 with log := st1.log ++ [Ev.hookExec "node_start" bp idx r1.status] }
    if stopAt 1 then .stopped st2
    else
      let ctx1 := if !r1.modifyContext.isEmpty then ctxUpdateE ctx0 r1.modifyContext
        else ctx0
      let r2 := cfg.hooks "resolve" ctx1
      let st3 := { st2 with log := st2.log ++ [Ev.hookExec "resolve" bp idx r2.status] }
      if stopAt 2 then .stopped st3
      else if r2.success then
        afterVisit cfg stopAt e block
          { st3 with resolveCache := assocSet st3.resolveCache bp r2 } ctx1
      else .next (handle_failure cfg st3 bp idx r2)

/-- Helper: mark a block `blocked` and emit `block_blocked`
(lines 298-300 / 310-312). -/
def markBlocked (st : EState) (bp : String) : EState :=
  { st with blocked := st.blocked ++ [bp],
            blockStates := assocSet st.blockStates bp "blocked",
            log := st.log ++ [.blockBlocked bp] }

/-- One iteration of the `while` loop for queue entry `e` (after the loop
condition): the skip guards of lines 291-314, then `processEntry`. -/
def execEntry (cfg : ExecCfg) (stopAt : ℕ → Bool) (e : QueueEntry)
    (st : EState) : BodyRes :=
  let bp := e.blockPath
  if bp ∈ st.failed ∨ bp ∈ st.blocked then .next st
  else
    let parentFailed := match e.parentKey with
      | some pk => decide (pk.1 ∈ st.failed)
      | none => false
    if parentFailed then .next (markBlocked st bp)
    else
      match findBlock cfg.blocks bp with
      | none => .next st
      | some block =>
          if block.dependsOn ≠ [] ∧ bp ∉ st.visited ∧
              block.dependsOn.filter (fun d => d ∈ st.failed) ≠ [] then
            .next (markBlocked st bp)
          else processEntry cfg stopAt e block st

/-- The `while self.queue_position < len(self.queue) and not
self.stop_requested:` loop.  A `.stopped` iteration is a `break` (the loop
ends with the cursor unchanged); a `.next` iteration falls through to
`queue_position += 1`.  Each iteration advances the cursor or breaks, so
fuel `queue.length + 1` never runs out. -/
def runLoop (cfg : ExecCfg) (sched : Sched) (q : List QueueEntry) :
    ℕ → EState → EState
  | 0, st => st
  | fuel+1, st =>
      if h : st.queuePos < q.length then
        if stopRead sched st.queuePos 0 then st
        else
          match execEntry cfg (stopRead sched st.queuePos) (q.get ⟨st.queuePos, h⟩) st with
          | .stopped s => s
          | .next s => runLoop cfg sched q fuel { s with queuePos := st.queuePos + 1 }
      else st

/-- Lines 427-433: the final `self._state` value. -/
def finalize (sched : Sched) (st : EState) : EState × String :=
  if stopRead sched st.queuePos 7 then (st, "paused")
  else if !st.failed.isEmpty then (st, "failed")
  else (st, "complete")

/-- `TreeExecutor.execute` under a stop schedule, returning the final
state and the final `self._state` string. -/
def execute (cfg : ExecCfg) (sched : Sched) (st : EState) : EState × String :=
  let q := build_queue cfg.blocks
  finalize sched (runLoop cfg sched q (q.length + 1) st)

/-- `TreeExecutor.resume`: clear the stop flag and `execute()` again. -/
def resume (cfg : ExecCfg) (st : EState) : EState × String :=
  execute cfg .never st

/-- The state of a freshly constructed executor. -/
def initState : EState := {}

end Exec

namespace Exec

/-! #### Association-list laws -/

theorem assocGet_map_upd {κ α : Type} [DecidableEq κ] (k : κ) (v : α) :
    ∀ (l : List (κ × α)), (l.find? (fun p => p.1 = k)).isSome →
      assocGet (l.map (fun p => if p.1 = k then (k, v) else p)) k = some v := by
  intro l
  induction l with
  | nil => intro h; simp at h
  | cons p rest ih =>
      intro h
      by_cases hp : p.1 = k
      · simp [assocGet, List.find?, hp]
      · rw [List.find?_cons_of_neg _ (by simp [hp])] at h
        simpa [assocGet, List.find?, hp] using ih h

theorem assocGet_append_self {κ α : Type} [DecidableEq κ] (k : κ) (v : α)
    (l : List (κ × α)) (h : l.find? (fun p => p.1 = k) = none) :
    assocGet (l ++ [(k, v)]) k = some v := by
  simp [assocGet, List.find?_append, h]

theorem assocGet_set_self {κ α : Type} [DecidableEq κ] (l : List (κ × α))
    (k : κ) (v : α) : assocGet (assocSet l k v) k = some v := by
  unfold assocSet
  split_ifs with hf
  · exact assocGet_map_upd k v l hf
  · exact assocGet_append_self k v l (Option.not_isSome_iff_eq_none.1 hf)

theorem find?_map_upd_ne {κ α : Type} [DecidableEq κ] (k : κ) (v : α) (k2 : κ)
    (h : k2 ≠ k) : ∀ (l : List (κ × α)),
      (l.map (fun p => if p.1 = k then (k, v) else p)).find? (fun p => p.1 = k2) =
        l.find? (fun p => p.1 = k2) := by
  intro l
  induction l with
  | nil => rfl
  | cons p rest ih =>
      by_cases hp : p.1 = k
      · have h1 : ¬ ((k, v).1 = k2) := fun hh => h hh.symm
        have h2 : ¬ (p.1 = k2) := fun hh => h (hp.symm.trans hh).symm
        rw [List.map_cons, if_pos hp,
          List.find?_cons_of_neg _ (by simpa using h1),
          List.find?_cons_of_neg _ (by simpa using h2), ih]
      · rw [List.map_cons, if_neg hp]
        by_cases hpk : p.1 = k2
        · rw [List.find?_cons_of_pos _ (by simpa using hpk),
            List.find?_cons_of_pos _ (by simpa using hpk)]
        · rw [List.find?_cons_of_neg _ (by simpa using hpk),
            List.find?_cons_of_neg _ (by simpa using hpk), ih]

theorem assocGet_set_ne {κ α : Type} [DecidableEq κ] (l : List (κ × α))
    (k : κ) (v : α) (k2 : κ) (h : k2 ≠ k) :
    assocGet (assocSet l k v) k2 = assocGet l k2 := by
  unfold assocSet
  split_ifs with hf
  · unfold assocGet
    rw [find?_map_upd_ne k v k2 h]
  · unfold assocGet
    rw [List.find?_append]
    rw [show ([(k, v)].find? (fun p => p.1 = k2)) = none from
      List.find?_cons_of_neg _ (by simpa using fun hh => h hh.symm)]
    cases l.find? (fun p => p.1 = k2) <;> rfl

end Exec

namespace Exec

/-! #### Basic state-shape lemmas about the executor's helper functions -/

/-- The state carried by a body result, regardless of how the iteration
ended. -/
def BodyRes.state : BodyRes → EState
  | .stopped s => s
  | .next s => s

/-- The state carried by a stage-loop result. -/
def StageRes.state : StageRes → EState
  | .stopped s => s
  | .failedR s => s
  | .okR s _ _ => s

theorem writeManifest_shape (cfg : ExecCfg) (st : EState) :
    (writeManifest cfg st).log = st.log ∧
    (writeManifest cfg st).files = st.files ∧
    (writeManifest cfg st).blockArtifacts = st.blockArtifacts ∧
    (writeManifest cfg st).failed = st.failed ∧
    (writeManifest cfg st).blocked = st.blocked ∧
    (writeManifest cfg st).blockStates = st.blockStates := by
  unfold writeManifest
  split_ifs <;> exact ⟨rfl, rfl, rfl, rfl, rfl, rfl⟩

theorem flushBlock_shape (cfg : ExecCfg) (st : EState) (bp : String) :
    (flushBlock cfg st bp).log = st.log ∧
    (flushBlock cfg st bp).failed = st.failed ∧
    (flushBlock cfg st bp).blocked = st.blocked ∧
    (flushBlock cfg st bp).blockStates = st.blockStates := by
  unfold flushBlock
  by_cases h1 : (!cfg.outputPath) = true
  · rw [if_pos h1]; exact ⟨rfl, rfl, rfl, rfl⟩
  · rw [if_neg h1]
    dsimp only
    by_cases h2 : ((assocGet st.blockArtifacts bp).getD []).isEmpty = true
    · rw [if_pos h2]; exact ⟨rfl, rfl, rfl, rfl⟩
    · rw [if_neg h2]
      exact ⟨(writeManifest_shape cfg _).1, (writeManifest_shape cfg _).2.2.2.1,
        (writeManifest_shape cfg _).2.2.2.2.1, (writeManifest_shape cfg _).2.2.2.2.2⟩

theorem foldl_preserve {α β : Type} (P : β → Prop) (f : β → α → β)
    (hf : ∀ b a, P b → P (f b a)) : ∀ (l : List α) (b : β), P b → P (l.foldl f b) := by
  intro l
  induction l with
  | nil => intro b hb; exact hb
  | cons a rest ih => intro b hb; exact ih (f b a) (hf b a hb)

theorem cascadeGo_basic (cfg : ExecCfg) :
    ∀ (fuel : ℕ) (p : String) (st : EState),
      (cascadeGo cfg fuel p st).failed = st.failed ∧
      st.blocked ⊆ (cascadeGo cfg fuel p st).blocked ∧
      st.log <+: (cascadeGo cfg fuel p st).log := by
  intro fuel
  induction fuel with
  | zero => intro p st; exact ⟨rfl, fun a ha => ha, List.prefix_rfl⟩
  | succ fuel ih =>
      intro p st
      rw [cascadeGo]
      refine foldl_preserve
        (fun x : EState => x.failed = st.failed ∧ st.blocked ⊆ x.blocked ∧
          st.log <+: x.log) _ ?_ (cascadeTargets cfg p) st
        ⟨rfl, fun a ha => ha, List.prefix_rfl⟩
      intro x b hx
      unfold cascadeStep
      split_ifs with hb
      · exact hx
      · obtain ⟨g1, g2, g3⟩ := ih b.path
          { x with blocked := x.blocked ++ [b.path],
                   blockStates := assocSet x.blockStates b.path "blocked",
                   log := x.log ++ [.blockBlocked b.path] }
        exact ⟨g1.trans hx.1,
          fun a ha => g2 (List.mem_append_left _ (hx.2.1 ha)),
          (hx.2.2.trans (List.prefix_append _ _)).trans g3⟩

theorem handle_failure_shape (cfg : ExecCfg) (st : EState) (bp : String)
    (idx : ℕ) (r : HookOut) :
    (handle_failure cfg st bp idx r).failed = st.failed ++ [bp] ∧
    st.blocked ⊆ (handle_failure cfg st bp idx r).blocked ∧
    st.log <+: (handle_failure cfg st bp idx r).log := by
  unfold handle_failure
  obtain ⟨h1, h2, h3⟩ := cascadeGo_basic cfg (cfg.blocks.length + 1) bp
    { st with failed := st.failed ++ [bp],
              blockStates := assocSet st.blockStates bp "failed",
              variationResults := assocSet st.variationResults (bp, idx) r,
              log := st.log ++ [.blockFailed bp
                (match r.message with
                 | some m => some m
                 | none => r.error.map (fun e => e.2))] }
  exact ⟨h1, h2, (List.prefix_append _ _).trans h3⟩

theorem stagesLoop_basic (cfg : ExecCfg) (stopAt : ℕ → Bool) (bp : String)
    (idx : ℕ) : ∀ (stages : List (String × ℕ)) (st : EState) (ctx : CtxE)
      (dat : DataM),
      st.failed ⊆ (stagesLoop cfg stopAt bp idx stages st ctx dat).state.failed ∧
      st.blocked ⊆ (stagesLoop cfg stopAt bp idx stages st ctx dat).state.blocked ∧
      st.log <+: (stagesLoop cfg stopAt bp idx stages st ctx dat).state.log := by
  intro stages
  induction stages with
  | nil =>
      intro st ctx dat
      exact ⟨fun a ha => ha, fun a ha => ha, List.prefix_rfl⟩
  | cons sg rest ih =>
      intro st ctx dat
      rw [stagesLoop]
      dsimp only
      by_cases h1 : stopAt sg.2 = true
      · rw [if_pos h1]
        exact ⟨fun a ha => ha, fun a ha => ha, List.prefix_append _ _⟩
      · rw [if_neg h1]
        by_cases h2 : (cfg.hooks sg.1 ctx).success = true
        · rw [if_pos h2]
          have g := ih { st with log := st.log ++
                [Ev.hookExec sg.1 bp idx (cfg.hooks sg.1 ctx).status] }
              (if (!List.isEmpty (cfg.hooks sg.1 ctx).modifyContext) = true then
                ctxUpdateE ctx (cfg.hooks sg.1 ctx).modifyContext else ctx)
              (if (!(cfg.hooks sg.1 ctx).data.isEmpty) = true then
                dat.update (cfg.hooks sg.1 ctx).data else dat)
          exact ⟨g.1, g.2.1, (List.prefix_append _ _).trans g.2.2⟩
        · rw [if_neg h2]
          refine ⟨fun a ha => ?_, ?_, ?_⟩
          · show a ∈ (handle_failure cfg _ bp idx _).failed
            rw [(handle_failure_shape cfg _ bp idx _).1]
            exact List.mem_append_left _ ha
          · exact (handle_failure_shape cfg
              { st with log := st.log ++
                  [Ev.hookExec sg.1 bp idx (cfg.hooks sg.1 ctx).status] }
              bp idx (cfg.hooks sg.1 ctx)).2.1
          · show st.log <+: (handle_failure cfg
              { st with log := st.log ++ [Ev.hookExec sg.1 bp idx (cfg.hooks sg.1 ctx).status] }
              bp idx (cfg.hooks sg.1 ctx)).log
            exact (List.prefix_append _ _).trans
              (handle_failure_shape cfg
                { st with log := st.log ++
                    [Ev.hookExec sg.1 bp idx (cfg.hooks sg.1 ctx).status] }
                bp idx (cfg.hooks sg.1 ctx)).2.2

end Exec

namespace Exec

theorem flushBlock_log (cfg : ExecCfg) (st : EState) (bp : String) :
    (flushBlock cfg st bp).log = st.log := (flushBlock_shape cfg st bp).1

theorem flushBlock_failed (cfg : ExecCfg) (st : EState) (bp : String) :
    (flushBlock cfg st bp).failed = st.failed := (flushBlock_shape cfg st bp).2.1

theorem flushBlock_blocked (cfg : ExecCfg) (st : EState) (bp : String) :
    (flushBlock cfg st bp).blocked = st.blocked := (flushBlock_shape cfg st bp).2.2.1

theorem completionPhase_shape (cfg : ExecCfg) (e : QueueEntry) (block : Block)
    (st : EState) (ctx : CtxE) (dat : DataM) :
    (completionPhase cfg e block st ctx dat).failed = st.failed ∧
    (completionPhase cfg e block st ctx dat).blocked = st.blocked ∧
    st.log <+: (completionPhase cfg e block st ctx dat).log := by
  unfold completionPhase
  dsimp only
  split_ifs <;>
    refine ⟨?_, ?_, ?_⟩ <;>
    simp only [flushBlock_log, flushBlock_failed, flushBlock_blocked,
      List.append_assoc] <;>
    first
      | rfl
      | exact List.prefix_rfl
      | exact List.prefix_append _ _

theorem afterVisit_basic (cfg : ExecCfg) (stopAt : ℕ → Bool) (e : QueueEntry)
    (block : Block) (st : EState) (ctx : CtxE) :
    st.failed ⊆ (afterVisit cfg stopAt e block st ctx).state.failed ∧
    st.blocked ⊆ (afterVisit cfg stopAt e block st ctx).state.blocked ∧
    st.log <+: (afterVisit cfg stopAt e block st ctx).state.log := by
  unfold afterVisit
  dsimp only
  have g := stagesLoop_basic cfg stopAt e.blockPath e.compositionIdx stageSites st
    (match assocGet st.resolveCache e.blockPath with
     | some c => Wildcards.dictUpdate ctx "resolve_data" (.dataV c.data)
     | none => ctx) {}
  split
  · next s heq => rw [heq] at g; exact g
  · next s heq =>
      rw [heq] at g
      split_ifs <;> exact g
  · next s c d heq =>
      rw [heq] at g
      split_ifs with h6
      · exact g
      · obtain ⟨c1, c2, c3⟩ := completionPhase_shape cfg e block s c d
        refine ⟨fun a ha => ?_, fun a ha => ?_, ?_⟩
        · show a ∈ (completionPhase cfg e block s c d).failed
          rw [c1]; exact g.1 ha
        · show a ∈ (completionPhase cfg e block s c d).blocked
          rw [c2]; exact g.2.1 ha
        · exact g.2.2.trans c3

theorem processEntry_basic (cfg : ExecCfg) (stopAt : ℕ → Bool) (e : QueueEntry)
    (block : Block) (st : EState) :
    st.failed ⊆ (processEntry cfg stopAt e block st).state.failed ∧
    st.blocked ⊆ (processEntry cfg stopAt e block st).state.blocked ∧
    st.log <+: (processEntry cfg stopAt e block st).state.log := by
  unfold processEntry
  dsimp only
  by_cases h1 : e.blockPath ∈ st.visited
  · rw [if_pos h1]
    exact afterVisit_basic cfg stopAt e block _ _
  · rw [if_neg h1]
    by_cases h2 : stopAt 1 = true
    · rw [if_pos h2]
      exact ⟨fun a ha => ha, fun a ha => ha,
        by simp only [List.append_assoc]; exact List.prefix_append _ _⟩
    · rw [if_neg h2]
      by_cases h3 : stopAt 2 = true
      · rw [if_pos h3]
        exact ⟨fun a ha => ha, fun a ha => ha,
          by simp only [List.append_assoc]; exact List.prefix_append _ _⟩
      · rw [if_neg h3]
        split_ifs with hmc h4 h4b
        · refine ⟨fun a ha => (afterVisit_basic cfg stopAt e block _ _).1 ha,
            fun a ha => (afterVisit_basic cfg stopAt e block _ _).2.1 ha, ?_⟩
          refine List.IsPrefix.trans ?_ (afterVisit_basic cfg stopAt e block _ _).2.2
          simp only [List.append_assoc]
          exact List.prefix_append _ _
        · refine ⟨fun a ha => ?_, fun a ha => ?_, ?_⟩
          · simp only [BodyRes.state]
            rw [(handle_failure_shape cfg _ _ _ _).1]
            exact List.mem_append_left _ ha
          · simp only [BodyRes.state]
            exact (handle_failure_shape cfg _ _ _ _).2.1 ha
          · simp only [BodyRes.state]
            refine List.IsPrefix.trans ?_ (handle_failure_shape cfg _ _ _ _).2.2
            simp only [List.append_assoc]
            exact List.prefix_append _ _
        · refine ⟨fun a ha => (afterVisit_basic cfg stopAt e block _ _).1 ha,
            fun a ha => (afterVisit_basic cfg stopAt e block _ _).2.1 ha, ?_⟩
          refine List.IsPrefix.trans ?_ (afterVisit_basic cfg stopAt e block _ _).2.2
          simp only [List.append_assoc]
          exact List.prefix_append _ _
        · refine ⟨fun a ha => ?_, fun a ha => ?_, ?_⟩
          · simp only [BodyRes.state]
            rw [(handle_failure_shape cfg _ _ _ _).1]
            exact List.mem_append_left _ ha
          · simp only [BodyRes.state]
            exact (handle_failure_shape cfg _ _ _ _).2.1 ha
          · simp only [BodyRes.state]
            refine List.IsPrefix.trans ?_ (handle_failure_shape cfg _ _ _ _).2.2
            simp only [List.append_assoc]
            exact List.prefix_append _ _

end Exec

namespace Exec

theorem execEntry_basic (cfg : ExecCfg) (stopAt : ℕ → Bool) (e : QueueEntry)
    (st : EState) :
    st.failed ⊆ (execEntry cfg stopAt e st).state.failed ∧
    st.blocked ⊆ (execEntry cfg stopAt e st).state.blocked ∧
    st.log <+: (execEntry cfg stopAt e st).state.log := by
  unfold execEntry
  dsimp only
  split_ifs with h1 h2
  · exact ⟨fun a ha => ha, fun a ha => ha, List.prefix_rfl⟩
  · exact ⟨fun a ha => ha, fun a ha => List.mem_append_left _ ha,
      List.prefix_append _ _⟩
  · split
    · exact ⟨fun a ha => ha, fun a ha => ha, List.prefix_rfl⟩
    · split_ifs with h3
      · exact ⟨fun a ha => ha, fun a ha => List.mem_append_left _ ha,
          List.prefix_append _ _⟩
      · exact processEntry_basic cfg stopAt e _ st

theorem runLoop_basic (cfg : ExecCfg) (sched : Sched) (q : List QueueEntry) :
    ∀ (fuel : ℕ) (st : EState),
      st.failed ⊆ (runLoop cfg sched q fuel st).failed ∧
      st.blocked ⊆ (runLoop cfg sched q fuel st).blocked ∧
      st.log <+: (runLoop cfg sched q fuel st).log := by
  intro fuel
  induction fuel with
  | zero => intro st; exact ⟨fun a ha => ha, fun a ha => ha, List.prefix_rfl⟩
  | succ fuel ih =>
      intro st
      rw [runLoop]
      split_ifs with h1 h2
      · exact ⟨fun a ha => ha, fun a ha => ha, List.prefix_rfl⟩
      · have g := execEntry_basic cfg (stopRead sched st.queuePos)
          (q.get ⟨st.queuePos, h1⟩) st
        split
        · next s heq =>
            rw [heq] at g
            exact g
        · next s heq =>
            rw [heq] at g
            have g2 := ih { s with queuePos := st.queuePos + 1 }
            exact ⟨fun a ha => g2.1 (g.1 ha), fun a ha => g2.2.1 (g.2.1 ha),
              g.2.2.trans g2.2.2⟩
      · exact ⟨fun a ha => ha, fun a ha => ha, List.prefix_rfl⟩

end Exec

namespace Exec

/-! #### C7 support: the JSONL flush -/

theorem assocSet_keys_found {κ α : Type} [DecidableEq κ] (l : List (κ × α))
    (k : κ) (v : α) (h : (l.find? (fun p => p.1 = k)).isSome) :
    (assocSet l k v).map Prod.fst = l.map Prod.fst := by
  unfold assocSet
  rw [if_pos h, List.map_map]
  exact List.map_congr_left (fun p _ => by by_cases hp : p.1 = k <;> simp [hp])

theorem assocGet_none_not_mem {κ α : Type} [DecidableEq κ] (l : List (κ × α))
    (k : κ) (h : assocGet l k = none) : k ∉ l.map Prod.fst := by
  intro hk
  obtain ⟨p, hp, hpk⟩ := List.mem_map.1 hk
  unfold assocGet at h
  rw [Option.map_eq_none'] at h
  exact absurd (by simpa using hpk) (List.find?_eq_none.1 h p hp)

theorem groupByMod_keys (l : List (ℕ × Artifact)) :
    ((groupByMod l).map Prod.fst).Nodup := by
  unfold groupByMod
  refine foldl_preserve
    (fun acc : List (String × List (ℕ × Artifact)) => (acc.map Prod.fst).Nodup)
    _ ?_ l [] (by simp)
  intro acc p hacc
  dsimp only
  cases hg : assocGet acc ((p.2.mod_id).getD "_unknown") with
  | some g =>
      rw [assocSet_keys_found]
      · exact hacc
      · unfold assocGet at hg
        cases hf : acc.find? (fun q => q.1 = (p.2.mod_id).getD "_unknown") with
        | none => rw [hf] at hg; simp at hg
        | some q => simp [hf]
  | none =>
      rw [List.map_append]
      simp only [List.map_cons, List.map_nil]
      rw [List.nodup_append]
      exact ⟨hacc, List.nodup_singleton _,
        fun a ha hb => by
          simp at hb
          exact assocGet_none_not_mem acc _ hg (hb ▸ ha)⟩

theorem jsonl_path_inj (m m2 bp : String)
    (h : ("_artifacts/" ++ m ++ "/" ++ bp ++ ".jsonl" : String) =
      "_artifacts/" ++ m2 ++ "/" ++ bp ++ ".jsonl") : m = m2 := by
  have hd := congrArg String.data h
  simp only [String.data_append, List.append_assoc] at hd
  exact String.ext (List.append_cancel_right (List.append_cancel_left hd))

/-- If a mod group has text artifacts, `flushGroup` writes the group's
JSONL file. -/
theorem flushGroup_file (bp : String) (g : String × List (ℕ × Artifact))
    (h : g.2.filter (fun ia => ia.2.content_bytes.isNone) ≠ []) :
    (flushGroup bp g).file = some ("_artifacts/" ++ g.1 ++ "/" ++ bp ++ ".jsonl",
      (g.2.filter (fun ia => ia.2.content_bytes.isNone)).enum.map (fun p =>
        { composition_idx := (p.2.2.composition_idx).getD p.1,
          name := (p.2.2.name).getD "",
          content := pyOrStr p.2.2.content p.2.2.preview : JsonlLine })) := by
  unfold flushGroup
  dsimp only
  rw [if_neg (by simpa [List.isEmpty_eq_false] using h : ¬ (g.2.filter
    (fun ia => ia.2.content_bytes.isNone)).isEmpty = true)]

theorem flushGroup_file_path (bp : String) (g : String × List (ℕ × Artifact))
    (fl : String × List JsonlLine) (h : (flushGroup bp g).file = some fl) :
    fl.1 = "_artifacts/" ++ g.1 ++ "/" ++ bp ++ ".jsonl" := by
  unfold flushGroup at h
  dsimp only at h
  split_ifs at h with he
  injection h with h2
  rw [← h2]

theorem files_fold_skip (bp P : String) :
    ∀ (gs : List (String × List (ℕ × Artifact)))
      (acc : List (String × List JsonlLine)),
      (∀ g2 ∈ gs, ("_artifacts/" ++ g2.1 ++ "/" ++ bp ++ ".jsonl" : String) ≠ P) →
      assocGet ((gs.map (flushGroup bp)).foldl (fun acc o =>
        match o.file with
        | some fl => assocSet acc fl.1 fl.2
        | none => acc) acc) P = assocGet acc P := by
  intro gs
  induction gs with
  | nil => intro acc _; rfl
  | cons g2 rest ih =>
      intro acc hne
      rw [List.map_cons, List.foldl_cons]
      cases hf : (flushGroup bp g2).file with
      | none => exact ih _ (fun g3 hg3 => hne g3 (List.mem_cons_of_mem _ hg3))
      | some fl =>
          rw [ih _ (fun g3 hg3 => hne g3 (List.mem_cons_of_mem _ hg3))]
          show assocGet (assocSet acc fl.1 fl.2) P = assocGet acc P
          apply assocGet_set_ne
          rw [flushGroup_file_path bp g2 fl hf]
          exact (hne g2 (List.mem_cons_self _ _)).symm

end Exec

namespace Exec

theorem files_fold_lookup (bp : String) :
    ∀ (gs : List (String × List (ℕ × Artifact)))
      (acc : List (String × List JsonlLine))
      (g : String × List (ℕ × Artifact)),
      g ∈ gs → (gs.map Prod.fst).Nodup →
      g.2.filter (fun ia => ia.2.content_bytes.isNone) ≠ [] →
      assocGet ((gs.map (flushGroup bp)).foldl (fun acc o =>
        match o.file with
        | some fl => assocSet acc fl.1 fl.2
        | none => acc) acc) ("_artifacts/" ++ g.1 ++ "/" ++ bp ++ ".jsonl") =
      some ((g.2.filter (fun ia => ia.2.content_bytes.isNone)).enum.map (fun p =>
        { composition_idx := (p.2.2.composition_idx).getD p.1,
          name := (p.2.2.name).getD "",
          content := pyOrStr p.2.2.content p.2.2.preview : JsonlLine })) := by
  intro gs
  induction gs with
  | nil => intro acc g hg; exact absurd hg (List.not_mem_nil g)
  | cons g2 rest ih =>
      intro acc g hg hnd htxt
      rw [List.map_cons, List.foldl_cons]
      rcases List.mem_cons.1 hg with hEq | hMem
      · subst hEq
        rw [flushGroup_file bp g htxt]
        rw [files_fold_skip bp _ rest _ (fun g3 hg3 hbad => ?_)]
        · exact assocGet_set_self _ _ _
        · have hkey : g3.1 ≠ g.1 := by
            intro hk
            rw [List.map_cons, List.nodup_cons] at hnd
            exact hnd.1 (hk ▸ List.mem_map_of_mem Prod.fst hg3)
          exact hkey (jsonl_path_inj g3.1 g.1 bp hbad)
      · rw [List.map_cons, List.nodup_cons] at hnd
        cases hf : (flushGroup bp g2).file with
        | none => exact ih _ g hMem hnd.2 htxt
        | some fl => exact ih _ g hMem hnd.2 htxt

end Exec

namespace Exec

/-- The JSONL lines written for the text artifacts of one mod group. -/
theorem flushGroup_lines_get (bp : String) (g : String × List (ℕ × Artifact))
    (i : ℕ) (p : ℕ × Artifact)
    (hp : (g.2.filter (fun ia => ia.2.content_bytes.isNone)).get? i = some p) :
    ((g.2.filter (fun ia => ia.2.content_bytes.isNone)).enum.map (fun p =>
      { composition_idx := (p.2.2.composition_idx).getD p.1,
        name := (p.2.2.name).getD "",
        content := pyOrStr p.2.2.content p.2.2.preview : JsonlLine })).get? i =
    some { composition_idx := (p.2.composition_idx).getD i,
           name := (p.2.name).getD "",
           content := pyOrStr p.2.content p.2.preview } := by
  rw [List.get?_eq_getElem?, List.getElem?_map, List.getElem?_enum,
    ← List.get?_eq_getElem?, hp]
  rfl

end Exec

namespace Exec

/-- C7 (amended): when a completed block's artifacts are flushed, the text
artifacts of each mod group are stamped with `disk_path =
_artifacts/<mod>/<block>.jsonl` and `disk_line = i` (their position within
the group), and reading line `i` of that file yields the object
`{composition_idx, name, content}` whose `content` is the *Python `or`* of
the artifact's `content` and `preview`: an absent content **and** an
empty-string content both fall through to the preview — not only the
absent one, as `content ?? preview` would. -/
theorem flush_line_content (cfg : ExecCfg) (st : EState) (bp : String)
    (hout : cfg.outputPath = true)
    (g : String × List (ℕ × Artifact))
    (hg : g ∈ groupByMod ((assocGet st.blockArtifacts bp).getD []).enum)
    (i : ℕ) (p : ℕ × Artifact)
    (hp : (g.2.filter (fun ia => ia.2.content_bytes.isNone)).get? i = some p) :
    (flushGroup bp g).stamps.get? i = some (p.1,
      { p.2 with disk_path := some ("_artifacts/" ++ g.1 ++ "/" ++ bp ++ ".jsonl"),
                 disk_line := some i }) ∧
    (assocGet (flushBlock cfg st bp).files
        ("_artifacts/" ++ g.1 ++ "/" ++ bp ++ ".jsonl")).bind
      (fun ls => ls.get? i) =
      some { composition_idx := (p.2.composition_idx).getD i,
             name := (p.2.name).getD "",
             content := pyOrStr p.2.content p.2.preview } := by
  have htxt : g.2.filter (fun ia => ia.2.content_bytes.isNone) ≠ [] := by
    intro hnil
    rw [hnil] at hp
    simp at hp
  constructor
  · unfold flushGroup
    dsimp only
    rw [List.get?_eq_getElem?, List.getElem?_map, List.getElem?_enum,
      ← List.get?_eq_getElem?, hp]
    rfl
  · have harts : ¬ ((assocGet st.blockArtifacts bp).getD []).isEmpty = true := by
      intro hbad
      have hnil : (assocGet st.blockArtifacts bp).getD [] = [] := by
        cases hl : (assocGet st.blockArtifacts bp).getD [] with
        | nil => rfl
        | cons a l => rw [hl] at hbad; simp at hbad
      rw [hnil] at hg
      simp [groupByMod] at hg
    have hfile : assocGet (flushBlock cfg st bp).files
        ("_artifacts/" ++ g.1 ++ "/" ++ bp ++ ".jsonl") =
        some ((g.2.filter (fun ia => ia.2.content_bytes.isNone)).enum.map (fun p =>
          { composition_idx := (p.2.2.composition_idx).getD p.1,
            name := (p.2.2.name).getD "",
            content := pyOrStr p.2.2.content p.2.2.preview : JsonlLine })) := by
      unfold flushBlock
      rw [hout]
      rw [if_neg (by decide)]
      dsimp only
      rw [if_neg harts]
      rw [show ∀ (x : EState), (writeManifest cfg x).files = x.files from
        fun x => (writeManifest_shape cfg x).2.1]
      exact files_fold_lookup bp _ st.files g hg (groupByMod_keys _) htxt
    rw [hfile]
    exact flushGroup_lines_get bp g i p hp

end Exec

namespace Exec

/-- A one-block table used by the concrete executor runs below. -/
def oneBlock : List Block := [{ path := "0", compositions := 1, jobs := [{}] }]

/-- A text artifact whose `content` is present but empty and whose
`preview` is `"p"`. -/
def orDemoArtifact : Artifact :=
  { name := some "a.txt", mod_id := some "m", content := some "", preview := some "p" }

/-- Hooks whose `generate` stage emits `orDemoArtifact`. -/
def orDemoHooks : String → CtxE → HookOut := fun name _ =>
  if name = "generate" then { data := { artifacts := some [orDemoArtifact] } } else {}

/-- Executor configuration for the C7 counterexample. -/
def orDemoCfg : ExecCfg :=
  { blocks := oneBlock, hooks := orDemoHooks, outputPath := true }

end Exec

unseal List.merge List.mergeSort in
/-- C7 (counterexample): an artifact with `content = some ""` and
`preview = some "p"` is flushed with `disk_path = "_artifacts/m/0.jsonl"`
and `disk_line = 0`, but line 0 of that file carries `content = "p"`
(Python `or` lets the empty string fall through), while the claim's
`A.content ?? A.preview` is `""` — so the stored line does **not** equal
the claimed value. -/
theorem flush_content_or_counterexample :
    ((Exec.assocGet (Exec.execute Exec.orDemoCfg .never Exec.initState).1.blockArtifacts
        "0").getD []).get? 0 =
      some { Exec.orDemoArtifact with
        composition_idx := some 0, block_path := some "0",
        disk_path := some "_artifacts/m/0.jsonl", disk_line := some 0 } ∧
    (Exec.assocGet (Exec.execute Exec.orDemoCfg .never Exec.initState).1.files
        "_artifacts/m/0.jsonl").bind (fun ls => ls.get? 0) =
      some { composition_idx := 0, name := "a.txt", content := "p" } ∧
    "p" ≠ (match Exec.orDemoArtifact.content with
           | some c => c
           | none => Exec.orDemoArtifact.preview.getD "") := by
  decide

/-- C7 (witness): the amended flush theorem applied to a concrete state
holding the demo artifact. -/
theorem flush_line_content_witness :
    (Exec.flushGroup "0" ("m", [(0, Exec.orDemoArtifact)])).stamps.get? 0 =
      some (0, { Exec.orDemoArtifact with
        disk_path := some ("_artifacts/" ++ "m" ++ "/" ++ "0" ++ ".jsonl"),
        disk_line := some 0 }) ∧
    (Exec.assocGet (Exec.flushBlock Exec.orDemoCfg
        { blockArtifacts := [("0", [Exec.orDemoArtifact])] } "0").files
        ("_artifacts/" ++ "m" ++ "/" ++ "0" ++ ".jsonl")).bind
      (fun ls => ls.get? 0) =
      some { composition_idx := 0, name := "a.txt",
             content := Exec.pyOrStr Exec.orDemoArtifact.content
               Exec.orDemoArtifact.preview } :=
  Exec.flush_line_content Exec.orDemoCfg
    { blockArtifacts := [("0", [Exec.orDemoArtifact])] } "0" (by decide)
    ("m", [(0, Exec.orDemoArtifact)]) (by decide) 0 (0, Exec.orDemoArtifact)
    (by decide)

namespace Exec

/-! #### C6 support: the manifest -/

theorem assocSet_ne_nil {κ α : Type} [DecidableEq κ] (l : List (κ × α))
    (k : κ) (v : α) : assocSet l k v ≠ [] := by
  unfold assocSet
  split_ifs with hf
  · intro hbad
    cases l with
    | nil => simp at hf
    | cons p rest => simp at hbad
  · simp

theorem flushBlock_manifest (cfg : ExecCfg) (st : EState) (bp : String)
    (hout : cfg.outputPath = true)
    (harts : (assocGet st.blockArtifacts bp).getD [] ≠ []) :
    ∃ bl, (flushBlock cfg st bp).manifest = some
      { blocksComplete := countComplete st.blockStates,
        blocksTotal := cfg.blocks.length,
        blocks := bl } := by
  unfold flushBlock
  rw [hout]
  rw [if_neg (by decide)]
  dsimp only
  rw [if_neg (by simpa [List.isEmpty_eq_false] using harts)]
  unfold writeManifest
  rw [if_neg ?hguard]
  case hguard =>
    rw [hout]
    simp only [Bool.not_true, Bool.or_false]
    intro hbad
    rw [List.isEmpty_iff] at hbad
    exact assocSet_ne_nil _ _ _ hbad
  dsimp only
  exact ⟨_, rfl⟩

end Exec

namespace Exec

/-- C6 (amended): when a block's **last** composition completes, the
manifest is rewritten **only if** the completed block has artifacts and
`output_path` is set — and in that case `run.blocks_complete` equals the
number of blocks whose state is `complete` at that moment (the completed
block's state already being `complete`), with `version = 3` and
`blocks_total = len(blocks)`.  A block that completes with **no**
artifacts emits `block_complete` without touching the manifest (the flush
call is gated on `block_artifacts.get(block_path)` and `_write_manifest`
returns early when `block_artifacts` is empty), so "after every
`block_complete` the manifest exists with matching `blocks_complete`" is
false. -/
theorem manifest_after_block_complete (cfg : ExecCfg) (e : QueueEntry)
    (block : Block) (st : EState) (ctx : CtxE) (dat : DataM)
    (hc : (assocGet st.blockCompleted e.blockPath).getD 0 + 1 = block.compositions) :
    ((dat.artifacts.getD [] = []) →
      (assocGet st.blockArtifacts e.blockPath = none) →
      (completionPhase cfg e block st ctx dat).manifest = st.manifest ∧
      ∃ t, (completionPhase cfg e block st ctx dat).log =
        t ++ [Ev.blockComplete e.blockPath]) ∧
    ((cfg.outputPath = true) →
      (dat.artifacts.getD [] ≠ [] ∨
        (assocGet st.blockArtifacts e.blockPath).getD [] ≠ []) →
      assocGet (completionPhase cfg e block st ctx dat).blockStates e.blockPath =
        some "complete" ∧
      ∃ m, (completionPhase cfg e block st ctx dat).manifest = some m ∧
        m.version = 3 ∧
        m.blocksComplete =
          countComplete (completionPhase cfg e block st ctx dat).blockStates ∧
        m.blocksTotal = cfg.blocks.length) := by
  have hsts : ∀ (x : EState) (b : String),
      (flushBlock cfg x b).blockStates = x.blockStates :=
    fun x b => (flushBlock_shape cfg x b).2.2.2
  constructor
  · intro hA hprev
    unfold completionPhase
    simp only [hA, hprev, List.map_nil, List.isEmpty_nil, Bool.not_true,
      Option.getD_none, Bool.false_and, Bool.false_eq_true, if_false, hc,
      eq_self_iff_true, if_true]
    exact ⟨trivial, _, rfl⟩
  · intro hout hne
    unfold completionPhase
    dsimp only
    by_cases hA : dat.artifacts.getD [] = []
    · have hold : (assocGet st.blockArtifacts e.blockPath).getD [] ≠ [] := by
        rcases hne with h | h
        · exact absurd hA h
        · exact h
      have holdE : ((assocGet st.blockArtifacts e.blockPath).getD []).isEmpty = false :=
        List.isEmpty_eq_false.2 hold
      simp only [hA, List.map_nil, List.isEmpty_nil, Bool.not_true,
        Bool.false_eq_true, if_false, hc, eq_self_iff_true, if_true, hout,
        holdE, Bool.not_false, Bool.true_and]
      obtain ⟨bl, hbl⟩ := flushBlock_manifest cfg
        { st with
          blockCompleted := assocSet st.blockCompleted e.blockPath
            block.compositions,
          completedCompositions := st.completedCompositions + 1,
          variationResults := assocSet st.variationResults
            (e.blockPath, e.compositionIdx)
            { status := "success", data := { artifacts := none, rest := dat.rest } },
          log := (st.log ++ [Ev.compositionComplete e.blockPath e.compositionIdx]) ++
            [Ev.hookExec "node_end" e.blockPath e.compositionIdx
              (cfg.hooks "node_end" ctx).status],
          blockStates := assocSet st.blockStates e.blockPath "complete" }
        e.blockPath hout hold
      split_ifs <;>
        refine ⟨?_, ?_⟩ <;>
          first
            | (simp only [hsts]; exact assocGet_set_self _ _ _)
            | (refine ⟨_, hbl, rfl, ?_, rfl⟩; simp only [hsts])
    · have hstamped : (dat.artifacts.getD []).map (fun a =>
          { a with composition_idx := some (a.composition_idx.getD e.compositionIdx),
                   block_path := some (a.block_path.getD e.blockPath) }) ≠ [] := by
        intro hbad
        exact hA (List.map_eq_nil.1 hbad)
      have hstE : ((dat.artifacts.getD []).map (fun a =>
          { a with composition_idx := some (a.composition_idx.getD e.compositionIdx),
                   block_path := some (a.block_path.getD e.blockPath) })).isEmpty
          = false := List.isEmpty_eq_false.2 hstamped
      have hnew : (assocGet (assocSet st.blockArtifacts e.blockPath
          ((assocGet st.blockArtifacts e.blockPath).getD [] ++
            (dat.artifacts.getD []).map (fun a =>
              { a with composition_idx := some (a.composition_idx.getD e.compositionIdx),
                       block_path := some (a.block_path.getD e.blockPath) })))
          e.blockPath).getD [] ≠ [] := by
        rw [assocGet_set_self]
        intro hbad
        exact hstamped (List.append_eq_nil.1 hbad).2
      have hnewE : ((assocGet (assocSet st.blockArtifacts e.blockPath
          ((assocGet st.blockArtifacts e.blockPath).getD [] ++
            (dat.artifacts.getD []).map (fun a =>
              { a with composition_idx := some (a.composition_idx.getD e.compositionIdx),
                       block_path := some (a.block_path.getD e.blockPath) })))
          e.blockPath).getD []).isEmpty = false := List.isEmpty_eq_false.2 hnew
      simp only [hstE, Bool.not_false, eq_self_iff_true, if_true, hc, hout,
        hnewE, Bool.true_and]
      obtain ⟨bl, hbl⟩ := flushBlock_manifest cfg
        { st with
          blockArtifacts := assocSet st.blockArtifacts e.blockPath
            ((assocGet st.blockArtifacts e.blockPath).getD [] ++
              (dat.artifacts.getD []).map (fun a =>
                { a with composition_idx := some (a.composition_idx.getD e.compositionIdx),
                         block_path := some (a.block_path.getD e.blockPath) })),
          log := ((st.log ++ ((dat.artifacts.getD []).map (fun a =>
              { a with composition_idx := some (a.composition_idx.getD e.compositionIdx),
                       block_path := some (a.block_path.getD e.blockPath) })).map
              (fun a => Ev.artifactEv e.blockPath e.compositionIdx a)) ++
            [Ev.compositionComplete e.blockPath e.compositionIdx]) ++
            [Ev.hookExec "node_end" e.blockPath e.compositionIdx
              (cfg.hooks "node_end" ctx).status],
          blockCompleted := assocSet st.blockCompleted e.blockPath
            block.compositions,
          completedCompositions := st.completedCompositions + 1,
          variationResults := assocSet st.variationResults
            (e.blockPath, e.compositionIdx)
            { status := "success", data := { artifacts := none, rest := dat.rest } },
          blockStates := assocSet st.blockStates e.blockPath "complete" }
        e.blockPath hout hnew
      split_ifs <;>
        refine ⟨?_, ?_⟩ <;>
          first
            | (simp only [hsts]; exact assocGet_set_self _ _ _)
            | (refine ⟨_, hbl, rfl, ?_, rfl⟩; simp only [hsts])
end Exec

namespace Exec

/-- Hooks that always return a plain success with no data. -/
def plainHooks : String → CtxE → HookOut := fun _ _ => {}

/-- A run with `output_path` set whose single block produces no artifacts. -/
def noArtifactCfg : ExecCfg :=
  { blocks := oneBlock, hooks := plainHooks, outputPath := true }

end Exec

unseal List.merge List.mergeSort in
/-- C6 (counterexample): a run with `output_path` set whose only block
completes without producing any artifact emits `block_complete` and marks
the block `complete`, yet never writes `_artifacts/manifest.json` — the
manifest is absent after a `block_complete` event, refuting the claim. -/
theorem manifest_missing_counterexample :
    (Exec.execute Exec.noArtifactCfg .never Exec.initState).1.manifest = none ∧
    Exec.Ev.blockComplete "0" ∈
      (Exec.execute Exec.noArtifactCfg .never Exec.initState).1.log ∧
    Exec.assocGet (Exec.execute Exec.noArtifactCfg .never Exec.initState).1.blockStates
      "0" = some "complete" ∧
    (Exec.execute Exec.noArtifactCfg .never Exec.initState).2 = "complete" := by
  decide

/-- C6 (witness): the amended manifest theorem applied to a concrete
completion step whose composition data carries one artifact. -/
theorem manifest_after_block_complete_witness :
    Exec.assocGet (Exec.completionPhase Exec.orDemoCfg ⟨"0", 0, none⟩
        { path := "0", compositions := 1, jobs := [{}] } Exec.initState []
        { artifacts := some [Exec.orDemoArtifact] }).blockStates "0" =
      some "complete" ∧
    ∃ m, (Exec.completionPhase Exec.orDemoCfg ⟨"0", 0, none⟩
        { path := "0", compositions := 1, jobs := [{}] } Exec.initState []
        { artifacts := some [Exec.orDemoArtifact] }).manifest = some m ∧
      m.version = 3 ∧
      m.blocksComplete = Exec.countComplete (Exec.completionPhase Exec.orDemoCfg
        ⟨"0", 0, none⟩ { path := "0", compositions := 1, jobs := [{}] }
        Exec.initState [] { artifacts := some [Exec.orDemoArtifact] }).blockStates ∧
      m.blocksTotal = Exec.orDemoCfg.blocks.length :=
  (Exec.manifest_after_block_complete Exec.orDemoCfg ⟨"0", 0, none⟩
    { path := "0", compositions := 1, jobs := [{}] } Exec.initState []
    { artifacts := some [Exec.orDemoArtifact] } (by decide)).2 (by decide)
    (Or.inl (by decide))

namespace Exec

/-! #### C4 support: stop/resume -/

theorem stagesLoop_never (cfg : ExecCfg) (stopAt : ℕ → Bool)
    (h : ∀ j, stopAt j = false) (bp : String) (idx : ℕ) :
    ∀ (stages : List (String × ℕ)) (st : EState) (ctx : CtxE) (dat : DataM),
      (∃ s, stagesLoop cfg stopAt bp idx stages st ctx dat = .failedR s) ∨
      (∃ s c d, stagesLoop cfg stopAt bp idx stages st ctx dat = .okR s c d) := by
  intro stages
  induction stages with
  | nil => intro st ctx dat; exact Or.inr ⟨st, ctx, dat, rfl⟩
  | cons sg rest ih =>
      intro st ctx dat
      rw [stagesLoop]
      dsimp only
      rw [h sg.2, if_neg Bool.false_ne_true]
      by_cases h2 : (cfg.hooks sg.1 ctx).success = true
      · rw [if_pos h2]
        exact ih { st with log := st.log ++
            [Ev.hookExec sg.1 bp idx (cfg.hooks sg.1 ctx).status] }
          (if (!List.isEmpty (cfg.hooks sg.1 ctx).modifyContext) = true then
            ctxUpdateE ctx (cfg.hooks sg.1 ctx).modifyContext else ctx)
          (if (!(cfg.hooks sg.1 ctx).data.isEmpty) = true then
            dat.update (cfg.hooks sg.1 ctx).data else dat)
      · rw [if_neg h2]
        exact Or.inl ⟨_, rfl⟩

theorem afterVisit_never (cfg : ExecCfg) (stopAt : ℕ → Bool)
    (h : ∀ j, stopAt j = false) (e : QueueEntry) (block : Block) (st : EState)
    (ctx : CtxE) : ∃ s, afterVisit cfg stopAt e block st ctx = .next s := by
  unfold afterVisit
  dsimp only
  rcases stagesLoop_never cfg stopAt h e.blockPath e.compositionIdx stageSites st
    (match assocGet st.resolveCache e.blockPath with
     | some c => Wildcards.dictUpdate ctx "resolve_data" (.dataV c.data)
     | none => ctx) {} with ⟨s, hs⟩ | ⟨s, c, d, hs⟩
  · rw [hs]
    dsimp only
    rw [h 6, if_neg Bool.false_ne_true]
    exact ⟨s, rfl⟩
  · rw [hs]
    dsimp only
    rw [h 6, if_neg Bool.false_ne_true]
    exact ⟨_, rfl⟩

theorem processEntry_never (cfg : ExecCfg) (stopAt : ℕ → Bool)
    (h : ∀ j, stopAt j = false) (e : QueueEntry) (block : Block) (st : EState) :
    ∃ s, processEntry cfg stopAt e block st = .next s := by
  unfold processEntry
  dsimp only
  by_cases h4 : e.blockPath ∈ st.visited
  · rw [if_pos h4]
    exact afterVisit_never cfg stopAt h e block st _
  · rw [if_neg h4]
    rw [h 1, h 2]
    rw [if_neg Bool.false_ne_true, if_neg Bool.false_ne_true]
    split_ifs <;>
      first
        | exact afterVisit_never cfg stopAt h e block _ _
        | exact ⟨_, rfl⟩

theorem execEntry_never (cfg : ExecCfg) (stopAt : ℕ → Bool)
    (h : ∀ j, stopAt j = false) (e : QueueEntry) (st : EState) :
    ∃ s, execEntry cfg stopAt e st = .next s := by
  unfold execEntry
  dsimp only
  split_ifs with h1 h2
  · exact ⟨st, rfl⟩
  · exact ⟨_, rfl⟩
  · split
    · exact ⟨st, rfl⟩
    · split_ifs with h3
      · exact ⟨_, rfl⟩
      · exact processEntry_never cfg stopAt h e _ st

end Exec

namespace Exec

theorem runLoop_exhaust (cfg : ExecCfg) (sched : Sched) (q : List QueueEntry) :
    ∀ (fuel : ℕ) (st : EState), q.length ≤ st.queuePos →
      runLoop cfg sched q fuel st = st := by
  intro fuel st h
  cases fuel with
  | zero => rfl
  | succ f =>
      rw [runLoop]
      rw [dif_neg (by omega)]

theorem stopRead_fromTime_zero_lt (n p : ℕ) (h : p < n) :
    stopRead (.fromTime n 0) p = stopRead .never p := by
  funext s
  show (decide (n < p) || (decide (n = p) && decide (0 ≤ s))) = false
  have h1 : ¬ n < p := by omega
  have h2 : ¬ n = p := by omega
  simp [h1, h2]

theorem runLoop_never_step (cfg : ExecCfg) (q : List QueueEntry) (f : ℕ)
    (st : EState) (h1 : st.queuePos < q.length) :
    runLoop cfg .never q (f+1) st =
      match execEntry cfg (stopRead .never st.queuePos)
          (q.get ⟨st.queuePos, h1⟩) st with
      | .stopped s => s
      | .next s => runLoop cfg .never q f { s with queuePos := st.queuePos + 1 } := by
  rw [runLoop, dif_pos h1,
    if_neg (show ¬ (stopRead Sched.never st.queuePos 0 = true) from
      Bool.false_ne_true)]

theorem runLoop_pause (cfg : ExecCfg) (q : List QueueEntry) (n : ℕ) :
    ∀ (fuel : ℕ) (st : EState), st.queuePos = n →
      runLoop cfg (.fromTime n 0) q fuel st = st := by
  intro fuel st h
  cases fuel with
  | zero => rfl
  | succ f =>
      rw [runLoop]
      split_ifs with h1 h2
      · rfl
      · exact absurd (by rw [h]; simp [stopRead]) h2
      · rfl

theorem runLoop_trunc (cfg : ExecCfg) (q : List QueueEntry) (n : ℕ)
    (hn : n < q.length) :
    ∀ (k fuel : ℕ) (st : EState), st.queuePos + k = n → k < fuel →
      runLoop cfg (.fromTime n 0) q fuel st = runLoop cfg .never q k st := by
  intro k
  induction k with
  | zero =>
      intro fuel st h hf
      rw [runLoop_pause cfg q n fuel st (by omega)]
      rfl
  | succ k ih =>
      intro fuel st h hf
      cases fuel with
      | zero => omega
      | succ f =>
          by_cases h1 : st.queuePos < q.length
          · rw [runLoop, dif_pos h1]
            rw [stopRead_fromTime_zero_lt n st.queuePos (by omega)]
            rw [if_neg (show ¬ (stopRead Sched.never st.queuePos 0 = true) from
              Bool.false_ne_true)]
            rw [runLoop_never_step cfg q k st h1]
            obtain ⟨s0, hs0⟩ := execEntry_never cfg (stopRead .never st.queuePos)
              (fun j => rfl) (q.get ⟨st.queuePos, h1⟩) st
            rw [hs0]
            exact ih f { s0 with queuePos := st.queuePos + 1 }
              (by show st.queuePos + 1 + k = n; omega) (by omega)
          · rw [runLoop_exhaust cfg _ q _ st (by omega),
              runLoop_exhaust cfg _ q _ st (by omega)]

theorem runLoop_never_append (cfg : ExecCfg) (q : List QueueEntry) :
    ∀ (f1 f2 : ℕ) (st : EState),
      runLoop cfg .never q f2 (runLoop cfg .never q f1 st) =
        runLoop cfg .never q (f1 + f2) st := by
  intro f1
  induction f1 with
  | zero => intro f2 st; rw [Nat.zero_add]; rfl
  | succ f ih =>
      intro f2 st
      by_cases h1 : st.queuePos < q.length
      · rw [runLoop_never_step cfg q f st h1]
        obtain ⟨s0, hs0⟩ := execEntry_never cfg (stopRead .never st.queuePos)
          (fun j => rfl) (q.get ⟨st.queuePos, h1⟩) st
        rw [hs0]
        rw [ih f2 { s0 with queuePos := st.queuePos + 1 }]
        rw [show f + 1 + f2 = (f + f2) + 1 from by omega]
        rw [runLoop_never_step cfg q (f + f2) st h1, hs0]
      · rw [runLoop_exhaust cfg _ q (f+1) st (by omega),
          runLoop_exhaust cfg _ q f2 st (by omega),
          runLoop_exhaust cfg _ q (f+1+f2) st (by omega)]

theorem runLoop_never_fuel (cfg : ExecCfg) (q : List QueueEntry) :
    ∀ (f f2 : ℕ) (st : EState), q.length ≤ st.queuePos + f →
      q.length ≤ st.queuePos + f2 →
      runLoop cfg .never q f st = runLoop cfg .never q f2 st := by
  intro f
  induction f with
  | zero =>
      intro f2 st h h2
      rw [runLoop_exhaust cfg _ q f2 st (by omega)]
      rfl
  | succ f ih =>
      intro f2 st h h2
      by_cases h1 : st.queuePos < q.length
      · cases f2 with
        | zero => omega
        | succ f3 =>
            rw [runLoop_never_step cfg q f st h1,
              runLoop_never_step cfg q f3 st h1]
            obtain ⟨s0, hs0⟩ := execEntry_never cfg (stopRead .never st.queuePos)
              (fun j => rfl) (q.get ⟨st.queuePos, h1⟩) st
            rw [hs0]
            exact ih f3 { s0 with queuePos := st.queuePos + 1 }
              (by show q.length ≤ st.queuePos + 1 + f; omega)
              (by show q.length ≤ st.queuePos + 1 + f3; omega)
      · rw [runLoop_exhaust cfg _ q _ st (by omega),
          runLoop_exhaust cfg _ q _ st (by omega)]

theorem runLoop_never_pos (cfg : ExecCfg) (q : List QueueEntry) :
    ∀ (k : ℕ) (st : EState), st.queuePos + k ≤ q.length →
      (runLoop cfg .never q k st).queuePos = st.queuePos + k := by
  intro k
  induction k with
  | zero => intro st h; rfl
  | succ k ih =>
      intro st h
      have h1 : st.queuePos < q.length := by omega
      rw [runLoop_never_step cfg q k st h1]
      obtain ⟨s0, hs0⟩ := execEntry_never cfg (stopRead .never st.queuePos)
        (fun j => rfl) (q.get ⟨st.queuePos, h1⟩) st
      rw [hs0]
      rw [ih { s0 with queuePos := st.queuePos + 1 }
        (by show st.queuePos + 1 + k ≤ q.length; omega)]
      show st.queuePos + 1 + k = st.queuePos + (k + 1)
      omega

end Exec

namespace Exec

theorem finalize_fst (sched : Sched) (st : EState) : (finalize sched st).1 = st := by
  unfold finalize
  split_ifs <;> rfl

/-- C4 (amended): a stop that takes effect at the **composition boundary**
(the `while`-condition read, before queue entry `n` starts) leaves the
executor `paused` with `queue_position = n` and a state identical to the
uninterrupted run's state after its first `n - queue_position₀`
iterations; `resume()` then reproduces the uninterrupted `execute()`
exactly — same final state, same final status, and the paused log is a
prefix of the uninterrupted log (the remaining entries produce identical
events).  A stop that takes effect at a mid-entry read does **not** have
this property (see the counterexample): the interrupted entry is
reprocessed from the top on resume, but the block is already in
`visited_blocks`, so `resolve` is silently skipped. -/
theorem boundary_stop_resume (cfg : ExecCfg) (st0 : EState) (n : ℕ)
    (hpos : st0.queuePos ≤ n) (hlen : n < (build_queue cfg.blocks).length) :
    (execute cfg (.fromTime n 0) st0).2 = "paused" ∧
    (execute cfg (.fromTime n 0) st0).1.queuePos = n ∧
    (execute cfg (.fromTime n 0) st0).1 =
      runLoop cfg .never (build_queue cfg.blocks) (n - st0.queuePos) st0 ∧
    resume cfg (execute cfg (.fromTime n 0) st0).1 = execute cfg .never st0 ∧
    (execute cfg (.fromTime n 0) st0).1.log <+:
      (execute cfg .never st0).1.log := by
  have htr : runLoop cfg (.fromTime n 0) (build_queue cfg.blocks)
      ((build_queue cfg.blocks).length + 1) st0 =
      runLoop cfg .never (build_queue cfg.blocks) (n - st0.queuePos) st0 :=
    runLoop_trunc cfg (build_queue cfg.blocks) n hlen (n - st0.queuePos) _ st0
      (by omega) (by omega)
  have hmid : (runLoop cfg .never (build_queue cfg.blocks) (n - st0.queuePos)
      st0).queuePos = n := by
    rw [runLoop_never_pos cfg (build_queue cfg.blocks) (n - st0.queuePos) st0
      (by omega)]
    omega
  have hstop1 : execute cfg (.fromTime n 0) st0 =
      (runLoop cfg .never (build_queue cfg.blocks) (n - st0.queuePos) st0,
        "paused") := by
    unfold execute
    dsimp only
    rw [htr]
    unfold finalize
    rw [if_pos (show stopRead (Sched.fromTime n 0)
        (runLoop cfg Sched.never (build_queue cfg.blocks) (n - st0.queuePos)
          st0).queuePos 7 = true by rw [hmid]; simp [stopRead])]
  have hres : runLoop cfg .never (build_queue cfg.blocks)
      ((build_queue cfg.blocks).length + 1)
      (runLoop cfg .never (build_queue cfg.blocks) (n - st0.queuePos) st0) =
      runLoop cfg .never (build_queue cfg.blocks)
        ((build_queue cfg.blocks).length + 1) st0 := by
    rw [runLoop_never_append]
    exact runLoop_never_fuel cfg (build_queue cfg.blocks) _ _ st0 (by omega)
      (by omega)
  have hexec1 : (execute cfg .never st0).1 =
      runLoop cfg .never (build_queue cfg.blocks)
        ((build_queue cfg.blocks).length + 1) st0 := by
    unfold execute
    dsimp only
    rw [finalize_fst]
  refine ⟨by rw [hstop1], by rw [hstop1]; exact hmid, by rw [hstop1], ?_, ?_⟩
  · rw [hstop1]
    unfold resume execute
    dsimp only
    rw [hres]
  · rw [hstop1]
    have hpre := (runLoop_basic cfg .never (build_queue cfg.blocks)
      ((build_queue cfg.blocks).length + 1)
      (runLoop cfg .never (build_queue cfg.blocks) (n - st0.queuePos) st0)).2.2
    rw [hres] at hpre
    rw [hexec1]
    exact hpre

end Exec

namespace Exec

/-- Hooks whose `generate` stage fails iff the context lacks
`resolve_data` — i.e. iff the block-level `resolve` hook was skipped. -/
def resolveDemoHooks : String → CtxE → HookOut := fun name ctx =>
  if name = "generate" ∧ (assocGet ctx "resolve_data").isNone then
    { status := "error", message := some "no resolve data" }
  else {}

/-- Executor configuration for the C4 counterexample. -/
def resolveDemoCfg : ExecCfg :=
  { blocks := oneBlock, hooks := resolveDemoHooks, outputPath := false }

end Exec

unseal List.merge List.mergeSort in
/-- C4 (counterexample): a stop that takes effect right after `node_start`
of a fresh block leaves the block in `visited_blocks` with `resolve` never
run; `resume()` reprocesses the entry but skips the whole first-visit
branch, so `resolve` is silently lost — here `generate` then fails, and
the resumed run ends `"failed"` while the uninterrupted run ends
`"complete"`: the stop/resume pair is *not* equivalent to the
uninterrupted execution for every stop point. -/
theorem midentry_stop_resume_counterexample :
    (Exec.execute Exec.resolveDemoCfg (.fromTime 0 1) Exec.initState).2 = "paused" ∧
    (Exec.execute Exec.resolveDemoCfg (.fromTime 0 1) Exec.initState).1.queuePos = 0 ∧
    (Exec.execute Exec.resolveDemoCfg .never Exec.initState).2 = "complete" ∧
    (Exec.resume Exec.resolveDemoCfg
      (Exec.execute Exec.resolveDemoCfg (.fromTime 0 1) Exec.initState).1).2 =
      "failed" ∧
    Exec.resume Exec.resolveDemoCfg
        (Exec.execute Exec.resolveDemoCfg (.fromTime 0 1) Exec.initState).1 ≠
      Exec.execute Exec.resolveDemoCfg .never Exec.initState ∧
    Exec.Ev.hookExec "resolve" "0" 0 "success" ∉
      (Exec.resume Exec.resolveDemoCfg
        (Exec.execute Exec.resolveDemoCfg (.fromTime 0 1) Exec.initState).1).1.log := by
  decide

unseal List.merge List.mergeSort in
/-- C4 (witness): the boundary-stop theorem applied to a concrete one-block
run stopped before entry 0. -/
theorem boundary_stop_resume_witness :
    (Exec.execute Exec.resolveDemoCfg (.fromTime 0 0) Exec.initState).2 = "paused" ∧
    (Exec.execute Exec.resolveDemoCfg (.fromTime 0 0) Exec.initState).1.queuePos = 0 ∧
    (Exec.execute Exec.resolveDemoCfg (.fromTime 0 0) Exec.initState).1 =
      Exec.runLoop Exec.resolveDemoCfg .never
        (Exec.build_queue Exec.resolveDemoCfg.blocks)
        (0 - Exec.initState.queuePos) Exec.initState ∧
    Exec.resume Exec.resolveDemoCfg
        (Exec.execute Exec.resolveDemoCfg (.fromTime 0 0) Exec.initState).1 =
      Exec.execute Exec.resolveDemoCfg .never Exec.initState ∧
    (Exec.execute Exec.resolveDemoCfg (.fromTime 0 0) Exec.initState).1.log <+:
      (Exec.execute Exec.resolveDemoCfg .never Exec.initState).1.log :=
  Exec.boundary_stop_resume Exec.resolveDemoCfg Exec.initState 0 (by decide)
    (by decide)

namespace Exec

/-! #### C3 support: the failure cascade -/

/-- `b` is a direct cascade target of `p`: a child (`parent_path == p`) or
a dependent (`p ∈ b.depends_on`). -/
def EdgeTo (p : String) (b : Block) : Prop :=
  b.parentPath = some p ∨ p ∈ b.dependsOn

/-- Every direct cascade target of `p` is already failed or blocked. -/
def ClosedAt (cfg : ExecCfg) (st : EState) (p : String) : Prop :=
  ∀ b ∈ cfg.blocks, EdgeTo p b → (b.path ∈ st.failed ∨ b.path ∈ st.blocked)

/-- The cascade invariant: every failed or blocked path is closed. -/
def CascadeInv (cfg : ExecCfg) (st : EState) : Prop :=
  ∀ p, (p ∈ st.failed ∨ p ∈ st.blocked) → ClosedAt cfg st p

/-- Reachability along parent→child and depends_on edges. -/
inductive Reaches (cfg : ExecCfg) : String → String → Prop
  | step (p : String) (b : Block) : b ∈ cfg.blocks → EdgeTo p b →
      Reaches cfg p b.path
  | trans {p x r : String} : Reaches cfg p x → Reaches cfg x r → Reaches cfg p r

/-- A queue entry is consistent with the block table: its `parent_key`
names the actual parent of its block. -/
def ConsistentEntry (blocks : List Block) (e : QueueEntry) : Prop :=
  ∀ pk, e.parentKey = some pk →
    ∃ b ∈ blocks, b.path = e.blockPath ∧ b.parentPath = some pk.1

/-- Number of table blocks not yet blocked (the cascade's termination
measure). -/
def notBlockedCount (cfg : ExecCfg) (st : EState) : ℕ :=
  (cfg.blocks.filter (fun b => b.path ∉ st.blocked)).length

theorem mem_cascadeTargets (cfg : ExecCfg) (p : String) (b : Block) :
    b ∈ cascadeTargets cfg p ↔ b ∈ cfg.blocks ∧ EdgeTo p b := by
  unfold cascadeTargets EdgeTo
  rw [List.mem_append, List.mem_filter, List.mem_filter]
  constructor
  · rintro (⟨h1, h2⟩ | ⟨h1, h2⟩)
    · exact ⟨h1, Or.inl (by simpa using h2)⟩
    · exact ⟨h1, Or.inr (by simpa using h2)⟩
  · rintro ⟨h1, h2 | h2⟩
    · exact Or.inl ⟨h1, by simpa using h2⟩
    · exact Or.inr ⟨h1, by simpa using h2⟩

theorem ClosedAt_mono (cfg : ExecCfg) (st st2 : EState) (p : String)
    (hf : st.failed ⊆ st2.failed) (hb : st.blocked ⊆ st2.blocked)
    (h : ClosedAt cfg st p) : ClosedAt cfg st2 p := by
  intro b hbm he
  rcases h b hbm he with hh | hh
  · exact Or.inl (hf hh)
  · exact Or.inr (hb hh)

theorem filter_length_mono {α : Type} (p q : α → Bool)
    (h : ∀ x, q x = true → p x = true) :
    ∀ (l : List α), (l.filter q).length ≤ (l.filter p).length := by
  intro l
  induction l with
  | nil => exact Nat.le_refl 0
  | cons a rest ih =>
      by_cases hqa : q a = true
      · rw [List.filter_cons_of_pos hqa, List.filter_cons_of_pos (h a hqa)]
        simpa using ih
      · rw [List.filter_cons_of_neg (by simpa using hqa)]
        by_cases hpa : p a = true
        · rw [List.filter_cons_of_pos hpa]
          exact Nat.le_succ_of_le ih
        · rw [List.filter_cons_of_neg (by simpa using hpa)]
          exact ih

theorem filter_length_lt {α : Type} (p q : α → Bool)
    (h : ∀ x, q x = true → p x = true) (b : α) (hpb : p b = true)
    (hqb : q b = false) :
    ∀ (l : List α), b ∈ l → (l.filter q).length < (l.filter p).length := by
  intro l
  induction l with
  | nil => intro hb; exact absurd hb (List.not_mem_nil b)
  | cons a rest ih =>
      intro hb
      by_cases hqa : q a = true
      · have hba : b ≠ a := fun hh => by rw [hh] at hqb; rw [hqb] at hqa; simp at hqa
        have hbr : b ∈ rest := by
          rcases List.mem_cons.1 hb with hh | hh
          · exact absurd hh hba
          · exact hh
        rw [List.filter_cons_of_pos hqa, List.filter_cons_of_pos (h a hqa)]
        simpa using ih hbr
      · rw [List.filter_cons_of_neg (by simpa using hqa)]
        by_cases hpa : p a = true
        · rw [List.filter_cons_of_pos hpa]
          exact Nat.lt_succ_of_le (filter_length_mono p q h rest)
        · have hba : b ≠ a := fun hh => by rw [hh] at hpb; rw [hpb] at hpa; simp at hpa
          have hbr : b ∈ rest := by
            rcases List.mem_cons.1 hb with hh | hh
            · exact absurd hh hba
            · exact hh
          rw [List.filter_cons_of_neg (by simpa using hpa)]
          exact ih hbr

theorem notBlockedCount_mono (cfg : ExecCfg) (st st2 : EState)
    (h : st.blocked ⊆ st2.blocked) :
    notBlockedCount cfg st2 ≤ notBlockedCount cfg st := by
  unfold notBlockedCount
  refine filter_length_mono _ _ ?_ cfg.blocks
  intro b hb
  simp only [decide_eq_true_eq] at hb ⊢
  exact fun hmem => hb (h hmem)

theorem notBlockedCount_lt (cfg : ExecCfg) (st : EState) (b : Block)
    (hb : b ∈ cfg.blocks) (hnb : b.path ∉ st.blocked) (l2 : List String)
    (hsub : st.blocked ⊆ l2) (hmem : b.path ∈ l2) :
    (cfg.blocks.filter (fun x => x.path ∉ l2)).length < notBlockedCount cfg st := by
  unfold notBlockedCount
  refine filter_length_lt _ _ ?_ b ?_ ?_ cfg.blocks hb
  · intro x hx
    simp only [decide_eq_true_eq] at hx ⊢
    exact fun hmem2 => hx (hsub hmem2)
  · simpa using hnb
  · simpa using hmem

end Exec

namespace Exec

theorem cascadeFold_basic (cfg : ExecCfg) (f : ℕ) :
    ∀ (T : List Block) (x : EState),
      (T.foldl (cascadeStep cfg (fun p2 s2 => cascadeGo cfg f p2 s2)) x).failed =
        x.failed ∧
      x.blocked ⊆
        (T.foldl (cascadeStep cfg (fun p2 s2 => cascadeGo cfg f p2 s2)) x).blocked := by
  intro T x
  refine foldl_preserve
    (fun z : EState => z.failed = x.failed ∧ x.blocked ⊆ z.blocked) _ ?_ T x
    ⟨rfl, fun a ha => ha⟩
  intro z b hz
  unfold cascadeStep
  split_ifs with hb
  · exact hz
  · obtain ⟨g1, g2, _⟩ := cascadeGo_basic cfg f b.path
      { z with blocked := z.blocked ++ [b.path],
               blockStates := assocSet z.blockStates b.path "blocked",
               log := z.log ++ [.blockBlocked b.path] }
    exact ⟨g1.trans hz.1, fun a ha => g2 (List.mem_append_left _ (hz.2 ha))⟩

theorem cascadeFold_spec (cfg : ExecCfg) (f : ℕ) (p : String) (S : List String)
    (st : EState)
    (ihf : ∀ (p2 : String) (st2 : EState) (S2 : List String),
      notBlockedCount cfg st2 < f →
      (∀ y, (y ∈ st2.failed ∨ y ∈ st2.blocked) → y ∉ p2 :: S2 →
        ClosedAt cfg st2 y) →
      (∀ b ∈ cascadeTargets cfg p2, b.path ∈ (cascadeGo cfg f p2 st2).blocked) ∧
      (∀ y, (y ∈ (cascadeGo cfg f p2 st2).failed ∨
          y ∈ (cascadeGo cfg f p2 st2).blocked) → y ∉ p2 :: S2 →
        ClosedAt cfg (cascadeGo cfg f p2 st2) y) ∧
      notBlockedCount cfg (cascadeGo cfg f p2 st2) ≤ notBlockedCount cfg st2) :
    ∀ (T : List Block), (∀ b ∈ T, b ∈ cfg.blocks) →
      ∀ (x : EState), x.failed = st.failed → st.blocked ⊆ x.blocked →
        notBlockedCount cfg x ≤ notBlockedCount cfg st →
        notBlockedCount cfg st ≤ f →
        (∀ y, (y ∈ x.failed ∨ y ∈ x.blocked) → y ∉ p :: S →
          ClosedAt cfg x y) →
        (∀ b ∈ T, b.path ∈
          (T.foldl (cascadeStep cfg (fun p2 s2 => cascadeGo cfg f p2 s2)) x).blocked) ∧
        (T.foldl (cascadeStep cfg (fun p2 s2 => cascadeGo cfg f p2 s2)) x).failed =
          st.failed ∧
        st.blocked ⊆
          (T.foldl (cascadeStep cfg (fun p2 s2 => cascadeGo cfg f p2 s2)) x).blocked ∧
        (∀ y, (y ∈ (T.foldl (cascadeStep cfg
              (fun p2 s2 => cascadeGo cfg f p2 s2)) x).failed ∨
            y ∈ (T.foldl (cascadeStep cfg
              (fun p2 s2 => cascadeGo cfg f p2 s2)) x).blocked) → y ∉ p :: S →
          ClosedAt cfg (T.foldl (cascadeStep cfg
            (fun p2 s2 => cascadeGo cfg f p2 s2)) x) y) ∧
        notBlockedCount cfg (T.foldl (cascadeStep cfg
          (fun p2 s2 => cascadeGo cfg f p2 s2)) x) ≤ notBlockedCount cfg st := by
  intro T
  induction T with
  | nil =>
      intro _ x h1 h2 h3 h4 h5
      exact ⟨fun b hb => absurd hb (List.not_mem_nil b), h1, h2,
        fun y hy => h5 y (h1 ▸ hy), h3⟩
  | cons b T2 ihT =>
      intro hsub x h1 h2 h3 h4 h5
      rw [List.foldl_cons]
      by_cases hb : b.path ∈ x.blocked
      · rw [show cascadeStep cfg (fun p2 s2 => cascadeGo cfg f p2 s2) x b = x from
          by unfold cascadeStep; rw [if_pos hb]]
        obtain ⟨c1, c2, c3, c4, c5⟩ := ihT
          (fun b2 hb2 => hsub b2 (List.mem_cons_of_mem _ hb2)) x h1 h2 h3 h4 h5
        refine ⟨?_, c2, c3, c4, c5⟩
        intro b2 hb2
        rcases List.mem_cons.1 hb2 with hE | hM
        · subst hE
          exact (cascadeFold_basic cfg f T2 x).2 hb
        · exact c1 b2 hM
      · rw [show cascadeStep cfg (fun p2 s2 => cascadeGo cfg f p2 s2) x b =
          cascadeGo cfg f b.path
            { x with blocked := x.blocked ++ [b.path],
                     blockStates := assocSet x.blockStates b.path "blocked",
                     log := x.log ++ [.blockBlocked b.path] } from
          by unfold cascadeStep; rw [if_neg hb]]
        have hbB : b ∈ cfg.blocks := hsub b (List.mem_cons_self _ _)
        have hcx2 : notBlockedCount cfg
            { x with blocked := x.blocked ++ [b.path],
                     blockStates := assocSet x.blockStates b.path "blocked",
                     log := x.log ++ [.blockBlocked b.path] } <
            notBlockedCount cfg x :=
          notBlockedCount_lt cfg x b hbB hb (x.blocked ++ [b.path])
            (fun a ha => List.mem_append_left _ ha)
            (List.mem_append_right _ (List.mem_singleton_self _))
        obtain ⟨r1, r2, r3⟩ := ihf b.path
          { x with blocked := x.blocked ++ [b.path],
                   blockStates := assocSet x.blockStates b.path "blocked",
                   log := x.log ++ [.blockBlocked b.path] }
          (p :: S) (by omega)
          (by
            intro y hy hyS
            have hyS2 : y ∉ p :: S := fun hh => hyS (List.mem_cons_of_mem _ hh)
            have hyB : y ≠ b.path := fun hh => hyS (hh ▸ List.mem_cons_self _ _)
            refine ClosedAt_mono cfg x _ y (fun a ha => ha)
              (fun a ha => List.mem_append_left _ ha) (h5 y ?_ hyS2)
            rcases hy with hy | hy
            · exact Or.inl hy
            · rcases List.mem_append.1 hy with hy2 | hy2
              · exact Or.inr hy2
              · exact absurd (List.mem_singleton.1 hy2) hyB)
        obtain ⟨g1, g2, _⟩ := cascadeGo_basic cfg f b.path
          { x with blocked := x.blocked ++ [b.path],
                   blockStates := assocSet x.blockStates b.path "blocked",
                   log := x.log ++ [.blockBlocked b.path] }
        obtain ⟨c1, c2, c3, c4, c5⟩ := ihT
          (fun b2 hb2 => hsub b2 (List.mem_cons_of_mem _ hb2))
          (cascadeGo cfg f b.path
            { x with blocked := x.blocked ++ [b.path],
                     blockStates := assocSet x.blockStates b.path "blocked",
                     log := x.log ++ [.blockBlocked b.path] })
          (g1.trans h1)
          (fun a ha => g2 (List.mem_append_left _ (h2 ha)))
          (by
            have := notBlockedCount_mono cfg
              { x with blocked := x.blocked ++ [b.path],
                       blockStates := assocSet x.blockStates b.path "blocked",
                       log := x.log ++ [.blockBlocked b.path] }
              (cascadeGo cfg f b.path
                { x with blocked := x.blocked ++ [b.path],
                         blockStates := assocSet x.blockStates b.path "blocked",
                         log := x.log ++ [.blockBlocked b.path] }) g2
            omega)
          h4
          (by
            intro y hy hyS
            by_cases hyb : y = b.path
            · subst hyb
              intro blk hblk hedge
              exact Or.inr (r1 blk ((mem_cascadeTargets cfg b.path blk).2 ⟨hblk, hedge⟩))
            · exact r2 y hy (by
                intro hh
                rcases List.mem_cons.1 hh with hh2 | hh2
                · exact hyb hh2
                · exact hyS hh2))
        refine ⟨?_, c2, c3, c4, c5⟩
        intro b2 hb2
        rcases List.mem_cons.1 hb2 with hE | hM
        · subst hE
          refine (cascadeFold_basic cfg f T2 _).2 ?_
          exact g2 (List.mem_append_right _ (List.mem_singleton_self _))
        · exact c1 b2 hM

theorem cascadeGo_spec (cfg : ExecCfg) :
    ∀ (fuel : ℕ) (p : String) (st : EState) (S : List String),
      notBlockedCount cfg st < fuel →
      (∀ y, (y ∈ st.failed ∨ y ∈ st.blocked) → y ∉ p :: S →
        ClosedAt cfg st y) →
      (∀ b ∈ cascadeTargets cfg p, b.path ∈ (cascadeGo cfg fuel p st).blocked) ∧
      (∀ y, (y ∈ (cascadeGo cfg fuel p st).failed ∨
          y ∈ (cascadeGo cfg fuel p st).blocked) → y ∉ p :: S →
        ClosedAt cfg (cascadeGo cfg fuel p st) y) ∧
      notBlockedCount cfg (cascadeGo cfg fuel p st) ≤ notBlockedCount cfg st := by
  intro fuel
  induction fuel using Nat.strong_induction_on with
  | _ fuel ihf =>
      intro p st S hc hex
      cases fuel with
      | zero => omega
      | succ f =>
          rw [cascadeGo]
          obtain ⟨c1, c2, c3, c4, c5⟩ := cascadeFold_spec cfg f p S st
            (fun p2 st2 S2 => ihf f (Nat.lt_succ_self f) p2 st2 S2)
            (cascadeTargets cfg p)
            (fun b hb => ((mem_cascadeTargets cfg p b).1 hb).1)
            st rfl (fun a ha => ha) (Nat.le_refl _) (by omega) hex
          exact ⟨c1, c4, c5⟩

end Exec

namespace Exec

theorem CascadeInv_congr (cfg : ExecCfg) (st st2 : EState)
    (hf : st2.failed = st.failed) (hb : st2.blocked = st.blocked)
    (h : CascadeInv cfg st) : CascadeInv cfg st2 := by
  intro p hp b hbm he
  rw [hf, hb] at hp
  rcases h p hp b hbm he with hh | hh
  · exact Or.inl (hf ▸ hh)
  · exact Or.inr (hb ▸ hh)

theorem handle_failure_inv (cfg : ExecCfg) (st : EState) (bp : String)
    (idx : ℕ) (r : HookOut) (hinv : CascadeInv cfg st) :
    bp ∈ (handle_failure cfg st bp idx r).failed ∧
    CascadeInv cfg (handle_failure cfg st bp idx r) := by
  unfold handle_failure
  dsimp only
  obtain ⟨c1, c2, _⟩ := cascadeGo_spec cfg (cfg.blocks.length + 1) bp
    { st with failed := st.failed ++ [bp],
              blockStates := assocSet st.blockStates bp "failed",
              variationResults := assocSet st.variationResults (bp, idx) r,
              log := st.log ++ [.blockFailed bp
                (match r.message with
                 | some m => some m
                 | none => r.error.map (fun e => e.2))] } []
    (Nat.lt_succ_of_le (List.length_filter_le _ _))
    (by
      intro y hy hyS
      have hyb : y ≠ bp := fun hh => hyS (hh ▸ List.mem_cons_self _ _)
      refine ClosedAt_mono cfg st _ y (fun a ha => List.mem_append_left _ ha)
        (fun a ha => ha) (hinv y ?_)
      rcases hy with hy | hy
      · rcases List.mem_append.1 hy with hy2 | hy2
        · exact Or.inl hy2
        · exact absurd (List.mem_singleton.1 hy2) hyb
      · exact Or.inr hy)
  obtain ⟨g1, g2, _⟩ := cascadeGo_basic cfg (cfg.blocks.length + 1) bp
    { st with failed := st.failed ++ [bp],
              blockStates := assocSet st.blockStates bp "failed",
              variationResults := assocSet st.variationResults (bp, idx) r,
              log := st.log ++ [.blockFailed bp
                (match r.message with
                 | some m => some m
                 | none => r.error.map (fun e => e.2))] }
  constructor
  · rw [g1]
    exact List.mem_append_right _ (List.mem_singleton_self _)
  · intro y hy
    by_cases hyb : y = bp
    · subst hyb
      intro blk hblk hedge
      exact Or.inr (c1 blk ((mem_cascadeTargets cfg y blk).2 ⟨hblk, hedge⟩))
    · exact c2 y hy (by
        intro hh
        rcases List.mem_cons.1 hh with hh2 | hh2
        · exact hyb hh2
        · exact absurd hh2 (List.not_mem_nil y))

theorem reaches_covered (cfg : ExecCfg) (st : EState) (hinv : CascadeInv cfg st)
    (p q : String) (hr : Reaches cfg p q)
    (hp : p ∈ st.failed ∨ p ∈ st.blocked) :
    q ∈ st.failed ∨ q ∈ st.blocked := by
  induction hr with
  | step p2 b hbm he => exact hinv p2 hp b hbm he
  | trans h1 h2 ih1 ih2 => exact ih2 (ih1 hp)

end Exec

namespace Exec

theorem stagesLoop_inv (cfg : ExecCfg) (stopAt : ℕ → Bool) (bp : String)
    (idx : ℕ) : ∀ (stages : List (String × ℕ)) (st : EState) (ctx : CtxE)
      (dat : DataM), CascadeInv cfg st →
      CascadeInv cfg (stagesLoop cfg stopAt bp idx stages st ctx dat).state := by
  intro stages
  induction stages with
  | nil => intro st ctx dat hinv; exact hinv
  | cons sg rest ih =>
      intro st ctx dat hinv
      rw [stagesLoop]
      dsimp only
      by_cases h1 : stopAt sg.2 = true
      · rw [if_pos h1]; exact hinv
      · rw [if_neg h1]
        by_cases h2 : (cfg.hooks sg.1 ctx).success = true
        · rw [if_pos h2]
          exact ih { st with log := st.log ++
              [Ev.hookExec sg.1 bp idx (cfg.hooks sg.1 ctx).status] }
            (if (!List.isEmpty (cfg.hooks sg.1 ctx).modifyContext) = true then
              ctxUpdateE ctx (cfg.hooks sg.1 ctx).modifyContext else ctx)
            (if (!(cfg.hooks sg.1 ctx).data.isEmpty) = true then
              dat.update (cfg.hooks sg.1 ctx).data else dat) hinv
        · rw [if_neg h2]
          exact (handle_failure_inv cfg
            { st with log := st.log ++
                [Ev.hookExec sg.1 bp idx (cfg.hooks sg.1 ctx).status] }
            bp idx (cfg.hooks sg.1 ctx) hinv).2

theorem afterVisit_inv (cfg : ExecCfg) (stopAt : ℕ → Bool) (e : QueueEntry)
    (block : Block) (st : EState) (ctx : CtxE) (hinv : CascadeInv cfg st) :
    CascadeInv cfg (afterVisit cfg stopAt e block st ctx).state := by
  unfold afterVisit
  dsimp only
  have g := stagesLoop_inv cfg stopAt e.blockPath e.compositionIdx stageSites st
    (match assocGet st.resolveCache e.blockPath with
     | some c => Wildcards.dictUpdate ctx "resolve_data" (.dataV c.data)
     | none => ctx) {} hinv
  split
  · next s heq => rw [heq] at g; exact g
  · next s heq => rw [heq] at g; split_ifs <;> exact g
  · next s c d heq =>
      rw [heq] at g
      split_ifs with h6
      · exact g
      · exact CascadeInv_congr cfg s _ (completionPhase_shape cfg e block s c d).1
          (completionPhase_shape cfg e block s c d).2.1 g

theorem processEntry_inv (cfg : ExecCfg) (stopAt : ℕ → Bool) (e : QueueEntry)
    (block : Block) (st : EState) (hinv : CascadeInv cfg st) :
    CascadeInv cfg (processEntry cfg stopAt e block st).state := by
  unfold processEntry
  dsimp only
  by_cases h1 : e.blockPath ∈ st.visited
  · rw [if_pos h1]
    exact afterVisit_inv cfg stopAt e block _ _ hinv
  · rw [if_neg h1]
    by_cases h2 : stopAt 1 = true
    · rw [if_pos h2]; exact hinv
    · rw [if_neg h2]
      by_cases h3 : stopAt 2 = true
      · rw [if_pos h3]; exact hinv
      · rw [if_neg h3]
        split_ifs with hmc h4 h4b
        · exact afterVisit_inv cfg stopAt e block _ _ hinv
        · refine (handle_failure_inv cfg _ _ _ _ ?_).2
          exact hinv
        · exact afterVisit_inv cfg stopAt e block _ _ hinv
        · refine (handle_failure_inv cfg _ _ _ _ ?_).2
          exact hinv

theorem execEntry_skip (cfg : ExecCfg) (stopAt : ℕ → Bool) (e : QueueEntry)
    (st : EState) (h : e.blockPath ∈ st.failed ∨ e.blockPath ∈ st.blocked) :
    execEntry cfg stopAt e st = .next st := by
  unfold execEntry
  dsimp only
  rw [if_pos h]

theorem execEntry_inv (cfg : ExecCfg) (stopAt : ℕ → Bool) (e : QueueEntry)
    (st : EState) (hinv : CascadeInv cfg st)
    (hcons : ConsistentEntry cfg.blocks e) :
    CascadeInv cfg (execEntry cfg stopAt e st).state := by
  unfold execEntry
  dsimp only
  by_cases h1 : e.blockPath ∈ st.failed ∨ e.blockPath ∈ st.blocked
  · rw [if_pos h1]; exact hinv
  · rw [if_neg h1]
    have hpf : (match e.parentKey with
        | some pk => decide (pk.1 ∈ st.failed)
        | none => false) = false := by
      cases hpk : e.parentKey with
      | none => rfl
      | some pk =>
          simp only [decide_eq_false_iff_not]
          intro hmem
          obtain ⟨b, hbm, hbp, hbparent⟩ := hcons pk hpk
          exact h1 (hbp ▸ hinv pk.1 (Or.inl hmem) b hbm (Or.inl hbparent))
    rw [hpf, if_neg Bool.false_ne_true]
    cases hfb : findBlock cfg.blocks e.blockPath with
    | none => exact hinv
    | some block =>
        dsimp only
        have hdep : ¬(block.dependsOn ≠ [] ∧ e.blockPath ∉ st.visited ∧
            block.dependsOn.filter (fun d => d ∈ st.failed) ≠ []) := by
          rintro ⟨-, -, hflt⟩
          obtain ⟨d, hd⟩ := List.exists_mem_of_ne_nil _ hflt
          have hd2 := List.mem_filter.1 hd
          have hdf : d ∈ st.failed := by simpa using hd2.2
          have hbm : block ∈ cfg.blocks := List.mem_of_find?_eq_some hfb
          have hbp : block.path = e.blockPath := by
            have := List.find?_some hfb
            simpa using this
          exact h1 (hbp ▸ hinv d (Or.inl hdf) block hbm (Or.inr hd2.1))
        by_cases hdt : block.dependsOn ≠ [] ∧ e.blockPath ∉ st.visited ∧
            block.dependsOn.filter (fun d => d ∈ st.failed) ≠ []
        · exact absurd hdt hdep
        · rw [if_neg hdt]
          exact processEntry_inv cfg stopAt e block st hinv

theorem runLoop_inv (cfg : ExecCfg) (sched : Sched) (q : List QueueEntry)
    (hq : ∀ e ∈ q, ConsistentEntry cfg.blocks e) :
    ∀ (fuel : ℕ) (st : EState), CascadeInv cfg st →
      CascadeInv cfg (runLoop cfg sched q fuel st) := by
  intro fuel
  induction fuel with
  | zero => intro st h; exact h
  | succ fuel ih =>
      intro st hinv
      rw [runLoop]
      split_ifs with h1 h2
      · exact hinv
      · have g := execEntry_inv cfg (stopRead sched st.queuePos)
          (q.get ⟨st.queuePos, h1⟩) st hinv
          (hq _ (List.get_mem q st.queuePos h1))
        split
        · next s heq => rw [heq] at g; exact g
        · next s heq =>
            rw [heq] at g
            exact ih { s with queuePos := st.queuePos + 1 } g
      · exact hinv

theorem mem_childrenOf (blocks : List Block) (p : String) (b : Block)
    (h : b ∈ childrenOf blocks p) : b ∈ blocks ∧ b.parentPath = some p := by
  unfold childrenOf at h
  rw [(List.mergeSort_perm _ _).mem_iff, List.mem_filter] at h
  exact ⟨h.1, by simpa using h.2⟩

theorem enqueueSubtree_consistent (blocks : List Block) :
    ∀ (fuel : ℕ) (path : String) (idx : ℕ) (pk : Option (String × ℕ)),
      (∀ q, pk = some q →
        ∃ b ∈ blocks, b.path = path ∧ b.parentPath = some q.1) →
      ∀ e ∈ enqueueSubtree blocks fuel path idx pk,
        ConsistentEntry blocks e := by
  intro fuel
  induction fuel with
  | zero => intro path idx pk hpk e he; exact absurd he (List.not_mem_nil e)
  | succ fuel ih =>
      intro path idx pk hpk e he
      rw [enqueueSubtree] at he
      rcases List.mem_cons.1 he with he | he
      · subst he
        intro q hq
        exact hpk q hq
      · rw [List.mem_flatMap] at he
        obtain ⟨child, hchild, he2⟩ := he
        dsimp only at he2
        rw [List.mem_flatMap] at he2
        obtain ⟨c, _, he3⟩ := he2
        split_ifs at he3 <;>
          first
            | exact absurd he3 (List.not_mem_nil e)
            | (refine ih child.path _ (some (path, idx)) ?_ e he3
               intro q hq
               injection hq with hq2
               obtain ⟨hcb, hcp⟩ := mem_childrenOf blocks path child hchild
               exact ⟨child, hcb, rfl, by rw [hcp, ← hq2]⟩)

theorem build_queue_consistent (blocks : List Block) :
    ∀ e ∈ build_queue blocks, ConsistentEntry blocks e := by
  intro e he
  unfold build_queue at he
  dsimp only at he
  rw [List.mem_flatMap] at he
  obtain ⟨root, _, he2⟩ := he
  rw [List.mem_flatMap] at he2
  obtain ⟨i, _, he3⟩ := he2
  exact enqueueSubtree_consistent blocks (blocks.length + 1) root.path i none
    (fun q hq => absurd hq (by simp)) e he3

end Exec

namespace Exec

/-- Hooks whose `node_start` stage reports an error; every other stage
succeeds. -/
def nodeStartErrHooks : String → CtxE → HookOut := fun name _ =>
  if name = "node_start" then { status := "error", message := some "boom" }
  else {}

/-- Executor configuration for the C3 counterexample. -/
def nodeStartErrCfg : ExecCfg :=
  { blocks := oneBlock, hooks := nodeStartErrHooks, outputPath := false }

/-- A parent block `0` with one child `0.0`, used to exercise the failure
cascade at concrete inputs. -/
def cascadeDemoBlocks : List Block :=
  [{ path := "0", compositions := 1, jobs := [{}] },
   { path := "0.0", parentPath := some "0", compositions := 1, jobs := [{}] }]

/-- Executor configuration over `cascadeDemoBlocks`. -/
def cascadeDemoCfg : ExecCfg :=
  { blocks := cascadeDemoBlocks, hooks := plainHooks, outputPath := false }

/-- C3: the failure cascade, for the hook stages whose results are
actually checked (`resolve`, `pre`, `generate`, `post`).  (i) A queue
entry whose block is already failed or blocked is skipped with the state
unchanged, so no further composition of that block executes; (ii)
`_handle_failure` puts the failing block into `failed_blocks` and
re-establishes the cascade invariant, so every block reachable from it
through parent_path or depends_on edges, transitively, is failed or
blocked; (iii) the main loop preserves the cascade invariant (every queue
entry's `parent_key` names its block's real parent), and once a block is
failed, every block reachable from it stays failed or blocked to the end
of the run. -/
theorem failure_cascade_closure (cfg : ExecCfg) :
    (∀ (stopAt : ℕ → Bool) (e : QueueEntry) (st : EState),
        e.blockPath ∈ st.failed ∨ e.blockPath ∈ st.blocked →
        execEntry cfg stopAt e st = .next st) ∧
    (∀ (st : EState) (bp : String) (idx : ℕ) (r : HookOut),
        CascadeInv cfg st →
        bp ∈ (handle_failure cfg st bp idx r).failed ∧
        CascadeInv cfg (handle_failure cfg st bp idx r) ∧
        (∀ q, Reaches cfg bp q →
          q ∈ (handle_failure cfg st bp idx r).failed ∨
          q ∈ (handle_failure cfg st bp idx r).blocked)) ∧
    (∀ (sched : Sched) (fuel : ℕ) (st : EState) (bp : String),
        CascadeInv cfg st → bp ∈ st.failed →
        CascadeInv cfg (runLoop cfg sched (build_queue cfg.blocks) fuel st) ∧
        (∀ q, Reaches cfg bp q →
          q ∈ (runLoop cfg sched (build_queue cfg.blocks) fuel st).failed ∨
          q ∈ (runLoop cfg sched (build_queue cfg.blocks) fuel st).blocked)) := by
  refine ⟨execEntry_skip cfg, ?_, ?_⟩
  · intro st bp idx r hinv
    obtain ⟨h1, h2⟩ := handle_failure_inv cfg st bp idx r hinv
    exact ⟨h1, h2, fun q hr => reaches_covered cfg _ h2 bp q hr (Or.inl h1)⟩
  · intro sched fuel st bp hinv hbp
    have h2 := runLoop_inv cfg sched (build_queue cfg.blocks)
      (build_queue_consistent cfg.blocks) fuel st hinv
    have hb2 := (runLoop_basic cfg sched (build_queue cfg.blocks) fuel st).1 hbp
    exact ⟨h2, fun q hr => reaches_covered cfg _ h2 bp q hr (Or.inl hb2)⟩

end Exec

unseal List.merge List.mergeSort in
/-- C3 (counterexample): the claim quantifies over *any* hook stage, but
`execute` never checks the result of `node_start`
(tree_executor.py:343-347 uses only `modify_context`).  A run whose
`node_start` hook returns `status = "error"` still executes `generate`,
completes the block, fails nothing, blocks nothing, and finishes
`"complete"` — refuting the claim for the `node_start` stage. -/
theorem node_start_error_ignored_counterexample :
    (Exec.execute Exec.nodeStartErrCfg .never Exec.initState).2 = "complete" ∧
    (Exec.execute Exec.nodeStartErrCfg .never Exec.initState).1.failed = [] ∧
    (Exec.execute Exec.nodeStartErrCfg .never Exec.initState).1.blocked = [] ∧
    Exec.Ev.hookExec "node_start" "0" 0 "error" ∈
      (Exec.execute Exec.nodeStartErrCfg .never Exec.initState).1.log ∧
    Exec.Ev.hookExec "generate" "0" 0 "success" ∈
      (Exec.execute Exec.nodeStartErrCfg .never Exec.initState).1.log ∧
    Exec.Ev.blockComplete "0" ∈
      (Exec.execute Exec.nodeStartErrCfg .never Exec.initState).1.log := by
  decide

/-- C3 (witness): failing block `0` of the parent/child table marks `0`
failed and covers its child `0.0` (reached through a parent_path edge) by
the failed/blocked sets. -/
theorem failure_cascade_closure_witness :
    "0" ∈ (Exec.handle_failure Exec.cascadeDemoCfg Exec.initState "0" 0
        { status := "error" }).failed ∧
    ("0.0" ∈ (Exec.handle_failure Exec.cascadeDemoCfg Exec.initState "0" 0
        { status := "error" }).failed ∨
     "0.0" ∈ (Exec.handle_failure Exec.cascadeDemoCfg Exec.initState "0" 0
        { status := "error" }).blocked) := by
  have h := (Exec.failure_cascade_closure Exec.cascadeDemoCfg).2.1
    Exec.initState "0" 0 { status := "error" }
    (fun p hp => absurd hp (by simp [Exec.initState]))
  exact ⟨h.1, h.2.2 "0.0" (Exec.Reaches.step "0"
    { path := "0.0", parentPath := some "0", compositions := 1, jobs := [{}] }
    (by decide) (Or.inl rfl))⟩

namespace Exec

/-! #### C1 support: queue ordering -/

theorem assocGet_eq_of_mem {κ α : Type} [DecidableEq κ] :
    ∀ (l : List (κ × α)), (l.map Prod.fst).Nodup → ∀ p ∈ l,
      assocGet l p.1 = some p.2 := by
  intro l
  induction l with
  | nil => intro _ p hp; exact absurd hp (List.not_mem_nil p)
  | cons q rest ih =>
      intro hnd p hp
      rw [List.map_cons, List.nodup_cons] at hnd
      rcases List.mem_cons.1 hp with hp | hp
      · subst hp
        unfold assocGet
        rw [List.find?_cons_of_pos _ (by simp)]
        rfl
      · have hne : ¬(q.1 = p.1) := by
          intro hh
          exact hnd.1 (hh ▸ List.mem_map.2 ⟨p, hp, rfl⟩)
        unfold assocGet
        rw [List.find?_cons_of_neg _ (by simpa using hne)]
        exact ih hnd.2 p hp

theorem assocGet_some_mem {κ α : Type} [DecidableEq κ] (l : List (κ × α))
    (k : κ) (v : α) (h : assocGet l k = some v) :
    ∃ p ∈ l, p.1 = k ∧ p.2 = v := by
  unfold assocGet at h
  cases hf : l.find? (fun p => p.1 = k) with
  | none => rw [hf] at h; exact absurd h (by simp)
  | some p =>
      rw [hf] at h
      have h1 : p.1 = k := by simpa using List.find?_some hf
      have h2 : p.2 = v := by simpa using h
      exact ⟨p, List.mem_of_find?_eq_some hf, h1, h2⟩

theorem findBlock_eq_of_mem :
    ∀ (blocks : List Block), (blocks.map (fun b => b.path)).Nodup →
      ∀ b ∈ blocks, findBlock blocks b.path = some b := by
  intro blocks
  induction blocks with
  | nil => intro _ b hb; exact absurd hb (List.not_mem_nil b)
  | cons q rest ih =>
      intro hnd b hb
      rw [List.map_cons, List.nodup_cons] at hnd
      rcases List.mem_cons.1 hb with hb | hb
      · subst hb
        unfold findBlock
        rw [List.find?_cons_of_pos _ (by simp)]
      · have hne : ¬(q.path = b.path) := by
          intro hh
          exact hnd.1 (hh ▸ List.mem_map.2 ⟨b, hb, rfl⟩)
        unfold findBlock
        rw [List.find?_cons_of_neg _ (by simpa using hne)]
        exact ih hnd.2 b hb

theorem findBlock_isSome_of_mem (blocks : List Block) (b : Block)
    (hb : b ∈ blocks) : (findBlock blocks b.path).isSome := by
  unfold findBlock
  rw [List.find?_isSome]
  exact ⟨b, hb, by simp⟩

/-- The (unique, when paths are nodup) parent path of the block at `x`. -/
def parentOf (blocks : List Block) (x : String) : Option String :=
  (findBlock blocks x).bind (fun b => b.parentPath)

/-- Iterated parent: the ancestor `n` levels above `x`, if the chain
exists. -/
def ancIter (blocks : List Block) : ℕ → String → Option String
  | 0, x => some x
  | n+1, x =>
      match parentOf blocks x with
      | some p => ancIter blocks n p
      | none => none

theorem ancIter_succ_right (blocks : List Block) :
    ∀ (n : ℕ) (x : String), ancIter blocks (n+1) x =
      (ancIter blocks n x).bind (parentOf blocks) := by
  intro n
  induction n with
  | zero =>
      intro x
      show (match parentOf blocks x with
            | some p => ancIter blocks 0 p
            | none => none) = (some x).bind (parentOf blocks)
      cases h : parentOf blocks x <;> simp [h, ancIter]
  | succ n ih =>
      intro x
      show (match parentOf blocks x with
            | some p => ancIter blocks (n+1) p
            | none => none) =
          (match parentOf blocks x with
            | some p => ancIter blocks n p
            | none => none).bind (parentOf blocks)
      cases h : parentOf blocks x with
      | none => rfl
      | some p => exact ih p

theorem ancIter_stuck (blocks : List Block) (x : String)
    (hx : parentOf blocks x = none) (k : ℕ) :
    ancIter blocks (k+1) x = none := by
  show (match parentOf blocks x with
        | some p => ancIter blocks k p
        | none => none) = none
  rw [hx]

theorem ancIter_add (blocks : List Block) :
    ∀ (b a : ℕ) (z : String),
      ancIter blocks (a + b) z = (ancIter blocks a z).bind (ancIter blocks b) := by
  intro b
  induction b with
  | zero =>
      intro a z
      cases h : ancIter blocks a z <;> simp [h, ancIter]
  | succ b ih =>
      intro a z
      have : a + (b + 1) = (a + b) + 1 := rfl
      rw [this, ancIter_succ_right, ih a z]
      cases h : ancIter blocks a z with
      | none => rfl
      | some w => exact (ancIter_succ_right blocks b w).symm

theorem mem_rootsOf (blocks : List Block) (r : Block) (h : r ∈ rootsOf blocks) :
    r ∈ blocks ∧ ∀ pp, r.parentPath = some pp → findBlock blocks pp = none := by
  unfold rootsOf at h
  rw [List.mem_filter] at h
  refine ⟨h.1, ?_⟩
  intro pp hpp
  have h2 := h.2
  simp only [hpp] at h2
  simpa using h2

theorem parentOf_root (blocks : List Block)
    (hnd : (blocks.map (fun b => b.path)).Nodup) (r : Block)
    (hr : r ∈ rootsOf blocks) :
    parentOf blocks r.path = none ∨
    ∃ pp, parentOf blocks r.path = some pp ∧ findBlock blocks pp = none := by
  obtain ⟨hrb, hpp⟩ := mem_rootsOf blocks r hr
  have hf : findBlock blocks r.path = some r := findBlock_eq_of_mem blocks hnd r hrb
  cases hp : r.parentPath with
  | none => exact Or.inl (by simp [parentOf, hf, hp])
  | some pp => exact Or.inr ⟨pp, by simp [parentOf, hf, hp], hpp pp hp⟩

theorem root_ancIter (blocks : List Block)
    (hnd : (blocks.map (fun b => b.path)).Nodup) (r : Block)
    (hr : r ∈ rootsOf blocks) (k : ℕ) (y : String)
    (hk : ancIter blocks k r.path = some y)
    (hy : (findBlock blocks y).isSome) : y = r.path := by
  cases k with
  | zero =>
      have : r.path = y := by simpa [ancIter] using hk
      exact this.symm
  | succ k =>
      rcases parentOf_root blocks hnd r hr with hnone | ⟨pp, hsome, hppnone⟩
      · rw [ancIter_stuck blocks r.path hnone k] at hk
        exact absurd hk (by simp)
      · have hstep : ancIter blocks (k+1) r.path = ancIter blocks k pp := by
          show (match parentOf blocks r.path with
                | some p => ancIter blocks k p
                | none => none) = _
          rw [hsome]
        rw [hstep] at hk
        have hppo : parentOf blocks pp = none := by simp [parentOf, hppnone]
        cases k with
        | zero =>
            have hy2 : pp = y := by simpa [ancIter] using hk
            rw [← hy2, hppnone] at hy
            exact absurd hy (by simp)
        | succ k2 =>
            rw [ancIter_stuck blocks pp hppo k2] at hk
            exact absurd hk (by simp)

theorem root_unique (blocks : List Block)
    (hnd : (blocks.map (fun b => b.path)).Nodup) (r1 r2 : Block)
    (h1 : r1 ∈ rootsOf blocks) (h2 : r2 ∈ rootsOf blocks) (z : String)
    (n m : ℕ) (hn : ancIter blocks n z = some r1.path)
    (hm : ancIter blocks m z = some r2.path) : r1.path = r2.path := by
  rcases Nat.le_total n m with h | h
  · have hsplit : ancIter blocks (n + (m - n)) z = some r2.path := by
      rw [Nat.add_sub_cancel' h]; exact hm
    rw [ancIter_add blocks (m - n) n z, hn] at hsplit
    have := root_ancIter blocks hnd r1 h1 (m - n) r2.path (by simpa using hsplit)
      (findBlock_isSome_of_mem blocks r2 (mem_rootsOf blocks r2 h2).1)
    exact this.symm
  · have hsplit : ancIter blocks (m + (n - m)) z = some r1.path := by
      rw [Nat.add_sub_cancel' h]; exact hn
    rw [ancIter_add blocks (n - m) m z, hm] at hsplit
    exact root_ancIter blocks hnd r2 h2 (n - m) r1.path (by simpa using hsplit)
      (findBlock_isSome_of_mem blocks r1 (mem_rootsOf blocks r1 h1).1)

theorem enqueueSubtree_anc (blocks : List Block)
    (hnd : (blocks.map (fun b => b.path)).Nodup) :
    ∀ (fuel : ℕ) (path : String) (idx : ℕ) (pk : Option (String × ℕ)),
      ∀ e ∈ enqueueSubtree blocks fuel path idx pk,
        ∃ n, ancIter blocks n e.blockPath = some path := by
  intro fuel
  induction fuel with
  | zero => intro path idx pk e he; exact absurd he (List.not_mem_nil e)
  | succ fuel ih =>
      intro path idx pk e he
      rw [enqueueSubtree] at he
      rcases List.mem_cons.1 he with he | he
      · subst he
        exact ⟨0, rfl⟩
      · rw [List.mem_flatMap] at he
        obtain ⟨child, hchild, he2⟩ := he
        dsimp only at he2
        rw [List.mem_flatMap] at he2
        obtain ⟨c, _, he3⟩ := he2
        split_ifs at he3 <;>
          first
            | exact absurd he3 (List.not_mem_nil e)
            | (obtain ⟨n, hn⟩ := ih child.path _ (some (path, idx)) e he3
               obtain ⟨hcb, hcp⟩ := mem_childrenOf blocks path child hchild
               refine ⟨n + 1, ?_⟩
               rw [ancIter_succ_right, hn]
               simp [parentOf, findBlock_eq_of_mem blocks hnd child hcb, hcp])

theorem chunk_locality (blocks : List Block)
    (hnd : (blocks.map (fun b => b.path)).Nodup) (r r2 : Block)
    (hr : r ∈ rootsOf blocks) (hr2 : r2 ∈ rootsOf blocks) (fuel i : ℕ)
    (e : QueueEntry) (he : e ∈ enqueueSubtree blocks fuel r.path i none)
    (hbp : e.blockPath = r2.path) : r.path = r2.path := by
  obtain ⟨n, hn⟩ := enqueueSubtree_anc blocks hnd fuel r.path i none e he
  rw [hbp] at hn
  exact (root_unique blocks hnd r2 r hr2 hr r2.path 0 n rfl hn).symm

theorem nodup_subset_all {α : Type} [DecidableEq α] (l1 l2 : List α)
    (h1 : l1.Nodup) (h2 : l2.Nodup) (hsub : ∀ x ∈ l1, x ∈ l2)
    (hlen : l2.length ≤ l1.length) : ∀ x ∈ l2, x ∈ l1 := by
  intro x hx
  have hc1 : l1.toFinset.card = l1.length := List.toFinset_card_of_nodup h1
  have hc2 : l2.toFinset.card = l2.length := List.toFinset_card_of_nodup h2
  have hsubF : l1.toFinset ⊆ l2.toFinset := fun a ha =>
    List.mem_toFinset.2 (hsub a (List.mem_toFinset.1 ha))
  have heq : l1.toFinset = l2.toFinset :=
    Finset.eq_of_subset_of_card_le hsubF (by omega)
  exact List.mem_toFinset.1 (heq ▸ List.mem_toFinset.2 hx)

theorem mem_insertSorted :
    ∀ (l : List String) (y x : String), x ∈ insertSorted l y ↔ x ∈ l ∨ x = y := by
  intro l
  induction l with
  | nil => intro y x; simp [insertSorted]
  | cons a as ih =>
      intro y x
      rw [insertSorted]
      split_ifs with h
      · simp only [List.mem_cons]
        tauto
      · simp only [List.mem_cons, ih]
        tauto

theorem insertSorted_nodup :
    ∀ (l : List String) (y : String), l.Nodup → y ∉ l →
      (insertSorted l y).Nodup := by
  intro l
  induction l with
  | nil => intro y _ _; simp [insertSorted]
  | cons a as ih =>
      intro y hnd hy
      rw [insertSorted]
      split_ifs with h
      · exact List.nodup_cons.2 ⟨hy, hnd⟩
      · rw [List.nodup_cons] at hnd
        refine List.nodup_cons.2 ⟨?_, ih y hnd.2 (fun hh => hy (List.mem_cons_of_mem a hh))⟩
        intro hh
        rcases (mem_insertSorted as y a).1 hh with hh2 | hh2
        · exact hnd.1 hh2
        · exact hy (hh2 ▸ List.mem_cons_self a as)

theorem foldl_insertSorted_mem :
    ∀ (xs l : List String) (x : String),
      x ∈ xs.foldl insertSorted l ↔ x ∈ l ∨ x ∈ xs := by
  intro xs
  induction xs with
  | nil => intro l x; simp
  | cons a as ih =>
      intro l x
      rw [List.foldl_cons, ih]
      rw [mem_insertSorted]
      simp only [List.mem_cons]
      tauto

theorem foldl_insertSorted_nodup :
    ∀ (xs l : List String), l.Nodup → xs.Nodup → (∀ x ∈ xs, x ∉ l) →
      (xs.foldl insertSorted l).Nodup := by
  intro xs
  induction xs with
  | nil => intro l hl _ _; exact hl
  | cons a as ih =>
      intro l hl hxs hdisj
      rw [List.foldl_cons]
      rw [List.nodup_cons] at hxs
      refine ih (insertSorted l a) (insertSorted_nodup l a hl (hdisj a (List.mem_cons_self a as)))
        hxs.2 ?_
      intro x hx hmem
      rcases (mem_insertSorted l a x).1 hmem with hh | hh
      · exact hdisj x (List.mem_cons_of_mem a hx) hh
      · exact hxs.1 (hh ▸ hx)

end Exec

namespace Exec

/-- The root-level dependency set computed for one root (the foldl body of
`rootDeps`). -/
def depsVal (roots : List Block) (r : Block) : List String :=
  r.dependsOn.foldl (fun acc dep =>
    match find_root_for (roots.map (fun r => r.path)) dep with
    | some t => if t ≠ r.path ∧ t ∉ acc then acc ++ [t] else acc
    | none => acc) []

theorem rootDeps_eq (roots : List Block) :
    rootDeps roots = roots.map (fun r => (r.path, depsVal roots r)) := rfl

theorem findRootForAux_mem (rootPaths : List String) :
    ∀ (fuel : ℕ) (parts : List String) (t : String),
      findRootForAux rootPaths fuel parts = some t → t ∈ rootPaths := by
  intro fuel
  induction fuel with
  | zero => intro parts t h; exact absurd h (by simp [findRootForAux])
  | succ fuel ih =>
      intro parts t h
      rw [findRootForAux] at h
      dsimp only at h
      split_ifs at h with h1 h2
      all_goals
        first
          | exact Option.noConfusion h
          | (have ht : joinDot parts = t := Option.some.inj h
             rw [← ht]
             exact h2)
          | (cases hf : rootPaths.find? (fun rp =>
                strStartsWith rp (joinDot parts ++ ".") || rp = joinDot parts) with
             | some rp =>
                 rw [hf] at h
                 have ht : rp = t := Option.some.inj h
                 rw [← ht]
                 exact List.mem_of_find?_eq_some hf
             | none =>
                 rw [hf] at h
                 exact ih parts.dropLast t h)

theorem find_root_for_mem (rootPaths : List String) (d t : String)
    (h : find_root_for rootPaths d = some t) : t ∈ rootPaths := by
  unfold find_root_for at h
  dsimp only at h
  split_ifs at h with h1
  · have ht : d = t := Option.some.inj h
    rw [← ht]
    exact h1
  · cases ha : findRootForAux rootPaths (strSplitOn d ".").length (strSplitOn d ".") with
    | some rp =>
        rw [ha] at h
        have ht : rp = t := Option.some.inj h
        rw [← ht]
        exact findRootForAux_mem rootPaths _ _ rp ha
    | none =>
        rw [ha] at h
        exact List.mem_of_find?_eq_some h

theorem depsVal_spec (roots : List Block) (r : Block) :
    (depsVal roots r).Nodup ∧
    ∀ t ∈ depsVal roots r, t ≠ r.path ∧ t ∈ roots.map (fun x => x.path) := by
  unfold depsVal
  suffices h : ∀ (ds : List String) (acc : List String), acc.Nodup →
      (∀ t ∈ acc, t ≠ r.path ∧ t ∈ roots.map (fun x => x.path)) →
      (ds.foldl (fun acc dep =>
        match find_root_for (roots.map (fun r => r.path)) dep with
        | some t => if t ≠ r.path ∧ t ∉ acc then acc ++ [t] else acc
        | none => acc) acc).Nodup ∧
      ∀ t ∈ ds.foldl (fun acc dep =>
        match find_root_for (roots.map (fun r => r.path)) dep with
        | some t => if t ≠ r.path ∧ t ∉ acc then acc ++ [t] else acc
        | none => acc) acc, t ≠ r.path ∧ t ∈ roots.map (fun x => x.path) by
    exact h r.dependsOn [] List.nodup_nil (by intro t ht; exact absurd ht (List.not_mem_nil t))
  intro ds
  induction ds with
  | nil => intro acc h1 h2; exact ⟨h1, h2⟩
  | cons d ds ih =>
      intro acc h1 h2
      rw [List.foldl_cons]
      cases hf : find_root_for (roots.map (fun r => r.path)) d with
      | none => exact ih acc h1 h2
      | some t =>
          dsimp only
          by_cases hc : t ≠ r.path ∧ t ∉ acc
          · rw [if_pos hc]
            refine ih (acc ++ [t]) ?_ ?_
            · rw [List.nodup_append]
              exact ⟨h1, List.nodup_singleton t,
                fun a ha hb => hc.2 ((List.mem_singleton.1 hb) ▸ ha)⟩
            · intro x hx
              rcases List.mem_append.1 hx with hx | hx
              · exact h2 x hx
              · rw [List.mem_singleton.1 hx]
                exact ⟨hc.1, find_root_for_mem _ d t hf⟩
          · rw [if_neg hc]
            exact ih acc h1 h2

theorem rootDeps_keys (roots : List Block) :
    (rootDeps roots).map Prod.fst = roots.map (fun r => r.path) := by
  rw [rootDeps_eq, List.map_map]
  rfl

theorem assocGet_rootDeps (roots : List Block)
    (hnd : (roots.map (fun r => r.path)).Nodup) (r : Block) (hr : r ∈ roots) :
    assocGet (rootDeps roots) r.path = some (depsVal roots r) := by
  have hk : ((rootDeps roots).map Prod.fst).Nodup := by
    rw [rootDeps_keys]; exact hnd
  have hmem : (r.path, depsVal roots r) ∈ rootDeps roots := by
    rw [rootDeps_eq]
    exact List.mem_map.2 ⟨r, hr, rfl⟩
  exact assocGet_eq_of_mem (rootDeps roots) hk (r.path, depsVal roots r) hmem

/-- The per-root dependency sets as a function of the root path (`[]` off
the key set). -/
def ovOf (roots : List Block) (k : String) : List String :=
  (assocGet (rootDeps roots) k).getD []

theorem ovOf_spec (roots : List Block) (k : String) :
    (ovOf roots k).Nodup ∧ ∀ t ∈ ovOf roots k, t ≠ k := by
  unfold ovOf
  cases h : assocGet (rootDeps roots) k with
  | none => simp
  | some v =>
      obtain ⟨p, hp, hp1, hp2⟩ := assocGet_some_mem _ _ _ h
      rw [rootDeps_eq] at hp
      obtain ⟨r, hr, hre⟩ := List.mem_map.1 hp
      have h1 : r.path = k := by rw [← hp1, ← hre]
      have h2 : v = depsVal roots r := by rw [← hp2, ← hre]
      obtain ⟨hv1, hv2⟩ := depsVal_spec roots r
      subst h2
      simp only [Option.getD_some]
      exact ⟨hv1, fun t ht => h1 ▸ (hv2 t ht).1⟩

end Exec

namespace Exec

/-- The Kahn-loop invariant: the dependency table keys are exactly the
root paths, each remaining set is the original set minus the emitted
nodes, ready keys have all dependencies emitted, and every emitted key
follows all of its dependencies in `result`. -/
def KInv (RP : List String) (ov : String → List String)
    (deps : List (String × List String)) (ready result : List String) : Prop :=
  deps.map Prod.fst = RP ∧
  (∀ p ∈ deps, p.2 = (ov p.1).filter (fun d => d ∉ result)) ∧
  ready.Nodup ∧
  (∀ k ∈ ready, k ∈ RP ∧ k ∉ result ∧ ∀ d ∈ ov k, d ∈ result) ∧
  result.Nodup ∧
  (∀ k ∈ result, k ∈ RP) ∧
  (∀ k ∈ result, ∀ d ∈ ov k, ∃ l1 l2, result = l1 ++ d :: l2 ∧ k ∈ l2)

theorem kahnStep_inv (RP : List String) (ov : String → List String)
    (hRP : RP.Nodup) (hov : ∀ k, (ov k).Nodup ∧ ∀ t ∈ ov k, t ≠ k)
    (deps : List (String × List String)) (node : String)
    (rest result : List String)
    (hinv : KInv RP ov deps (node :: rest) result) :
    KInv RP ov (kahnStep deps node).1
      ((kahnStep deps node).2.foldl insertSorted rest) (result ++ [node]) := by
  obtain ⟨hkeys, hvals, hrnd, hready, hresnd, hressub, hord⟩ := hinv
  have hnode := hready node (List.mem_cons_self node rest)
  have hrestnd : rest.Nodup := (List.nodup_cons.1 hrnd).2
  have hnodenotrest : node ∉ rest := (List.nodup_cons.1 hrnd).1
  have hdepsnd : (deps.map Prod.fst).Nodup := by rw [hkeys]; exact hRP
  have hS2mem : ∀ x ∈ (kahnStep deps node).2,
      x ∈ RP ∧ x ∉ result ∧ x ≠ node ∧ (node ∈ ov x ∧ node ∉ result) ∧
      (∀ d ∈ ov x, d ∈ result ++ [node]) := by
    intro x hx
    unfold kahnStep at hx
    dsimp only at hx
    rw [List.mem_map] at hx
    obtain ⟨p, hp, hpx⟩ := hx
    rw [List.mem_filter] at hp
    obtain ⟨hpd, hcond⟩ := hp
    have hcond2 : node ∈ p.2 ∧ p.2.erase node = [] := by simpa using hcond
    have hval := hvals p hpd
    subst hpx
    have hxRP : p.1 ∈ RP := by rw [← hkeys]; exact List.mem_map.2 ⟨p, hpd, rfl⟩
    have hnodeov : node ∈ ov p.1 ∧ node ∉ result := by
      have h2 := hcond2.1
      rw [hval, List.mem_filter] at h2
      exact ⟨h2.1, by simpa using h2.2⟩
    have hp1res : p.1 ∉ result := by
      intro hmem
      obtain ⟨l1, l2, hsplit, hkin⟩ := hord p.1 hmem node hnodeov.1
      exact hnodeov.2 (hsplit ▸ List.mem_append_right l1 (List.mem_cons_self _ _))
    refine ⟨hxRP, hp1res, ?_, hnodeov, ?_⟩
    · intro hEq
      exact (hov p.1).2 node hnodeov.1 (by rw [hEq])
    · intro d hd
      by_cases hdres : d ∈ result
      · exact List.mem_append_left _ hdres
      · have hdp2 : d ∈ p.2 := by
          rw [hval, List.mem_filter]
          exact ⟨hd, by simpa using hdres⟩
        have hp2nd : p.2.Nodup := by
          rw [hval]; exact ((hov p.1).1).filter _
        have herase := hcond2.2
        rw [List.Nodup.erase_eq_filter hp2nd] at herase
        have hdn0 := List.filter_eq_nil.1 herase d hdp2
        have hdn : d = node := by simpa using hdn0
        exact List.mem_append_right _ (hdn ▸ List.mem_singleton_self node)
  have hS2nodup : (kahnStep deps node).2.Nodup := by
    unfold kahnStep
    dsimp only
    exact List.Nodup.sublist
      ((List.filter_sublist deps).map Prod.fst) hdepsnd
  have hS2disj : ∀ x ∈ (kahnStep deps node).2, x ∉ rest := by
    intro x hx hxrest
    have hxf := hS2mem x hx
    have hr2 := hready x (List.mem_cons_of_mem node hxrest)
    exact hxf.2.2.2.1.2 (hr2.2.2 node hxf.2.2.2.1.1)
  refine ⟨?_, ?_, ?_, ?_, ?_, ?_, ?_⟩
  · show ((deps.map (fun p => (p.1, p.2.erase node))).map Prod.fst) = RP
    rw [List.map_map]
    exact hkeys
  · intro p' hp'
    show p'.2 = (ov p'.1).filter (fun d => d ∉ result ++ [node])
    have hp'2 : p' ∈ deps.map (fun p => (p.1, p.2.erase node)) := hp'
    rw [List.mem_map] at hp'2
    obtain ⟨p, hp, hpe⟩ := hp'2
    rw [← hpe]
    show (p.2.erase node) = (ov p.1).filter (fun d => d ∉ result ++ [node])
    rw [hvals p hp]
    have hnd2 : ((ov p.1).filter (fun d => d ∉ result)).Nodup :=
      ((hov p.1).1).filter _
    rw [List.Nodup.erase_eq_filter hnd2, List.filter_filter]
    refine List.filter_congr ?_
    intro d _
    by_cases h1 : d ∈ result <;> by_cases h2 : d = node <;>
      simp [h1, h2]
  · exact foldl_insertSorted_nodup _ rest hrestnd hS2nodup hS2disj
  · intro k hk
    rcases (foldl_insertSorted_mem _ rest k).1 hk with hk | hk
    · have h0 := hready k (List.mem_cons_of_mem node hk)
      have hkn : k ≠ node := fun hh => hnodenotrest (hh ▸ hk)
      refine ⟨h0.1, ?_, ?_⟩
      · intro hh
        rcases List.mem_append.1 hh with hh | hh
        · exact h0.2.1 hh
        · exact hkn (List.mem_singleton.1 hh)
      · intro d hd
        exact List.mem_append_left _ (h0.2.2 d hd)
    · have h0 := hS2mem k hk
      refine ⟨h0.1, ?_, h0.2.2.2.2⟩
      intro hh
      rcases List.mem_append.1 hh with hh | hh
      · exact h0.2.1 hh
      · exact h0.2.2.1 (List.mem_singleton.1 hh)
  · rw [List.nodup_append]
    exact ⟨hresnd, List.nodup_singleton node,
      fun a ha hb => hnode.2.1 ((List.mem_singleton.1 hb) ▸ ha)⟩
  · intro k hk
    rcases List.mem_append.1 hk with hk | hk
    · exact hressub k hk
    · exact (List.mem_singleton.1 hk) ▸ hnode.1
  · intro k hk d hd
    rcases List.mem_append.1 hk with hk | hk
    · obtain ⟨l1, l2, hsplit, hkin⟩ := hord k hk d hd
      refine ⟨l1, l2 ++ [node], ?_, List.mem_append_left _ hkin⟩
      rw [hsplit]
      simp [List.append_assoc]
    · have hkn := List.mem_singleton.1 hk
      subst hkn
      have hdres : d ∈ result := hnode.2.2 d hd
      obtain ⟨s, t, hst⟩ := List.append_of_mem hdres
      refine ⟨s, t ++ [k], ?_, List.mem_append_right _ (List.mem_singleton_self k)⟩
      rw [hst]
      simp [List.append_assoc]

theorem kahnLoop_spec (RP : List String) (ov : String → List String)
    (hRP : RP.Nodup) (hov : ∀ k, (ov k).Nodup ∧ ∀ t ∈ ov k, t ≠ k) :
    ∀ (fuel : ℕ) (deps : List (String × List String))
      (ready result : List String), KInv RP ov deps ready result →
      (kahnLoop fuel deps ready result).Nodup ∧
      (∀ k ∈ kahnLoop fuel deps ready result, k ∈ RP) ∧
      (∀ k ∈ kahnLoop fuel deps ready result, ∀ d ∈ ov k,
        ∃ l1 l2, kahnLoop fuel deps ready result = l1 ++ d :: l2 ∧ k ∈ l2) := by
  intro fuel
  induction fuel with
  | zero =>
      intro deps ready result hinv
      exact ⟨hinv.2.2.2.2.1, hinv.2.2.2.2.2.1, hinv.2.2.2.2.2.2⟩
  | succ fuel ih =>
      intro deps ready result hinv
      cases ready with
      | nil => exact ⟨hinv.2.2.2.2.1, hinv.2.2.2.2.2.1, hinv.2.2.2.2.2.2⟩
      | cons node rest =>
          exact ih (kahnStep deps node).1
            ((kahnStep deps node).2.foldl insertSorted rest) (result ++ [node])
            (kahnStep_inv RP ov hRP hov deps node rest result hinv)

theorem kahn_init (roots : List Block)
    (hnd : (roots.map (fun r => r.path)).Nodup) :
    KInv (roots.map (fun r => r.path)) (ovOf roots) (rootDeps roots)
      ((((rootDeps roots).filter (fun p => p.2.isEmpty)).map
        (fun p => p.1)).mergeSort (fun a b => a ≤ b)) [] := by
  have hk : ((rootDeps roots).map Prod.fst).Nodup := by
    rw [rootDeps_keys]; exact hnd
  have hov_eq : ∀ p ∈ rootDeps roots, ovOf roots p.1 = p.2 := by
    intro p hp
    unfold ovOf
    rw [assocGet_eq_of_mem (rootDeps roots) hk p hp]
    rfl
  refine ⟨rootDeps_keys roots, ?_, ?_, ?_, List.nodup_nil, ?_, ?_⟩
  · intro p hp
    rw [hov_eq p hp]
    symm
    rw [List.filter_eq_self]
    intro a _
    simp
  · rw [(List.mergeSort_perm _ _).nodup_iff]
    exact List.Nodup.sublist
      ((List.filter_sublist (rootDeps roots)).map (fun p => p.1))
      (by simpa using hk)
  · intro k hk2
    rw [(List.mergeSort_perm _ _).mem_iff, List.mem_map] at hk2
    obtain ⟨p, hp, hpk⟩ := hk2
    rw [List.mem_filter] at hp
    have hempty : p.2 = [] := by simpa using hp.2
    refine ⟨?_, by simp, ?_⟩
    · rw [← rootDeps_keys]
      exact List.mem_map.2 ⟨p, hp.1, hpk⟩
    · intro d hd
      rw [← hpk] at hd
      rw [hov_eq p hp.1, hempty] at hd
      exact absurd hd (List.not_mem_nil d)
  · intro k hk2
    exact absurd hk2 (List.not_mem_nil k)
  · intro k hk2
    exact absurd hk2 (List.not_mem_nil k)

end Exec

namespace Exec

/-- The initial ready list of `_topo_sort_roots`. -/
def kahnReady0 (roots : List Block) : List String :=
  (((rootDeps roots).filter (fun p => p.2.isEmpty)).map
    (fun p => p.1)).mergeSort (fun a b => a ≤ b)

/-- The list of root paths produced by the Kahn loop. -/
def kahnResult (roots : List Block) : List String :=
  kahnLoop (roots.length + 1) (rootDeps roots) (kahnReady0 roots) []

theorem topo_no_fallback (roots : List Block)
    (hacyc : ¬ (kahnResult roots).length < roots.length) :
    topo_sort_roots roots = (kahnResult roots).filterMap
      (fun p => roots.find? (fun r => r.path = p)) := by
  show (if (kahnResult roots).length < roots.length then
      roots.mergeSort (fun a b => a.path ≤ b.path)
    else (kahnResult roots).filterMap
      (fun p => roots.find? (fun r => r.path = p))) = _
  rw [if_neg hacyc]

theorem topo_subset (roots : List Block) :
    ∀ r ∈ topo_sort_roots roots, r ∈ roots := by
  intro r hr
  unfold topo_sort_roots at hr
  dsimp only at hr
  split_ifs at hr with h
  · exact (List.mergeSort_perm roots _).mem_iff.1 hr
  · rw [List.mem_filterMap] at hr
    obtain ⟨p, _, hfind⟩ := hr
    exact List.mem_of_find?_eq_some hfind

theorem filterMap_find_paths (roots : List Block) :
    ∀ (l : List String), (∀ p ∈ l, (roots.find? (fun r => r.path = p)).isSome) →
      (l.filterMap (fun p => roots.find? (fun r => r.path = p))).map
        (fun r => r.path) = l := by
  intro l
  induction l with
  | nil => intro _; rfl
  | cons a as ih =>
      intro h
      have ha := h a (List.mem_cons_self a as)
      cases hf : roots.find? (fun r => r.path = a) with
      | none => rw [hf] at ha; exact absurd ha (by simp)
      | some r =>
          rw [@List.filterMap_cons_some _ _
              (fun p => roots.find? (fun r => r.path = p)) a as r hf, List.map_cons,
            ih (fun p hp => h p (List.mem_cons_of_mem a hp))]
          have : r.path = a := by simpa using List.find?_some hf
          rw [this]

theorem topo_order (roots : List Block)
    (hnd : (roots.map (fun r => r.path)).Nodup)
    (hacyc : ¬ (kahnResult roots).length < roots.length)
    (B D : Block) (hB : B ∈ roots) (hD : D ∈ roots)
    (hdep : D.path ∈ ovOf roots B.path) :
    ∃ l1 l2, topo_sort_roots roots = l1 ++ D :: l2 ∧ B ∈ l2 ∧
      ((topo_sort_roots roots).map (fun r => r.path)).Nodup := by
  obtain ⟨hndres, hsub, hordres⟩ := kahnLoop_spec (roots.map (fun r => r.path))
    (ovOf roots) hnd (fun k => ovOf_spec roots k) (roots.length + 1)
    (rootDeps roots) (kahnReady0 roots) [] (kahn_init roots hnd)
  have hres : kahnLoop (roots.length + 1) (rootDeps roots) (kahnReady0 roots) []
      = kahnResult roots := rfl
  rw [hres] at hndres hsub hordres
  have hlen : roots.length ≤ (kahnResult roots).length := Nat.le_of_not_lt hacyc
  have hall : ∀ x ∈ roots.map (fun r => r.path), x ∈ kahnResult roots :=
    nodup_subset_all (kahnResult roots) (roots.map (fun r => r.path)) hndres hnd
      hsub (by rw [List.length_map]; exact hlen)
  have hBin : B.path ∈ kahnResult roots :=
    hall B.path (List.mem_map.2 ⟨B, hB, rfl⟩)
  obtain ⟨l1, l2, hsplit, hBl2⟩ := hordres B.path hBin D.path hdep
  have hfindsome : ∀ p ∈ kahnResult roots,
      (roots.find? (fun r => r.path = p)).isSome := by
    intro p hp
    have hpRP := hsub p hp
    rw [List.mem_map] at hpRP
    obtain ⟨r, hr, hrp⟩ := hpRP
    rw [List.find?_isSome]
    exact ⟨r, hr, by simp [hrp]⟩
  have hpaths : ((topo_sort_roots roots).map (fun r => r.path)) =
      kahnResult roots := by
    rw [topo_no_fallback roots hacyc]
    exact filterMap_find_paths roots (kahnResult roots) hfindsome
  have hfD : roots.find? (fun r => r.path = D.path) = some D :=
    findBlock_eq_of_mem roots hnd D hD
  have hfB : roots.find? (fun r => r.path = B.path) = some B :=
    findBlock_eq_of_mem roots hnd B hB
  refine ⟨l1.filterMap (fun p => roots.find? (fun r => r.path = p)),
    l2.filterMap (fun p => roots.find? (fun r => r.path = p)), ?_, ?_, ?_⟩
  · rw [topo_no_fallback roots hacyc, hsplit, List.filterMap_append,
      @List.filterMap_cons_some _ _
        (fun p => roots.find? (fun r => r.path = p)) D.path l2 D hfD]
  · exact List.mem_filterMap.2 ⟨B.path, hBl2, hfB⟩
  · rw [hpaths]
    exact hndres

/-- The queue entries contributed by one root's subtree. -/
def rootChunk (blocks : List Block) (root : Block) : List QueueEntry :=
  (List.range root.compositions).flatMap (fun i =>
    enqueueSubtree blocks (blocks.length + 1) root.path i none)

theorem build_queue_eq (blocks : List Block) :
    build_queue blocks =
      (topo_sort_roots (rootsOf blocks)).flatMap (rootChunk blocks) := rfl

theorem rootChunk_locality (blocks : List Block)
    (hnd : (blocks.map (fun b => b.path)).Nodup) (r r2 : Block)
    (hr : r ∈ rootsOf blocks) (hr2 : r2 ∈ rootsOf blocks) (e : QueueEntry)
    (he : e ∈ rootChunk blocks r) (hbp : e.blockPath = r2.path) :
    r.path = r2.path := by
  unfold rootChunk at he
  rw [List.mem_flatMap] at he
  obtain ⟨i, _, he2⟩ := he
  exact chunk_locality blocks hnd r r2 hr hr2 (blocks.length + 1) i e he2 hbp

theorem split_positions {β : Type} (L L1 L2 : List β) (hL : L = L1 ++ L2)
    (P Q : β → Prop) (hP : ∀ b ∈ L2, ¬P b) (hQ : ∀ b ∈ L1, ¬Q b) (i j : ℕ)
    (hi : i < L.length) (hj : j < L.length)
    (hPi : P (L.get ⟨i, hi⟩)) (hQj : Q (L.get ⟨j, hj⟩)) : i < j := by
  subst hL
  have hi2 : i < L1.length := by
    by_contra hc
    push_neg at hc
    have hmem : (L1 ++ L2).get ⟨i, hi⟩ ∈ L2 := by
      rw [List.get_eq_getElem, List.getElem_append_right hc]
      exact List.getElem_mem _
    exact hP _ hmem hPi
  have hj2 : L1.length ≤ j := by
    by_contra hc
    push_neg at hc
    have hmem : (L1 ++ L2).get ⟨j, hj⟩ ∈ L1 := by
      rw [List.get_eq_getElem, List.getElem_append_left hc]
      exact List.getElem_mem _
    exact hQ _ hmem hQj
  omega

end Exec

namespace Exec

/-- Blocks for the C1 counterexample: child `0.0` declares a dependency on
its parent `0`, and the depth-first queue interleaves their entries. -/
def c1blocks : List Block :=
  [{ path := "0", compositions := 2, jobs := [{}, {}] },
   { path := "0.0", parentPath := some "0", compositions := 2, jobs := [{}, {}],
     dependsOn := ["0"] }]

/-- Executor configuration over `c1blocks`. -/
def c1cfg : ExecCfg :=
  { blocks := c1blocks, hooks := plainHooks, outputPath := false }

/-- Two root blocks where `b` (first in the table) depends on `a`, so the
topological sort must reorder them. -/
def wBlocks : List Block :=
  [{ path := "b", compositions := 1, jobs := [{}], dependsOn := ["a"] },
   { path := "a", compositions := 1, jobs := [{}] }]

/-- C1: dependency ordering, as the code actually enforces it — at the
root level only.  (i) If `D` and `B` are root blocks, `D`'s root path is
in the root-level dependency set computed for `B`, the block paths are
distinct and the root dependency graph is acyclic (the Kahn loop emits
every root), then every queue entry whose block path is `D`'s precedes
every queue entry whose block path is `B`'s.  (ii) During execution,
`depends_on` is only a failure guard: an unvisited entry whose block has a
failed dependency is marked `blocked` (and skipped), not delayed — the
executor never waits for a dependency to reach `complete`. -/
theorem dependency_ordering (blocks : List Block) :
    (∀ (B D : Block),
      (blocks.map (fun b => b.path)).Nodup →
      B ∈ rootsOf blocks → D ∈ rootsOf blocks →
      D.path ∈ ovOf (rootsOf blocks) B.path →
      ¬ (kahnResult (rootsOf blocks)).length < (rootsOf blocks).length →
      ∀ (i j : ℕ) (hi : i < (build_queue blocks).length)
        (hj : j < (build_queue blocks).length),
        ((build_queue blocks).get ⟨i, hi⟩).blockPath = D.path →
        ((build_queue blocks).get ⟨j, hj⟩).blockPath = B.path →
        i < j) ∧
    (∀ (cfg : ExecCfg) (stopAt : ℕ → Bool) (e : QueueEntry) (st : EState)
      (block : Block),
      e.blockPath ∉ st.failed → e.blockPath ∉ st.blocked →
      e.parentKey = none →
      findBlock cfg.blocks e.blockPath = some block →
      block.dependsOn ≠ [] → e.blockPath ∉ st.visited →
      block.dependsOn.filter (fun d => d ∈ st.failed) ≠ [] →
      execEntry cfg stopAt e st = .next (markBlocked st e.blockPath)) := by
  constructor
  · intro B D hnd hB hD hdep hacyc i j hi hj hDi hBj
    have hrsub : (rootsOf blocks).Sublist blocks := by
      unfold rootsOf; exact List.filter_sublist blocks
    have hndroots : ((rootsOf blocks).map (fun r => r.path)).Nodup :=
      List.Nodup.sublist (hrsub.map (fun b => b.path)) hnd
    obtain ⟨l1, l2, hsplit, hBl2, hndpaths⟩ :=
      topo_order (rootsOf blocks) hndroots hacyc B D hB hD hdep
    have hpathsplit : ((topo_sort_roots (rootsOf blocks)).map (fun r => r.path)) =
        (l1.map (fun r => r.path)) ++ D.path :: (l2.map (fun r => r.path)) := by
      rw [hsplit]; simp
    rw [hpathsplit] at hndpaths
    have hDnotl2 : D.path ∉ l2.map (fun r => r.path) :=
      (List.nodup_cons.1 (List.nodup_append.1 hndpaths).2.1).1
    have hBpathl2 : B.path ∈ l2.map (fun r => r.path) :=
      List.mem_map.2 ⟨B, hBl2, rfl⟩
    have hBnotl1 : B.path ∉ l1.map (fun r => r.path) := by
      intro hmem
      exact (List.nodup_append.1 hndpaths).2.2 hmem
        (List.mem_cons_of_mem _ hBpathl2)
    have hBneD : B.path ≠ D.path := fun hh => hDnotl2 (hh ▸ hBpathl2)
    have hq : build_queue blocks =
        ((l1 ++ [D]).flatMap (rootChunk blocks)) ++
          (l2.flatMap (rootChunk blocks)) := by
      rw [build_queue_eq, hsplit,
        show l1 ++ D :: l2 = (l1 ++ [D]) ++ l2 by simp, List.flatMap_append]
    have htopomem : ∀ r, r ∈ l1 ∨ r = D ∨ r ∈ l2 → r ∈ rootsOf blocks := by
      intro r hr
      refine topo_subset (rootsOf blocks) r ?_
      rw [hsplit]
      rcases hr with h | h | h
      · exact List.mem_append_left _ h
      · exact List.mem_append_right _ (h ▸ List.mem_cons_self _ _)
      · exact List.mem_append_right _ (List.mem_cons_of_mem _ h)
    refine split_positions (build_queue blocks) _ _ hq
      (fun e => e.blockPath = D.path) (fun e => e.blockPath = B.path)
      ?_ ?_ i j hi hj hDi hBj
    · intro e he hPe
      rw [List.mem_flatMap] at he
      obtain ⟨r, hr, her⟩ := he
      have hloc := rootChunk_locality blocks hnd r D
        (htopomem r (Or.inr (Or.inr hr))) hD e her hPe
      exact hDnotl2 (hloc ▸ List.mem_map.2 ⟨r, hr, rfl⟩)
    · intro e he hQe
      rw [List.mem_flatMap] at he
      obtain ⟨r, hr, her⟩ := he
      rcases List.mem_append.1 hr with hr1 | hrD
      · have hloc := rootChunk_locality blocks hnd r B
          (htopomem r (Or.inl hr1)) hB e her hQe
        exact hBnotl1 (hloc ▸ List.mem_map.2 ⟨r, hr1, rfl⟩)
      · have hrD2 : r = D := List.mem_singleton.1 hrD
        subst hrD2
        have hloc := rootChunk_locality blocks hnd r B hD hB e her hQe
        exact hBneD hloc.symm
  · intro cfg stopAt e st block hf hb hpk hfind hdnil hnv hflt
    unfold execEntry
    dsimp only
    have hskip : ¬(e.blockPath ∈ st.failed ∨ e.blockPath ∈ st.blocked) := by
      intro hc
      rcases hc with hc | hc
      · exact hf hc
      · exact hb hc
    rw [if_neg hskip]
    simp only [hpk]
    rw [if_neg Bool.false_ne_true]
    simp only [hfind]
    rw [if_pos ⟨hdnil, hnv, hflt⟩]

end Exec

unseal List.merge List.mergeSort in
/-- C1 (counterexample): with root `0` (2 compositions) and its child
`0.0` (2 compositions) declaring `depends_on ["0"]`, the depth-first queue
is `[(0,0), (0.0,0), (0,1), (0.0,1)]`: the dependency's entry `(0, 1)` at
index 2 appears *after* the dependent's entry `(0.0, 0)` at index 1.
During the run, `generate` of `0.0`'s first composition (log index 11)
executes before `0` reaches `complete` (`block_complete "0"` is at log
index 19), refuting both halves of the claim for non-root dependencies. -/
theorem queue_order_violated_counterexample :
    ((Exec.build_queue Exec.c1blocks).get? 1).map (fun e => e.blockPath) =
      some "0.0" ∧
    ((Exec.build_queue Exec.c1blocks).get? 2).map (fun e => e.blockPath) =
      some "0" ∧
    (Exec.execute Exec.c1cfg .never Exec.initState).2 = "complete" ∧
    (Exec.execute Exec.c1cfg .never Exec.initState).1.failed = [] ∧
    Exec.Ev.hookExec "generate" "0.0" 0 "success" ∈
      (Exec.execute Exec.c1cfg .never Exec.initState).1.log ∧
    Exec.Ev.blockComplete "0" ∈
      (Exec.execute Exec.c1cfg .never Exec.initState).1.log ∧
    (Exec.execute Exec.c1cfg .never Exec.initState).1.log.indexOf
        (Exec.Ev.hookExec "generate" "0.0" 0 "success") <
      (Exec.execute Exec.c1cfg .never Exec.initState).1.log.indexOf
        (Exec.Ev.blockComplete "0") := by
  decide

unseal List.merge List.mergeSort in
/-- C1 (witness): for the two-root table where `b` depends on `a`, the
amended theorem places `a`'s queue entry (index 0) before `b`'s (index 1);
and an entry of `0.0` with dependency `0` already failed is marked
blocked, not executed. -/
theorem dependency_ordering_witness :
    (0 : ℕ) < 1 ∧
    Exec.execEntry Exec.c1cfg (fun _ => false) ⟨"0.0", 0, none⟩
      { failed := ["0"] } =
      .next (Exec.markBlocked { failed := ["0"] } "0.0") := by
  constructor
  · exact (Exec.dependency_ordering Exec.wBlocks).1
      { path := "b", compositions := 1, jobs := [{}], dependsOn := ["a"] }
      { path := "a", compositions := 1, jobs := [{}] }
      (by decide) (by decide) (by decide) (by decide) (by decide)
      0 1 (by decide) (by decide) (by decide) (by decide)
  · exact (Exec.dependency_ordering Exec.c1blocks).2 Exec.c1cfg
      (fun _ => false) ⟨"0.0", 0, none⟩ { failed := ["0"] }
      { path := "0.0", parentPath := some "0", compositions := 2,
        jobs := [{}, {}], dependsOn := ["0"] }
      (by decide) (by decide) rfl (by decide) (by decide) (by decide)
      (by decide)
